import Mathlib

/-!
Verification of the `edn` Python library (parser, printer and native codec
for the edn data-interchange format) against its specification.

The development shallowly embeds the code of `src/edn/_ast.py` and
`src/edn/_extended.py`.  The library represents edn abstract syntax as
terml terms: a term is either a leaf carrying Python scalar data or a
tagged node with a list of argument terms (collections carry a single
`.tuple.` argument, because `termMaker` coerces the Python sequence that
the constructor receives into one tuple term).  Python objects are
embedded as the inductive type `Obj`; terml terms as `Term`.

Python 2 specifics that the embedding models explicitly: `str` (byte
strings, carried as text whose characters are the bytes) and `unicode`
are distinct types that compare equal only for ASCII text; `bool` is a
subtype of `int` for `isinstance`, while `long` is not; binary floats
are carried opaquely (their printing and arithmetic are outside the
model).  The terml library and the perfidy `frozendict` are external
dependencies that are not part of the repository; their behaviour is
modelled from the repository's own test suite (for example
`unparse(True) = "true"` forces `coerceToTerm` to map booleans to
`true`/`false` tagged nodes, not to leaf data).
-/

set_option maxHeartbeats 1000000

namespace EdnSpec

/-- Python scalar values that terml stores as leaf data inside terms:
`int`, `long`, `float` (opaque bits), `str` (bytes) and `unicode`. -/
inductive PyLeaf where
  | pint (n : Int)
  | plong (n : Int)
  | pfloat (bits : Nat)
  | pstr (s : String)
  | puni (s : String)
deriving DecidableEq, Repr

/-- A terml term: leaf data or a tagged node with argument terms. -/
inductive Term where
  | leaf (d : PyLeaf)
  | node (tag : String) (args : List Term)
deriving Repr

/-- The universe of Python objects the library manipulates: native
scalars and containers, terml terms, and opaque host objects
(`datetime`, `uuid`, and arbitrary unencodable values `custom`). -/
inductive Obj where
  | pynone
  | pybool (b : Bool)
  | pyint (n : Int)
  | pylong (n : Int)
  | pyfloat (bits : Nat)
  | pystr (s : String)
  | pyuni (s : String)
  | pydec (s : String)
  | pylist (xs : List Obj)
  | pytuple (xs : List Obj)
  | pyset (xs : List Obj)
  | pyfrozenset (xs : List Obj)
  | pydict (ps : List (Obj × Obj))
  | pyfrozendict (ps : List (Obj × Obj))
  | term (t : Term)
  | pydatetime (iso : String)
  | pyuuid (s : String)
  | custom (id : Nat)
deriving Repr

/-- True when every character of the text is ASCII; Python 2 compares
`str` and `unicode` by decoding the bytes with the ascii codec. -/
def asciiOnly (s : String) : Bool := s.data.all (fun c => c.toNat < 128)

/-- Python `==` on terml leaf data: `int` and `long` compare
numerically, ASCII `str` compares equal to the same `unicode` text. -/
def pyLeafEq : PyLeaf → PyLeaf → Bool
  | .pint a, .pint b => a == b
  | .pint a, .plong b => a == b
  | .plong a, .pint b => a == b
  | .plong a, .plong b => a == b
  | .pfloat a, .pfloat b => a == b
  | .pstr a, .pstr b => a == b
  | .puni a, .puni b => a == b
  | .pstr a, .puni b => a == b && asciiOnly a
  | .puni a, .pstr b => a == b && asciiOnly a
  | _, _ => false

mutual

/-- Python `==` on terml terms: structural equality of tag and
arguments, with leaf data compared by `pyLeafEq`. -/
def termBEq : Term → Term → Bool
  | .leaf a, .leaf b => pyLeafEq a b
  | .node t1 a1, .node t2 a2 => t1 == t2 && termListBEq a1 a2
  | _, _ => false

/-- Elementwise `termBEq` on argument lists. -/
def termListBEq : List Term → List Term → Bool
  | [], [] => true
  | x :: xs, y :: ys => termBEq x y && termListBEq xs ys
  | _, _ => false

end

instance : BEq Term := ⟨termBEq⟩

/-- The `BEq` instance on terms unfolds to `termBEq`. -/
@[simp] theorem term_beq_def (a b : Term) : (a == b) = termBEq a b := rfl

mutual

/-- Python `==` on the embedded object universe.  Sequences compare
elementwise; sets compare by mutual membership (`set == frozenset` is
true in Python); mappings compare as finite maps; `bool` compares
numerically with `int`/`long`; ASCII `str` compares equal to the same
`unicode` text.  Opaque floats compare by their bits (NaN, which is not
equal to itself in Python, is outside the model and never used). -/
def pyEq : Obj → Obj → Bool
  | .pynone, .pynone => true
  | .pybool a, .pybool b => a == b
  | .pybool a, .pyint n => (if a then (1 : Int) else 0) == n
  | .pyint n, .pybool a => n == (if a then (1 : Int) else 0)
  | .pybool a, .pylong n => (if a then (1 : Int) else 0) == n
  | .pylong n, .pybool a => n == (if a then (1 : Int) else 0)
  | .pyint a, .pyint b => a == b
  | .pyint a, .pylong b => a == b
  | .pylong a, .pyint b => a == b
  | .pylong a, .pylong b => a == b
  | .pyfloat a, .pyfloat b => a == b
  | .pystr a, .pystr b => a == b
  | .pyuni a, .pyuni b => a == b
  | .pystr a, .pyuni b => a == b && asciiOnly a
  | .pyuni a, .pystr b => a == b && asciiOnly a
  | .pydec a, .pydec b => a == b
  | .pylist a, .pylist b => pySeqEq a b
  | .pytuple a, .pytuple b => pySeqEq a b
  | .pyset a, .pyset b => pySubset a b && pySupset a b
  | .pyset a, .pyfrozenset b => pySubset a b && pySupset a b
  | .pyfrozenset a, .pyset b => pySubset a b && pySupset a b
  | .pyfrozenset a, .pyfrozenset b => pySubset a b && pySupset a b
  | .pydict a, .pydict b => pyMapSub a b && pyMapSup a b
  | .pydict _, .pyfrozendict _ => false
  | .pyfrozendict _, .pydict _ => false
  | .pyfrozendict a, .pyfrozendict b => pyMapSub a b && pyMapSup a b
  | .term a, .term b => a == b
  | .pydatetime a, .pydatetime b => a == b
  | .pyuuid a, .pyuuid b => a == b
  | .custom a, .custom b => a == b
  | _, _ => false
termination_by a b => (sizeOf a, sizeOf b)

/-- Ordered elementwise equality between Python sequences. -/
def pySeqEq : List Obj → List Obj → Bool
  | [], [] => true
  | x :: xs, y :: ys => pyEq x y && pySeqEq xs ys
  | _, _ => false
termination_by a b => (sizeOf a, sizeOf b)

/-- Is the object (an element of the left-hand set) a member of `ys`? -/
def pyMem : Obj → List Obj → Bool
  | _, [] => false
  | x, y :: ys => pyEq x y || pyMem x ys
termination_by a b => (sizeOf a, sizeOf b)

/-- Every element of the first set occurs in the second. -/
def pySubset : List Obj → List Obj → Bool
  | [], _ => true
  | x :: xs, ys => pyMem x ys && pySubset xs ys
termination_by a b => (sizeOf a, sizeOf b)

/-- Some element of the first list equals `y`. -/
def pyMemRev : List Obj → Obj → Bool
  | [], _ => false
  | x :: xs, y => pyEq x y || pyMemRev xs y
termination_by a b => (sizeOf a, sizeOf b)

/-- Every element of the second set occurs in the first. -/
def pySupset : List Obj → List Obj → Bool
  | _, [] => true
  | xs, y :: ys => pyMemRev xs y && pySupset xs ys
termination_by a b => (sizeOf a, sizeOf b)

/-- Each pair of the first mapping has a matching pair in the second. -/
def pyMapSub : List (Obj × Obj) → List (Obj × Obj) → Bool
  | [], _ => true
  | p :: ps, qs => pyPairMem p qs && pyMapSub ps qs
termination_by a b => (sizeOf a, sizeOf b)

/-- The pair `p` matches some pair of `qs`. -/
def pyPairMem : Obj × Obj → List (Obj × Obj) → Bool
  | _, [] => false
  | (k, v), (k2, v2) :: qs => (pyEq k k2 && pyEq v v2) || pyPairMem (k, v) qs
termination_by a b => (sizeOf a, sizeOf b)

/-- Each pair of the second mapping has a matching pair in the first. -/
def pyMapSup : List (Obj × Obj) → List (Obj × Obj) → Bool
  | _, [] => true
  | ps, q :: qs => pyPairMemRev ps q && pyMapSup ps qs
termination_by a b => (sizeOf a, sizeOf b)

/-- Some pair of `ps` matches the pair `q`. -/
def pyPairMemRev : List (Obj × Obj) → Obj × Obj → Bool
  | [], _ => false
  | (k, v) :: ps, (k2, v2) => (pyEq k k2 && pyEq v v2) || pyPairMemRev ps (k2, v2)
termination_by a b => (sizeOf a, sizeOf b)

end

mutual

/-- terml `coerceToTerm`, as exercised by this library.  Modelled from
the repository's test suite (terml itself is an external dependency):
booleans and `None` become `true`/`false`/`null` tagged nodes (this is
forced by the passing test `unparse(True) == 'true'`, since leaf data
would print through `str` as `'True'`); numbers and strings become leaf
data; lists and tuples become `.tuple.` nodes.  Other objects (sets,
mappings, decimals, host objects) are not coercible and make terml
raise, which the model represents as `none`. -/
def coerceToTerm : Obj → Option Term
  | .term t => some t
  | .pynone => some (.node "null" [])
  | .pybool true => some (.node "true" [])
  | .pybool false => some (.node "false" [])
  | .pyint n => some (.leaf (.pint n))
  | .pylong n => some (.leaf (.plong n))
  | .pyfloat b => some (.leaf (.pfloat b))
  | .pystr s => some (.leaf (.pstr s))
  | .pyuni s => some (.leaf (.puni s))
  | .pylist xs => (coerceList xs).map (Term.node ".tuple.")
  | .pytuple xs => (coerceList xs).map (Term.node ".tuple.")
  | _ => none

/-- Coerce every element of a Python sequence to a term. -/
def coerceList : List Obj → Option (List Term)
  | [] => some []
  | x :: xs =>
      match coerceToTerm x with
      | some t =>
          match coerceList xs with
          | some ts => some (t :: ts)
          | none => none
      | none => none

end

/-! ## Numeric literal shape

Shared between the decoder's `Decimal` constructor (which rejects
malformed literals) and the grammar's float rule. -/

/-- Is the character an ASCII decimal digit? -/
def isDigitC (c : Char) : Bool := 48 ≤ c.toNat && c.toNat ≤ 57

/-- Split off the longest leading run of decimal digits. -/
def scanDigits : List Char → List Char × List Char
  | [] => ([], [])
  | c :: r =>
      if isDigitC c then
        let (d, r2) := scanDigits r
        (c :: d, r2)
      else ([], c :: r)

/-- Digit run without a redundant leading zero: either the single digit
`0` or a run starting with a nonzero digit. -/
def noLeadZero : List Char → Bool
  | [] => false
  | [c] => isDigitC c
  | c :: rest => isDigitC c && c ≠ '0' && rest.all isDigitC

/-- Optional exponent part: empty, or `e`/`E`, an optional sign and a
nonempty digit run that exhausts the input. -/
def wfExpPart : List Char → Bool
  | [] => true
  | c :: r =>
      (c == 'e' || c == 'E') &&
      (let r2 := match r with
        | s :: r3 => if s == '+' || s == '-' then r3 else s :: r3
        | [] => []
      let (ed, r4) := scanDigits r2
      !ed.isEmpty && r4.isEmpty)

/-- Body of a float literal after the optional sign: integer digits with
no redundant leading zero, an optional `.`-separated fraction, and an
optional exponent. -/
def wfFloatTail (cs : List Char) : Bool :=
  let pr := scanDigits cs
  noLeadZero pr.1 &&
  (match pr.2 with
   | c2 :: r2 =>
      if c2 == '.' then
        let fr := scanDigits r2
        !fr.1.isEmpty && wfExpPart fr.2
      else wfExpPart (c2 :: r2)
   | [] => true)

/-- Shape of the literal text accepted by the grammar's float rule (and
by `decimal.Decimal`): optional sign, then `wfFloatTail`. -/
def wfFloatLit (cs : List Char) : Bool :=
  match cs with
  | c :: r => if c == '+' || c == '-' then wfFloatTail r else wfFloatTail cs
  | [] => false

/-! ## The decoder (`from_terms`, `_Decoder` in `_extended.py`) -/

/-- Failures that can escape `from_terms`: the `Cannot decode` branch of
`_Decoder.leafTag` for a tag missing from the decoder table, terml's
failure to coerce a value in the generic `TaggedValue` carrier, and
payload coercion errors raised by the Python constructors the decoder
table maps tags to (`unicode`, `Decimal`, `frozendict`, arity errors). -/
inductive DecErr where
  | cannotDecode (tag : String)
  | uncoercible
  | badPayload (msg : String)
deriving DecidableEq, Repr

/-- A tag reader: a callable applied to the decoded payload. -/
def Reader : Type := Obj → Except DecErr Obj

/-- The per-call decoding context: caller readers (already merged in
front of the defaults by `from_terms`) and the optional caller default
for unresolved tags. -/
structure DecCtx where
  readers : List (Term × Reader)
  dflt : Option (Obj → Obj → Obj)

/-- The `Symbol` term constructor applied to a byte-string name. -/
def symbolT (name : String) : Term := .node "Symbol" [.leaf (.pstr name)]

/-- INST = Symbol('inst'). -/
def INST : Term := symbolT "inst"

/-- UUID = Symbol('uuid'). -/
def UUID : Term := symbolT "uuid"

/-- Modelled from the spec: `iso8601.parse_date` (an external library;
only the built-in `#inst` reader uses it).  The timestamp itself is
opaque: the model carries the text and fails on non-text payloads, as
the library fails on malformed timestamps. -/
def parse_date : Reader := fun v =>
  match v with
  | .pyuni s => .ok (.pydatetime s)
  | .pystr s => .ok (.pydatetime s)
  | _ => .error (.badPayload "iso8601")

/-- Modelled from the spec: `uuid.UUID` (standard library; only the
built-in `#uuid` reader uses it).  Opaque, carries the text. -/
def uuidOfText : Reader := fun v =>
  match v with
  | .pyuni s => .ok (.pyuuid s)
  | .pystr s => .ok (.pyuuid s)
  | _ => .error (.badPayload "uuid")

/-- DEFAULT_READERS: the built-in `#inst` and `#uuid` entries. -/
def DEFAULT_READERS : List (Term × Reader) :=
  [(INST, parse_date), (UUID, uuidOfText)]

/-- Dictionary lookup keyed by Python equality on the tag symbol. -/
def lookupReader : List (Term × Reader) → Obj → Option Reader
  | [], _ => none
  | (k, f) :: rest, sym =>
      if pyEq (.term k) sym then some f else lookupReader rest sym

/-- Leaf data decodes through `constantly(data)`: the Python object
itself. -/
def leafObj : PyLeaf → Obj
  | .pint n => .pyint n
  | .plong n => .pylong n
  | .pfloat b => .pyfloat b
  | .pstr s => .pystr s
  | .puni s => .pyuni s

/-- Python 2 `unicode(x)` as used by the `String`/`Character` decoder
entries: identity on `unicode`, ascii-decode of `str` (raising
`UnicodeDecodeError` on non-ASCII bytes), failure otherwise. -/
def pyUnicodeOf : Obj → Except DecErr Obj
  | .pyuni s => .ok (.pyuni s)
  | .pystr s =>
      if asciiOnly s then .ok (.pyuni s)
      else .error (.badPayload "UnicodeDecodeError")
  | _ => .error (.badPayload "unicode")

/-- Reshape a decoded `.tuple.` of pair tuples into mapping pairs (the
`frozendict` constructor fails when an item is not a pair). -/
def toPairs : List Obj → Option (List (Obj × Obj))
  | [] => some []
  | .pytuple [k, v] :: rest => (toPairs rest).map ((k, v) :: ·)
  | _ => none

/-- `_Decoder._handle_tagged_value`: look the decoded tag symbol up in
the merged reader table; apply the reader when found, otherwise the
caller default, otherwise fall back to the generic
`TaggedValue(symbol, value)` carrier (which re-coerces the decoded
payload into a term). -/
def handleTaggedValue (ctx : DecCtx) (as : List Obj) : Except DecErr Obj :=
  match as with
  | [sym, val] =>
      match lookupReader (ctx.readers ++ DEFAULT_READERS) sym with
      | some f => f val
      | none =>
          match ctx.dflt with
          | some d => .ok (d sym val)
          | none =>
              match coerceToTerm sym, coerceToTerm val with
              | some ts, some tv => .ok (.term (.node "TaggedValue" [ts, tv]))
              | _, _ => .error .uncoercible
  | _ => .error (.badPayload "arity")

/-- The decoder table `_DECODERS` (with the `TaggedValue` handler that
`_Decoder.__init__` adds), applied to the already-decoded argument
list.  A tag with no entry hits the `Cannot decode` branch of
`leafTag`. -/
def applyDecoder (ctx : DecCtx) (tag : String) (as : List Obj) : Except DecErr Obj :=
  if tag = ".tuple." then .ok (.pytuple as)
  else if tag = "Character" then
    match as with
    | [a] => pyUnicodeOf a
    | _ => .error (.badPayload "arity")
  else if tag = "ExactFloat" then
    match as with
    | [.pystr s] =>
        if wfFloatLit s.data then .ok (.pydec s)
        else .error (.badPayload "Decimal")
    | [.pyuni s] =>
        if wfFloatLit s.data then .ok (.pydec s)
        else .error (.badPayload "Decimal")
    | _ => .error (.badPayload "Decimal")
  else if tag = "String" then
    match as with
    | [a] => pyUnicodeOf a
    | _ => .error (.badPayload "arity")
  else if tag = "Vector" ∨ tag = "List" then
    match as with
    | [.pytuple xs] => .ok (.pytuple xs)
    | [.pylist xs] => .ok (.pytuple xs)
    | _ => .error (.badPayload "tuple")
  else if tag = "Map" then
    match as with
    | [.pytuple ps] =>
        match toPairs ps with
        | some prs => .ok (.pyfrozendict prs)
        | none => .error (.badPayload "frozendict")
    | _ => .error (.badPayload "frozendict")
  else if tag = "Nil" then .ok .pynone
  else if tag = "Set" then
    match as with
    | [.pytuple xs] => .ok (.pyfrozenset xs)
    | _ => .error (.badPayload "frozenset")
  else if tag = "Symbol" then
    match coerceList as with
    | some ts => .ok (.term (.node "Symbol" ts))
    | none => .error .uncoercible
  else if tag = "Keyword" then
    match coerceList as with
    | some ts => .ok (.term (.node "Keyword" ts))
    | none => .error .uncoercible
  else if tag = "TaggedValue" then handleTaggedValue ctx as
  else .error (.cannotDecode tag)

mutual

/-- Decode one term: leaf data passes through `constantly`; nodes decode
their arguments depth-first, then apply the decoder table entry for the
tag. -/
def decodeTerm (ctx : DecCtx) : Term → Except DecErr Obj
  | .leaf d => .ok (leafObj d)
  | .node tag args =>
      match decodeArgs ctx args with
      | .ok as => applyDecoder ctx tag as
      | .error err => .error err

/-- Decode a node's arguments in order. -/
def decodeArgs (ctx : DecCtx) : List Term → Except DecErr (List Obj)
  | [] => .ok []
  | t :: ts =>
      match decodeTerm ctx t with
      | .ok a =>
          match decodeArgs ctx ts with
          | .ok as => .ok (a :: as)
          | .error err => .error err
      | .error err => .error err

end

/-- `from_terms`: merge the caller readers in front of the built-in
defaults (caller entries win for the same tag), then build the term;
objects without a `build` method (native scalars) pass through the
`leafData` path unchanged. -/
def from_terms (x : Obj) (readers : List (Term × Reader))
    (dflt : Option (Obj → Obj → Obj)) : Except DecErr Obj :=
  match x with
  | .term t => decodeTerm ⟨readers, dflt⟩ t
  | v => .ok v

/-! ## The encoder (`to_terms` in `_extended.py`) -/

/-- Failures of `to_terms`: the `ValueError("Cannot convert %r to edn")`
raised by `_default_handler` (it names the offending value), terml
coercion failure, and exhaustion of the recursion budget (Python's
stack limit; `to_terms` recurses through the caller default and writer
transforms, whose outputs are arbitrary). -/
inductive EncErr where
  | cannotConvert (o : Obj)
  | uncoercible
  | fuelOut
deriving Repr

/-- One writer rule `(type, tag, transform)`: the `isinstance` test is
embedded as a predicate over objects. -/
structure Writer where
  typeTest : Obj → Bool
  tag : Term
  transform : Obj → Obj

/-- Tag names of terml leaf terms (`getattr(obj, 'tag', None)` succeeds
on any term). -/
def leafTagName : PyLeaf → String
  | .pint _ => ".int."
  | .plong _ => ".int."
  | .pfloat _ => ".float64."
  | .pstr _ => ".String."
  | .puni _ => ".String."

/-- `_get_tag_name`: the tag name of a terml term, `None` for native
objects. -/
def getTagName : Obj → Option String
  | .term (.node tag _) => some tag
  | .term (.leaf d) => some (leafTagName d)
  | _ => none

/-- First writer rule whose type test matches, scanning in order. -/
def firstWriter : List Writer → Obj → Option Writer
  | [], _ => none
  | w :: ws, o => if w.typeTest o then some w else firstWriter ws o

/-- isinstance(obj, datetime.datetime) in the embedding. -/
def isDatetime : Obj → Bool
  | .pydatetime _ => true
  | _ => false

/-- isinstance(obj, uuid.UUID) in the embedding. -/
def isUuid : Obj → Bool
  | .pyuuid _ => true
  | _ => false

/-- DEFAULT_WRITERS: datetimes by `isoformat` under `#inst`, uuids by
`str` under `#uuid` (both transforms yield the carried text). -/
def DEFAULT_WRITERS : List Writer :=
  [ ⟨isDatetime, INST, fun o => match o with | .pydatetime iso => .pystr iso | o => o⟩,
    ⟨isUuid, UUID, fun o => match o with | .pyuuid s => .pystr s | o => o⟩ ]

mutual

/-- `to_terms(obj, writers, default)`.  `none` for the default models
the raising `_default_handler`.  Dispatch, in source order: values
whose tag is `Keyword`/`Symbol` pass through; then the writer rules
(caller rules in front of `DEFAULT_WRITERS`), whose transform result is
re-encoded by `to_terms(writer(obj))` — that is, with the default
writer table and default handler, not the current ones — and wrapped as
`TaggedValue`; then the structural rules; then the default, whose
result is re-encoded by `recurse` with the current writers/default. -/
def to_terms : Nat → List Writer → Option (Obj → Obj) → Obj → Except EncErr Obj
  | 0, _, _, _ => .error .fuelOut
  | fuel + 1, writers, dflt, obj =>
    if getTagName obj == some "Keyword" || getTagName obj == some "Symbol" then
      .ok obj
    else
      match firstWriter (writers ++ DEFAULT_WRITERS) obj with
      | some w =>
          match to_terms fuel [] none (w.transform obj) with
          | .ok e =>
              match coerceToTerm e with
              | some te => .ok (.term (.node "TaggedValue" [w.tag, te]))
              | none => .error .uncoercible
          | .error err => .error err
      | none =>
        match obj with
        | .pystr s => .ok (.term (.node "String" [.leaf (.pstr s)]))
        | .pyuni s => .ok (.term (.node "String" [.leaf (.puni s)]))
        | .pydict ps =>
            match encodePairs fuel writers dflt ps with
            | .ok ts => .ok (.term (.node "Map" [.node ".tuple." ts]))
            | .error err => .error err
        | .pyfrozendict ps =>
            match encodePairs fuel writers dflt ps with
            | .ok ts => .ok (.term (.node "Map" [.node ".tuple." ts]))
            | .error err => .error err
        | .pyset xs =>
            match encodeElems fuel writers dflt xs with
            | .ok ts => .ok (.term (.node "Set" [.node ".tuple." ts]))
            | .error err => .error err
        | .pyfrozenset xs =>
            match encodeElems fuel writers dflt xs with
            | .ok ts => .ok (.term (.node "Set" [.node ".tuple." ts]))
            | .error err => .error err
        | .pytuple xs =>
            match encodeElems fuel writers dflt xs with
            | .ok ts => .ok (.term (.node "List" [.node ".tuple." ts]))
            | .error err => .error err
        | .pylist xs =>
            match encodeElems fuel writers dflt xs with
            | .ok ts => .ok (.term (.node "Vector" [.node ".tuple." ts]))
            | .error err => .error err
        | .pynone => .ok (.term (.node "Nil" []))
        | .pybool b => .ok (.pybool b)
        | .pyint n => .ok (.pyint n)
        | .pyfloat u => .ok (.pyfloat u)
        | .pydec s => .ok (.term (.node "ExactFloat" [.leaf (.pstr s)]))
        | o =>
            match dflt with
            | some d => to_terms fuel writers dflt (d o)
            | none => .error (.cannotConvert o)

/-- Encode each element with `recurse` (current writers/default); the
collection constructor then coerces the result into a term.  The
recursion budget decreases with every step (it models Python's stack
and is quantified as "large enough" in the theorems). -/
def encodeElems : Nat → List Writer → Option (Obj → Obj) → List Obj →
    Except EncErr (List Term)
  | _, _, _, [] => .ok []
  | 0, _, _, _ :: _ => .error .fuelOut
  | fuel + 1, writers, dflt, x :: xs =>
      match to_terms fuel writers dflt x with
      | .ok e =>
          match coerceToTerm e with
          | some t =>
              match encodeElems fuel writers dflt xs with
              | .ok ts => .ok (t :: ts)
              | .error err => .error err
          | none => .error .uncoercible
      | .error err => .error err

/-- Encode each mapping pair; each pair becomes a `.tuple.` node. -/
def encodePairs : Nat → List Writer → Option (Obj → Obj) → List (Obj × Obj) →
    Except EncErr (List Term)
  | _, _, _, [] => .ok []
  | 0, _, _, _ :: _ => .error .fuelOut
  | fuel + 1, writers, dflt, (k, v) :: ps =>
      match to_terms fuel writers dflt k with
      | .ok ek =>
          match to_terms fuel writers dflt v with
          | .ok ev =>
              match coerceToTerm ek, coerceToTerm ev with
              | some tk, some tv =>
                  match encodePairs fuel writers dflt ps with
                  | .ok ts => .ok (.node ".tuple." [tk, tv] :: ts)
                  | .error err => .error err
              | _, _ => .error .uncoercible
          | .error err => .error err
      | .error err => .error err

end

/-- `_default_handler` is the raising default: the absent caller
default. -/
def default_handler : Option (Obj → Obj) := none

end EdnSpec




namespace EdnSpec

/-! ## Text and bytes

`unparse` produces a Python 2 byte string.  The embedding carries byte
strings as `List Char` in which every character is one byte (code
below 256); unicode text is UTF-8 encoded at the `String` dump rule,
exactly as `obj.encode('utf8')` does in `_dump_String`. -/

/-- UTF-8 encoding of one unicode scalar value, byte values as
naturals. -/
def utf8EncodeChar (c : Char) : List Nat :=
  let n := c.toNat
  if n < 128 then [n]
  else if n < 2048 then [192 + n / 64, 128 + n % 64]
  else if n < 65536 then
    [224 + n / 4096, 128 + n / 64 % 64, 128 + n % 64]
  else
    [240 + n / 262144, 128 + n / 4096 % 64, 128 + n / 64 % 64, 128 + n % 64]

/-- UTF-8 encoding of a text, as Python's `encode('utf8')`. -/
def utf8Encode (s : List Char) : List Nat := s.flatMap utf8EncodeChar

/-- Decode one UTF-8 scalar: lead byte, following bytes; returns the
code point and the unconsumed suffix.  Rejects stray continuation
bytes, truncated sequences, overlong encodings and surrogates, as
Python's `decode('utf-8')` does. -/
def utf8Step (b : Nat) (bs : List Nat) : Option (Nat × List Nat) :=
  if b < 128 then some (b, bs)
  else if b < 192 then none
  else if b < 224 then
    match bs with
    | b1 :: bs1 =>
        if 128 ≤ b1 && b1 < 192 then
          let n := (b - 192) * 64 + (b1 - 128)
          if 128 ≤ n then some (n, bs1) else none
        else none
    | [] => none
  else if b < 240 then
    match bs with
    | b1 :: b2 :: bs2 =>
        if (128 ≤ b1 && b1 < 192) && (128 ≤ b2 && b2 < 192) then
          let n := (b - 224) * 4096 + (b1 - 128) * 64 + (b2 - 128)
          if 2048 ≤ n && !(55296 ≤ n && n < 57344) then some (n, bs2) else none
        else none
    | _ => none
  else if b < 245 then
    match bs with
    | b1 :: b2 :: b3 :: bs3 =>
        if ((128 ≤ b1 && b1 < 192) && (128 ≤ b2 && b2 < 192)) &&
           (128 ≤ b3 && b3 < 192) then
          let n := (b - 240) * 262144 + (b1 - 128) * 4096 +
                   (b2 - 128) * 64 + (b3 - 128)
          if 65536 ≤ n && n < 1114112 then some (n, bs3) else none
        else none
    | _ => none
  else none

/-- Decode a byte list scalar by scalar; the budget (one unit per
scalar) makes the recursion structural. -/
def utf8DecodeF : Nat → List Nat → Option (List Char)
  | _, [] => some []
  | 0, _ :: _ => none
  | f + 1, b :: bs =>
      match utf8Step b bs with
      | some (n, rest) =>
          match utf8DecodeF f rest with
          | some cs => some (Char.ofNat n :: cs)
          | none => none
      | none => none

/-- UTF-8 decoding (as Python's `decode('utf-8')`); the list length
bounds the number of scalars. -/
def utf8Decode (l : List Nat) : Option (List Char) := utf8DecodeF l.length l

/-- One step of decoding inverts the scalar encoder. -/
theorem utf8Step_encodeChar (c : Char) (rest : List Nat) :
    match utf8EncodeChar c ++ rest with
    | [] => False
    | b :: bs => utf8Step b bs = some (c.toNat, rest) := by
  have hv : c.toNat < 55296 ∨ (57344 ≤ c.toNat ∧ c.toNat < 1114112) := by
    have h := c.valid
    rcases h with h | ⟨h1, h2⟩
    · exact Or.inl h
    · exact Or.inr ⟨h1, h2⟩
  unfold utf8EncodeChar utf8Step
  by_cases h1 : c.toNat < 128
  · simp only [h1, if_true, List.cons_append, List.nil_append]
  · by_cases h2 : c.toNat < 2048
    · simp only [h1, h2, if_false, if_true, List.cons_append, List.nil_append]
      rw [if_neg (by omega), if_neg (by omega), if_pos (by omega)]
      have hb : (128 ≤ 128 + c.toNat % 64 && 128 + c.toNat % 64 < 192) = true := by
        simp only [Bool.and_eq_true, decide_eq_true_eq]; omega
      rw [if_pos hb]
      have hn : (192 + c.toNat / 64 - 192) * 64 + (128 + c.toNat % 64 - 128) = c.toNat := by
        omega
      simp only [hn]
      rw [if_pos (by omega)]
    · by_cases h3 : c.toNat < 65536
      · simp only [h1, h2, h3, if_false, if_true, List.cons_append, List.nil_append]
        rw [if_neg (by omega), if_neg (by omega), if_neg (by omega), if_pos (by omega)]
        have hb : ((128 ≤ 128 + c.toNat / 64 % 64 && 128 + c.toNat / 64 % 64 < 192) &&
            (128 ≤ 128 + c.toNat % 64 && 128 + c.toNat % 64 < 192)) = true := by
          simp only [Bool.and_eq_true, decide_eq_true_eq]; omega
        rw [if_pos hb]
        have hn : (224 + c.toNat / 4096 - 224) * 4096 + (128 + c.toNat / 64 % 64 - 128) * 64 +
            (128 + c.toNat % 64 - 128) = c.toNat := by omega
        simp only [hn]
        have hc2 : (2048 ≤ c.toNat && !(55296 ≤ c.toNat && c.toNat < 57344)) = true := by
          simp only [Bool.and_eq_true, Bool.not_eq_true', Bool.and_eq_false_iff,
            decide_eq_true_eq, decide_eq_false_iff_not]
          omega
        rw [if_pos hc2]
      · simp only [h1, h2, h3, if_false, List.cons_append, List.nil_append]
        rw [if_neg (by omega), if_neg (by omega), if_neg (by omega), if_neg (by omega),
          if_pos (by omega)]
        have hb : (((128 ≤ 128 + c.toNat / 4096 % 64 && 128 + c.toNat / 4096 % 64 < 192) &&
            (128 ≤ 128 + c.toNat / 64 % 64 && 128 + c.toNat / 64 % 64 < 192)) &&
            (128 ≤ 128 + c.toNat % 64 && 128 + c.toNat % 64 < 192)) = true := by
          simp only [Bool.and_eq_true, decide_eq_true_eq]; omega
        rw [if_pos hb]
        have hn : (240 + c.toNat / 262144 - 240) * 262144 +
            (128 + c.toNat / 4096 % 64 - 128) * 4096 +
            (128 + c.toNat / 64 % 64 - 128) * 64 + (128 + c.toNat % 64 - 128) = c.toNat := by
          omega
        simp only [hn]
        have hc2 : (65536 ≤ c.toNat && c.toNat < 1114112) = true := by
          simp only [Bool.and_eq_true, decide_eq_true_eq]; omega
        rw [if_pos hc2]

/-- The scalar encoder emits at least one byte. -/
theorem utf8EncodeChar_ne_nil (c : Char) : utf8EncodeChar c ≠ [] := by
  unfold utf8EncodeChar
  by_cases h1 : c.toNat < 128 <;> by_cases h2 : c.toNat < 2048 <;>
    by_cases h3 : c.toNat < 65536 <;> simp [h1, h2, h3]

/-- With enough budget, decoding inverts encoding. -/
theorem utf8DecodeF_encode (s : List Char) : ∀ f, s.length ≤ f →
    utf8DecodeF f (utf8Encode s) = some s := by
  induction s with
  | nil => intro f _; cases f <;> rfl
  | cons c cs ih =>
      intro f hf
      cases f with
      | zero => simp at hf
      | succ f =>
          have henc : utf8Encode (c :: cs) = utf8EncodeChar c ++ utf8Encode cs := by
            simp [utf8Encode]
          have hstep := utf8Step_encodeChar c (utf8Encode cs)
          rcases hcc : utf8EncodeChar c with _ | ⟨b, bs⟩
          · exact absurd hcc (utf8EncodeChar_ne_nil c)
          · rw [hcc] at hstep
            have hstep2 : utf8Step b (bs ++ utf8Encode cs) = some (c.toNat, utf8Encode cs) := by
              simpa using hstep
            rw [henc, hcc]
            simp only [List.cons_append, utf8DecodeF, List.append_eq]
            rw [hstep2]
            have hcs : cs.length ≤ f := by
              simp only [List.length_cons] at hf
              omega
            dsimp only
            rw [ih f hcs, Char.ofNat_toNat]

/-- Each scalar takes at least one byte, so the length budget of
`utf8Decode` suffices. -/
theorem utf8Encode_length_ge (s : List Char) : s.length ≤ (utf8Encode s).length := by
  induction s with
  | nil => simp [utf8Encode]
  | cons c cs ih =>
      have h1 : 0 < (utf8EncodeChar c).length :=
        List.length_pos.mpr (utf8EncodeChar_ne_nil c)
      have h2 : utf8Encode (c :: cs) = utf8EncodeChar c ++ utf8Encode cs := by
        simp [utf8Encode]
      rw [h2]
      simp only [List.length_append, List.length_cons]
      omega

/-- Decoding inverts encoding on whole texts. -/
theorem utf8Decode_encode (s : List Char) : utf8Decode (utf8Encode s) = some s :=
  utf8DecodeF_encode s (utf8Encode s).length (utf8Encode_length_ge s)

end EdnSpec
namespace EdnSpec

/-! ## The printer (`unparse`, `_Builder` in `_ast.py`) -/

/-- The decimal digit character for one digit value. -/
def digitChar (d : Nat) : Char := Char.ofNat (48 + d)

/-- Decimal digits of a natural number, most significant first; the
budget makes the recursion structural and `n + 1` always suffices. -/
def natDigitsF : Nat → Nat → List Char
  | 0, _ => []
  | f + 1, n => if n < 10 then [digitChar n] else natDigitsF f (n / 10) ++ [digitChar (n % 10)]

/-- Decimal representation of a natural number. -/
def natChars (n : Nat) : List Char := natDigitsF (n + 1) n

/-- Python `str` of an integer: optional minus sign and digits. -/
def intChars (n : Int) : List Char :=
  if n < 0 then '-' :: natChars n.natAbs else natChars n.toNat

/-- One byte of a string body as `_dump_String` emits it: the escape
table maps the double quote, backslash, LF, CR, TAB, backspace and
form-feed bytes to two-character escapes; every other byte is emitted
verbatim. -/
def escByte (b : Nat) : List Char :=
  if b = 34 then ['\\', '"']
  else if b = 92 then ['\\', '\\']
  else if b = 10 then ['\\', 'n']
  else if b = 13 then ['\\', 'r']
  else if b = 9 then ['\\', 't']
  else if b = 8 then ['\\', 'b']
  else if b = 12 then ['\\', 'f']
  else [Char.ofNat b]

/-- `_Builder._dump_String`: UTF-8 encode the text, pass every byte
through the escape table, and wrap the result in double quotes. -/
def dump_String (s : List Char) : List Char :=
  '"' :: (utf8Encode s).flatMap escByte ++ ['"']

/-- Failures of the builder: `leafData`'s `ValueError("Cannot encode")`
(no PRIMITIVES entry), a node tag without a `_dump_` method, an arity
that does not fit the dump rule, and `str` applied to a binary float
(64-bit float printing is outside the model). -/
inductive BldErr where
  | cannotEncode
  | unknownTag (tag : String)
  | badArity (tag : String)
  | floatRepr
deriving DecidableEq, Repr

/-- `_Builder.PRIMITIVES`: ints and floats through `str`, longs through
`str` plus `'N'`, text unchanged.  The model has no `str` for opaque
binary floats and reports them as unsupported. -/
def dumpLeaf : PyLeaf → Except BldErr (List Char)
  | .pint n => .ok (intChars n)
  | .plong n => .ok (intChars n ++ ['N'])
  | .pfloat _ => .error .floatRepr
  | .pstr s => .ok s.data
  | .puni s => .ok s.data

/-- `' '.join` of already built pieces. -/
def joinSpace : List (List Char) → List Char
  | [] => []
  | [x] => x
  | x :: xs => x ++ ' ' :: joinSpace xs

/-- The `_dump_<tag>` dispatch of `_Builder.leafTag`, applied to the
built argument pieces.  `.tuple.` nodes merge their elements with
single spaces; collections wrap their single merged argument in the
bracket pair; `true`/`false`/`Nil` are literal tokens. -/
def dumpNode (tag : String) (as : List (List Char)) : Except BldErr (List Char) :=
  if tag = ".tuple." then .ok (joinSpace as)
  else if tag = "true" then .ok "true".data
  else if tag = "false" then .ok "false".data
  else if tag = "Nil" then .ok "nil".data
  else if tag = "Character" then
    match as with
    | [a] => .ok ('\\' :: a)
    | _ => .error (.badArity tag)
  else if tag = "ExactFloat" then
    match as with
    | [a] => .ok (a ++ ['M'])
    | _ => .error (.badArity tag)
  else if tag = "Keyword" then
    match as with
    | [a] => .ok (':' :: a)
    | _ => .error (.badArity tag)
  else if tag = "Symbol" then
    match as with
    | [a] => .ok a
    | [a, b] => .ok (b ++ '/' :: a)
    | _ => .error (.badArity tag)
  else if tag = "TaggedValue" then
    match as with
    | [t, v] => .ok ('#' :: t ++ ' ' :: v)
    | _ => .error (.badArity tag)
  else if tag = "String" then
    match as with
    | [a] => .ok (dump_String a)
    | _ => .error (.badArity tag)
  else if tag = "List" then .ok ('(' :: as.flatten ++ [')'])
  else if tag = "Vector" then .ok ('[' :: as.flatten ++ [']'])
  else if tag = "Set" then .ok ('#' :: '{' :: as.flatten ++ ['}'])
  else if tag = "Map" then .ok ('{' :: as.flatten ++ ['}'])
  else .error (.unknownTag tag)

mutual

/-- `coerceToTerm(obj).build(builder)` for a term: build the arguments
bottom-up, then apply the dump rule selected by `leafTag`/`leafData`. -/
def buildTerm : Term → Except BldErr (List Char)
  | .leaf d => dumpLeaf d
  | .node tag args =>
      match buildArgs args with
      | .ok as => dumpNode tag as
      | .error e => .error e

/-- Build each argument of a node. -/
def buildArgs : List Term → Except BldErr (List (List Char))
  | [] => .ok []
  | t :: ts =>
      match buildTerm t with
      | .ok a =>
          match buildArgs ts with
          | .ok as => .ok (a :: as)
          | .error e => .error e
      | .error e => .error e

end

/-- `unparse`: coerce the object to a term and build it. -/
def unparse (o : Obj) : Except BldErr (List Char) :=
  match coerceToTerm o with
  | some t => buildTerm t
  | none => .error .cannotEncode

end EdnSpec

namespace EdnSpec

/-! ## The grammar (`parse` in `_ast.py`)

The grammar file `edn.parsley` is referenced by `setup.py` and loaded
by `_ast.py`, but it is not part of the sources; the parser below is
modelled from the specification (ordered-choice recursive descent,
section 4.1) and from the repository's parser tests.  Two documented
restrictions of the model: binary float literals (no trailing `M`)
denote 64-bit host floats, which are outside the model, so the model
rejects them instead of producing an opaque float (binary floats
delegate to the host `float()`/`str`, whose 12-significant-digit
printing lives outside the repository); `#_` discard forms read and
drop one form, then read the next. -/

/-- Whitespace: space, tab, newline, carriage return, and the comma. -/
def isWsC (c : Char) : Bool :=
  c == ' ' || c == '\t' || c == '\n' || c == '\r' || c == ','

/-- ASCII letters. -/
def isAlphaC (c : Char) : Bool :=
  (65 ≤ c.toNat && c.toNat ≤ 90) || (97 ≤ c.toNat && c.toNat ≤ 122)

/-- The non-alphanumeric symbol constituents of section 4.1. -/
def isSymPunct (c : Char) : Bool :=
  c == '.' || c == '*' || c == '+' || c == '!' || c == '-' || c == '_' ||
  c == '?' || c == '$' || c == '%' || c == '&' || c == '=' || c == '<' ||
  c == '>' || c == ':' || c == '#'

/-- Symbol constituent characters. -/
def isConstituent (c : Char) : Bool :=
  isAlphaC c || isDigitC c || isSymPunct c

mutual

/-- Skip insignificant whitespace, commas and `;` comments. -/
def skipWs : List Char → List Char
  | [] => []
  | c :: r =>
      if isWsC c then skipWs r
      else if c == ';' then skipComment r
      else c :: r

/-- Skip the rest of a `;` comment line. -/
def skipComment : List Char → List Char
  | [] => []
  | c :: r => if c == '\n' then skipWs r else skipComment r

end

/-- Longest leading run of symbol constituents. -/
def takeSyms : List Char → List Char × List Char
  | [] => ([], [])
  | c :: r =>
      if isConstituent c then
        let (a, b) := takeSyms r
        (c :: a, b)
      else ([], c :: r)

/-- Match a literal token, returning the rest of the input. -/
def startsWithL : List Char → List Char → Option (List Char)
  | [], rest => some rest
  | _ :: _, [] => none
  | l :: ls, c :: r => if c == l then startsWithL ls r else none

/-- Token boundary after a literal: not a constituent and not the
namespace separator. -/
def boundaryOk : List Char → Bool
  | [] => true
  | c :: _ => !(isConstituent c) && !(c == '/')

/-- Try one literal token with its value. -/
def tryLit (lit : List Char) (v : Obj) (s : List Char) : Option (Obj × List Char) :=
  match startsWithL lit s with
  | some rest => if boundaryOk rest then some (v, rest) else none
  | none => none

/-- The `nil`, `true` and `false` literal rules, in order. -/
def tryLiterals (s : List Char) : Option (Obj × List Char) :=
  match tryLit "nil".data (.term (.node "Nil" [])) s with
  | some r => some r
  | none =>
      match tryLit "true".data (.pybool true) s with
      | some r => some r
      | none => tryLit "false".data (.pybool false) s

/-- May a symbol chunk start here?  Not a digit, not `:` or `#`, and a
sign must not be followed by a digit (`-9aou` is rejected by the
symbol rule in the repository's tests). -/
def symStartOk (s : List Char) : Bool :=
  match s with
  | [] => false
  | c :: rest =>
      isConstituent c && !(isDigitC c) && !(c == ':') && !(c == '#') &&
      (if c == '+' || c == '-' then
        (match rest with
         | d :: _ => !(isDigitC d)
         | [] => true)
       else true)

/-- The symbol rule: the lone `/`, or a constituent chunk optionally
followed by `/` and a second nonempty chunk (`prefix/name`). -/
def symbolRule (s : List Char) : Option (Term × List Char) :=
  match s with
  | [] => none
  | c :: rest =>
      if c == '/' then
        if boundaryOk rest then some (.node "Symbol" [.leaf (.pstr "/")], rest) else none
      else if symStartOk (c :: rest) then
        let pr := takeSyms (c :: rest)
        match pr.2 with
        | sep :: r2 =>
            if sep == '/' then
              let pr2 := takeSyms r2
              if pr2.1.isEmpty then none
              else some (.node "Symbol"
                [.leaf (.pstr (String.mk pr2.1)), .leaf (.pstr (String.mk pr.1))], pr2.2)
            else some (.node "Symbol" [.leaf (.pstr (String.mk pr.1))], sep :: r2)
        | [] => some (.node "Symbol" [.leaf (.pstr (String.mk pr.1))], [])
      else none

/-- Does a number start here (digit, or sign followed by a digit)? -/
def numStartOk (s : List Char) : Bool :=
  match s with
  | [] => false
  | c :: rest =>
      isDigitC c ||
      ((c == '+' || c == '-') &&
        (match rest with
         | d :: _ => isDigitC d
         | [] => false))

/-- Numeric value of a digit run with an optional sign. -/
def digitsToNat (ds : List Char) : Nat :=
  ds.foldl (fun acc c => acc * 10 + (c.toNat - 48)) 0

/-- Signed value of a digit run. -/
def digitsVal (sgn : Option Char) (ds : List Char) : Int :=
  match sgn with
  | some c => if c == '-' then -(Int.ofNat (digitsToNat ds)) else Int.ofNat (digitsToNat ds)
  | none => Int.ofNat (digitsToNat ds)

/-- Match an exponent (`e`/`E`, optional sign, digits); returns the
matched text verbatim and the rest. -/
def scanExp : List Char → Option (List Char × List Char)
  | [] => none
  | c :: r =>
      if c == 'e' || c == 'E' then
        match r with
        | [] => none
        | d :: r2 =>
            if d == '+' || d == '-' then
              let (ed, r3) := scanDigits r2
              if ed.isEmpty then none else some (c :: d :: ed, r3)
            else
              let (ed, r3) := scanDigits r
              if ed.isEmpty then none else some (c :: ed, r3)
      else none

/-- The number rules: float first (kept as `ExactFloat` when the `M`
suffix is present; a binary float literal is rejected by the model),
then integer (`N` marks a long).  The integer part must not carry a
redundant leading zero. -/
def numberRuleCore (sgn : Option Char) (s1 : List Char) : Option (Obj × List Char) :=
  let (ds, s2) := scanDigits s1
  if ds.isEmpty then none
  else if !(noLeadZero ds) then none
  else
    let fracSplit : Option (List Char) × List Char :=
      match s2 with
      | c2 :: r =>
          if c2 == '.' then
            let (fp, r2) := scanDigits r
            if fp.isEmpty then (none, s2) else (some fp, r2)
          else (none, s2)
      | [] => (none, s2)
    let frac := fracSplit.1
    let s3 := fracSplit.2
    let expSplit : Option (List Char) × List Char :=
      match scanExp s3 with
      | some (es, r) => (some es, r)
      | none => (none, s3)
    let expp := expSplit.1
    let s4 := expSplit.2
    let floatish := frac.isSome || expp.isSome
    match s4 with
    | c4 :: r5 =>
        if c4 == 'M' then
          let lit := (match sgn with | some c => [c] | none => []) ++ ds ++
                     (match frac with | some fp => '.' :: fp | none => []) ++
                     (match expp with | some es => es | none => [])
          some (.term (.node "ExactFloat" [.leaf (.pstr (String.mk lit))]), r5)
        else if c4 == 'N' then
          if floatish then none else some (.pylong (digitsVal sgn ds), r5)
        else if floatish then none
        else some (.pyint (digitsVal sgn ds), c4 :: r5)
    | [] => if floatish then none else some (.pyint (digitsVal sgn ds), [])

/-- The full number rule: an optional leading sign, then the core. -/
def numberRule (s : List Char) : Option (Obj × List Char) :=
  match s with
  | c :: r => if c == '+' || c == '-' then numberRuleCore (some c) r else numberRuleCore none s
  | [] => numberRuleCore none []

/-- A `Character` term holding a one-byte string. -/
def charT (c : Char) : Term := .node "Character" [.leaf (.pstr (String.mk [c]))]

/-- The character rule, after the leading backslash: the named
characters, else one literal byte. -/
def charRule (s : List Char) : Option (Term × List Char) :=
  match startsWithL "newline".data s with
  | some r => some (charT '\n', r)
  | none =>
  match startsWithL "return".data s with
  | some r => some (charT '\r', r)
  | none =>
  match startsWithL "space".data s with
  | some r => some (charT ' ', r)
  | none =>
  match startsWithL "tab".data s with
  | some r => some (charT '\t', r)
  | none =>
  match s with
  | c :: r => some (charT c, r)
  | [] => none

/-- The seven escape codes of the string rule. -/
def escVal (e : Char) : Option Nat :=
  if e == '"' then some 34
  else if e == '\\' then some 92
  else if e == 'n' then some 10
  else if e == 'r' then some 13
  else if e == 't' then some 9
  else if e == 'b' then some 8
  else if e == 'f' then some 12
  else none

/-- The string body, after the opening quote: bytes up to the closing
quote, with the seven backslash escapes decoded and any other byte
(a lone backslash included) passed through verbatim. -/
def takeStr : List Char → Option (List Nat × List Char)
  | [] => none
  | [c] => if c == '"' then some ([], []) else none
  | c :: e :: r2 =>
      if c == '"' then some ([], e :: r2)
      else if c == '\\' then
        match escVal e with
        | some b =>
            match takeStr r2 with
            | some (bs, rest) => some (b :: bs, rest)
            | none => none
        | none =>
            match takeStr r2 with
            | some (bs, rest) => some (92 :: e.toNat :: bs, rest)
            | none => none
      else
        match takeStr (e :: r2) with
        | some (bs, rest) => some (c.toNat :: bs, rest)
        | none => none

/-- The string rule: take the body bytes and decode them as UTF-8. -/
def stringRule (s : List Char) : Option (Term × List Char) :=
  match takeStr s with
  | some (bs, rest) =>
      match utf8Decode bs with
      | some cs => some (.node "String" [.leaf (.puni (String.mk cs))], rest)
      | none => none
  | none => none

/-- Is the head whitespace or a comment (the mandatory separator after
a tag symbol)? -/
def wsHead : List Char → Bool
  | [] => false
  | c :: _ => isWsC c || c == ';'

/-- One form, by ordered choice on the leading character: collections,
string, character, keyword, set/tagged value, then the literal tokens,
numbers and symbols.  The recursive positions are abstracted so the
step can be unfolded on its own. -/
def parseFormBody (pe : Char → List Char → Option (List Term × List Char))
    (pm : List Char → Option (List Term × List Char))
    (pf : List Char → Option (Obj × List Char))
    (s : List Char) : Option (Obj × List Char) :=
  match s with
  | [] => none
  | c :: r =>
      if c == '(' then
        match pe ')' r with
        | some (es, rest) => some (.term (.node "List" [.node ".tuple." es]), rest)
        | none => none
      else if c == '[' then
        match pe ']' r with
        | some (es, rest) => some (.term (.node "Vector" [.node ".tuple." es]), rest)
        | none => none
      else if c == '{' then
        match pm r with
        | some (ps, rest) => some (.term (.node "Map" [.node ".tuple." ps]), rest)
        | none => none
      else if c == '"' then
        match stringRule r with
        | some (t, rest) => some (.term t, rest)
        | none => none
      else if c == '\\' then
        match charRule r with
        | some (t, rest) => some (.term t, rest)
        | none => none
      else if c == ':' then
        match symbolRule r with
        | some (sym, rest) => some (.term (.node "Keyword" [sym]), rest)
        | none => none
      else if c == '#' then
        match r with
        | [] => none
        | c2 :: r2 =>
          if c2 == '{' then
            match pe '}' r2 with
            | some (es, rest) => some (.term (.node "Set" [.node ".tuple." es]), rest)
            | none => none
          else if c2 == '_' then
            match pf r2 with
            | some (_, rest2) => pf (skipWs rest2)
            | none => none
          else
            match symbolRule (c2 :: r2) with
            | some (tagSym, r2) =>
                if wsHead r2 then
                  match pf (skipWs r2) with
                  | some (v, rest) =>
                      match coerceToTerm v with
                      | some tv =>
                          some (.term (.node "TaggedValue" [tagSym, tv]), rest)
                      | none => none
                  | none => none
                else none
            | none => none
      else
        match tryLiterals s with
        | some (v, rest) => some (v, rest)
        | none =>
            if numStartOk s then numberRule s
            else
              match symbolRule s with
              | some (sym, rest) => some (.term sym, rest)
              | none => none

/-- Elements of a list, vector or set, up to the closing bracket; each
parsed element is coerced into the collection's tuple term. -/
def parseElemsBody (pf : List Char → Option (Obj × List Char))
    (pe : List Char → Option (List Term × List Char))
    (closer : Char) (s : List Char) : Option (List Term × List Char) :=
  match skipWs s with
  | [] => none
  | c :: r =>
      if c == closer then some ([], r)
      else
        match pf (c :: r) with
        | some (v, rest) =>
            match coerceToTerm v with
            | some t =>
                match pe rest with
                | some (ts, rest2) => some (t :: ts, rest2)
                | none => none
            | none => none
        | none => none

/-- Alternating key/value forms of a map, up to the closing brace. -/
def parseMapItemsBody (pf : List Char → Option (Obj × List Char))
    (pm : List Char → Option (List Term × List Char))
    (s : List Char) : Option (List Term × List Char) :=
  match skipWs s with
  | [] => none
  | c :: r =>
      if c == '}' then some ([], r)
      else
        match pf (c :: r) with
        | some (k, rest) =>
            match pf (skipWs rest) with
            | some (v, rest2) =>
                match coerceToTerm k, coerceToTerm v with
                | some tk, some tv =>
                    match pm rest2 with
                    | some (ts, rest3) =>
                        some (.node ".tuple." [tk, tv] :: ts, rest3)
                    | none => none
                | _, _ => none
            | none => none
        | none => none

mutual

/-- One form; the budget decreases at every recursive call and any
budget at least `needF` of the form suffices. -/
def parseForm : Nat → List Char → Option (Obj × List Char)
  | 0, _ => none
  | fuel + 1, s =>
      parseFormBody (parseElems fuel) (parseMapItems fuel) (parseForm fuel) s

/-- Element list of a collection. -/
def parseElems : Nat → Char → List Char → Option (List Term × List Char)
  | 0, _, _ => none
  | fuel + 1, closer, s =>
      parseElemsBody (parseForm fuel) (parseElems fuel closer) closer s

/-- Key/value items of a map. -/
def parseMapItems : Nat → List Char → Option (List Term × List Char)
  | 0, _ => none
  | fuel + 1, s =>
      parseMapItemsBody (parseForm fuel) (parseMapItems fuel) s

end

/-- `parse`: skip leading whitespace and read one form (trailing input
is left unread, as `edn(string).edn()` does); the input length plus
one always covers the needed budget. -/
def parse (s : String) : Option Obj :=
  let cs := skipWs s.data
  match parseForm (cs.length + 1) cs with
  | some (v, _) => some v
  | none => none

end EdnSpec

namespace EdnSpec

/-! ## Round-trip infrastructure

Lemmas relating the printer's output to the grammar: maximal-munch
transport, decimal digit facts, and the shape of well-formed
parse-produced values. -/

/-- Valid code points below the surrogate range map back to their
numeric value. -/
theorem toNat_ofNat_valid (n : Nat) (h : n < 55296) : (Char.ofNat n).toNat = n := by
  have hv : n.isValidChar := Or.inl h
  simp [Char.ofNat, hv, Char.toNat, Char.ofNatAux, UInt32.toNat]

/-- A valid small code point compared against a character by `==`. -/
theorem ofNat_beq_false (n : Nat) (c : Char) (hn : n < 55296) (hne : n ≠ c.toNat) :
    (Char.ofNat n == c) = false := by
  rcases h : Char.ofNat n == c with _ | _
  · rfl
  · exfalso
    have he : Char.ofNat n = c := eq_of_beq h
    rw [← he] at hne
    exact hne (toNat_ofNat_valid n hn).symm

/-- Does the head of the list fail the predicate (an empty list counts
as failing)? -/
def headNot (p : Char → Bool) : List Char → Bool
  | [] => true
  | c :: _ => !(p c)

/-- What may legally follow a printed form: nothing, a space separator,
or a closing bracket. -/
def headOk : List Char → Bool
  | [] => true
  | c :: _ => c == ' ' || c == ')' || c == ']' || c == '}'

theorem headOk_not_constituent {s : List Char} (h : headOk s = true) :
    headNot isConstituent s = true := by
  cases s with
  | nil => rfl
  | cons c r =>
      simp only [headOk, Bool.or_eq_true, beq_iff_eq] at h
      rcases h with ((h | h) | h) | h <;> subst h <;> simp only [headNot] <;> decide

theorem headOk_not_digit {s : List Char} (h : headOk s = true) :
    headNot isDigitC s = true := by
  cases s with
  | nil => rfl
  | cons c r =>
      simp only [headOk, Bool.or_eq_true, beq_iff_eq] at h
      rcases h with ((h | h) | h) | h <;> subst h <;> simp only [headNot] <;> decide

theorem headOk_boundary {s : List Char} (h : headOk s = true) :
    boundaryOk s = true := by
  cases s with
  | nil => rfl
  | cons c r =>
      simp only [headOk, Bool.or_eq_true, beq_iff_eq] at h
      rcases h with ((h | h) | h) | h <;> subst h <;> simp only [boundaryOk] <;> decide

/-- `skipWs` leaves input alone when it does not start with whitespace
or a comment. -/
theorem skipWs_noop {s : List Char} (h : headNot (fun c => isWsC c || c == ';') s = true) :
    skipWs s = s := by
  cases s with
  | nil => rfl
  | cons c r =>
      simp only [headNot, Bool.not_eq_true', Bool.or_eq_false_iff] at h
      rw [skipWs, if_neg (by simp [h.1]), if_neg (by simp [h.2])]

theorem skipWs_space (z : List Char) : skipWs (' ' :: z) = skipWs z := by
  rw [skipWs]
  simp [isWsC]

/-- Maximal munch of digits transports across an append. -/
theorem scanDigits_munch : ∀ (ds rest : List Char), ds.all isDigitC = true →
    headNot isDigitC rest = true → scanDigits (ds ++ rest) = (ds, rest) := by
  intro ds
  induction ds with
  | nil =>
      intro rest _ h2
      cases rest with
      | nil => rfl
      | cons c r =>
          simp only [headNot, Bool.not_eq_true'] at h2
          rw [List.nil_append, scanDigits, if_neg (by simp [h2])]
  | cons c cs ih =>
      intro rest h1 h2
      simp only [List.all_cons, Bool.and_eq_true] at h1
      simp only [List.cons_append, scanDigits, h1.1, if_true, List.append_eq,
        ih rest h1.2 h2]

/-- Maximal munch of symbol constituents transports across an append. -/
theorem takeSyms_munch : ∀ (cs rest : List Char), cs.all isConstituent = true →
    headNot isConstituent rest = true → takeSyms (cs ++ rest) = (cs, rest) := by
  intro cs
  induction cs with
  | nil =>
      intro rest _ h2
      cases rest with
      | nil => rfl
      | cons c r =>
          simp only [headNot, Bool.not_eq_true'] at h2
          rw [List.nil_append, takeSyms, if_neg (by simp [h2])]
  | cons c cs ih =>
      intro rest h1 h2
      simp only [List.all_cons, Bool.and_eq_true] at h1
      simp only [List.cons_append, takeSyms, h1.1, if_true, List.append_eq,
        ih rest h1.2 h2]

/-- Matching a literal against itself plus a suffix. -/
theorem startsWithL_self : ∀ (l rest : List Char), startsWithL l (l ++ rest) = some rest := by
  intro l
  induction l with
  | nil => intro rest; rfl
  | cons c cs ih =>
      intro rest
      simp only [List.cons_append, startsWithL, beq_self_eq_true, if_true,
        List.append_eq, ih rest]

end EdnSpec
namespace EdnSpec

theorem digitChar_toNat (d : Nat) (h : d < 10) : (digitChar d).toNat = 48 + d :=
  toNat_ofNat_valid (48 + d) (by omega)

theorem digitChar_isDigit (d : Nat) (h : d < 10) : isDigitC (digitChar d) = true := by
  simp only [isDigitC, digitChar_toNat d h, Bool.and_eq_true, decide_eq_true_eq]
  omega

theorem digitsToNat_append_one (xs : List Char) (c : Char) :
    digitsToNat (xs ++ [c]) = 10 * digitsToNat xs + (c.toNat - 48) := by
  simp [digitsToNat, List.foldl_append, Nat.mul_comm]

/-- The decimal printer emits nonempty, all-digit output that reads
back to the printed number. -/
theorem natDigitsF_spec : ∀ f n, n < f →
    natDigitsF f n ≠ [] ∧ (natDigitsF f n).all isDigitC = true ∧
      digitsToNat (natDigitsF f n) = n := by
  intro f
  induction f with
  | zero => intro n h; omega
  | succ f ih =>
      intro n h
      by_cases h10 : n < 10
      · rw [natDigitsF, if_pos h10]
        refine ⟨by simp, ?_, ?_⟩
        · simp [digitChar_isDigit n h10]
        · simp [digitsToNat, digitChar_toNat n h10]
      · rw [natDigitsF, if_neg h10]
        have hrec := ih (n / 10) (by omega)
        refine ⟨by simp, ?_, ?_⟩
        · simp only [List.all_append, Bool.and_eq_true, hrec.2.1, true_and, List.all_cons,
            List.all_nil, Bool.and_true]
          exact digitChar_isDigit (n % 10) (by omega)
        · rw [digitsToNat_append_one, hrec.2.2, digitChar_toNat (n % 10) (by omega)]
          omega

/-- The leading digit of a positive number is not zero. -/
theorem natDigitsF_head_ne : ∀ f n, n < f → 1 ≤ n →
    ∀ c cs, natDigitsF f n = c :: cs → (c = '0') = False := by
  intro f
  induction f with
  | zero => intro n h; omega
  | succ f ih =>
      intro n h h1 c cs heq
      by_cases h10 : n < 10
      · rw [natDigitsF, if_pos h10] at heq
        have hc : c = digitChar n := by
          have := congrArg (fun l => l.headD 'x') heq
          simp at this
          exact this.symm
        subst hc
        simp only [eq_iff_iff, iff_false]
        intro hz
        have := congrArg Char.toNat hz
        rw [digitChar_toNat n h10] at this
        have h0 : ('0').toNat = 48 := rfl
        omega
      · rw [natDigitsF, if_neg h10] at heq
        rcases hxs : natDigitsF f (n / 10) with _ | ⟨x0, xs'⟩
        · exact absurd hxs (natDigitsF_spec f (n / 10) (by omega)).1
        · rw [hxs] at heq
          simp only [List.cons_append, List.cons.injEq] at heq
          rw [← heq.1]
          exact ih (n / 10) (by omega) (by omega) x0 xs' hxs

/-- The decimal printer never emits a redundant leading zero. -/
theorem natDigitsF_noLead : ∀ f n, n < f → noLeadZero (natDigitsF f n) = true := by
  intro f n h
  cases f with
  | zero => omega
  | succ f =>
      by_cases h10 : n < 10
      · rw [natDigitsF, if_pos h10]
        simp [noLeadZero, digitChar_isDigit n h10]
      · rw [natDigitsF, if_neg h10]
        rcases hxs : natDigitsF f (n / 10) with _ | ⟨x0, xs'⟩
        · exact absurd hxs (natDigitsF_spec f (n / 10) (by omega)).1
        · have hspec := natDigitsF_spec f (n / 10) (by omega)
          rw [hxs] at hspec
          have hne := natDigitsF_head_ne f (n / 10) (by omega) (by omega) x0 xs' hxs
          simp only [List.cons_append]
          rcases hxs2 : xs' ++ [digitChar (n % 10)] with _ | ⟨y, ys⟩
          · exact absurd hxs2 (by simp)
          · simp only [noLeadZero, Bool.and_eq_true, decide_eq_true_eq]
            simp only [List.all_cons, Bool.and_eq_true] at hspec
            refine ⟨⟨hspec.2.1.1, by simp [hne]⟩, ?_⟩
            rw [← hxs2]
            simp only [List.all_append, Bool.and_eq_true, hspec.2.1.2, true_and,
              List.all_cons, List.all_nil, Bool.and_true]
            exact digitChar_isDigit (n % 10) (by omega)

/-- All facts about `natChars` in one place. -/
theorem natChars_spec (n : Nat) :
    natChars n ≠ [] ∧ (natChars n).all isDigitC = true ∧
      digitsToNat (natChars n) = n ∧ noLeadZero (natChars n) = true :=
  ⟨(natDigitsF_spec (n + 1) n (by omega)).1,
   (natDigitsF_spec (n + 1) n (by omega)).2.1,
   (natDigitsF_spec (n + 1) n (by omega)).2.2,
   natDigitsF_noLead (n + 1) n (by omega)⟩

end EdnSpec
namespace EdnSpec

/-- Nonempty chunk of symbol constituents. -/
def allConstituent (cs : List Char) : Bool := !cs.isEmpty && cs.all isConstituent

/-- Chunk-initial conditions of the symbol rule. -/
def chunkStartOk (cs : List Char) : Bool :=
  match cs with
  | [] => false
  | c :: rest =>
      isConstituent c && !(isDigitC c) && !(c == ':') && !(c == '#') &&
      (if c == '+' || c == '-' then
        (match rest with
         | d :: _ => !(isDigitC d)
         | [] => true)
       else true)

/-- The three literal tokens. -/
def isLitName (cs : List Char) : Bool :=
  cs == "nil".data || cs == "true".data || cs == "false".data

/-- Parse-producible unprefixed symbol name in form position: the lone
slash, or a valid chunk that is not a literal token. -/
def wfName (cs : List Char) : Bool :=
  cs == "/".data || (allConstituent cs && chunkStartOk cs && !(isLitName cs))

/-- Symbol name in positions where the literal tokens are not
alternatives (keywords, tag symbols). -/
def wfNameK (cs : List Char) : Bool :=
  cs == "/".data || (allConstituent cs && chunkStartOk cs)

/-- Well-formed argument list of a Symbol node (name, or name then
prefix); `lits` excludes the literal tokens (form-position symbols). -/
def wfSymArgs (args : List Term) (lits : Bool) : Bool :=
  match args with
  | [.leaf (.pstr name)] =>
      if lits then wfName name.data else wfNameK name.data
  | [.leaf (.pstr name), .leaf (.pstr pfx)] =>
      allConstituent name.data && allConstituent pfx.data && chunkStartOk pfx.data
  | _ => false

/-- A tag symbol must not begin with an underscore (`#_` reads as a
discard form, never as a tag). -/
def tagStartOk (args : List Term) : Bool :=
  match args with
  | [.leaf (.pstr name)] =>
      match name.data with
      | c :: _ => !(c == '_')
      | [] => false
  | [.leaf (.pstr _), .leaf (.pstr pfx)] =>
      match pfx.data with
      | c :: _ => !(c == '_')
      | [] => false
  | _ => false

mutual

/-- The parse image on terms: exactly the shapes the grammar can
produce (with 64-bit binary floats outside the model).  Character
payloads are single bytes; `ExactFloat` literals match the float
grammar; symbols obey the symbol rule and the ordered-choice
dispatch. -/
def wfT : Term → Bool
  | .leaf (.pint _) => true
  | .leaf (.plong _) => true
  | .leaf _ => false
  | .node tag args =>
      if tag == "Nil" || tag == "true" || tag == "false" then args.isEmpty
      else if tag == "String" then
        match args with
        | [.leaf (.puni _)] => true
        | _ => false
      else if tag == "Character" then
        match args with
        | [.leaf (.pstr s)] =>
            match s.data with
            | [_] => true
            | _ => false
        | _ => false
      else if tag == "ExactFloat" then
        match args with
        | [.leaf (.pstr s)] => wfFloatLit s.data
        | _ => false
      else if tag == "Symbol" then wfSymArgs args true
      else if tag == "Keyword" then
        match args with
        | [.node "Symbol" sargs] => wfSymArgs sargs false
        | _ => false
      else if tag == "List" || tag == "Vector" || tag == "Set" then
        match args with
        | [.node ".tuple." es] => wfElems es
        | _ => false
      else if tag == "Map" then
        match args with
        | [.node ".tuple." ps] => wfPairs ps
        | _ => false
      else if tag == "TaggedValue" then
        match args with
        | [.node "Symbol" sargs, payload] =>
            wfSymArgs sargs false && tagStartOk sargs && wfT payload
        | _ => false
      else false

/-- Well-formed collection elements. -/
def wfElems : List Term → Bool
  | [] => true
  | t :: ts => wfT t && wfElems ts

/-- Well-formed map pairs (each one a two-element tuple node). -/
def wfPairs : List Term → Bool
  | [] => true
  | .node ".tuple." [k, v] :: ts => wfT k && wfT v && wfPairs ts
  | _ => false

end

/-- How the parser surfaces a stored term at form level: leaf numbers
come back as raw Python numbers, `true`/`false` nodes as raw booleans,
everything else as the term itself. -/
def objForm : Term → Obj
  | .leaf (.pint n) => .pyint n
  | .leaf (.plong n) => .pylong n
  | .node "true" [] => .pybool true
  | .node "false" [] => .pybool false
  | t => .term t

/-- Coercion undoes `objForm`. -/
theorem coerce_objForm (t : Term) : coerceToTerm (objForm t) = some t := by
  unfold objForm
  split <;> rfl

/-- Terms that the parser would return as raw Python values rather than
as terms. -/
def notRawForm : Term → Bool
  | .leaf _ => false
  | .node tag _ => !(tag == "true") && !(tag == "false")

/-- The parse image on objects: raw numbers and booleans, or a
well-formed term that the parser returns as a term. -/
def wfImage : Obj → Bool
  | .pyint _ => true
  | .pylong _ => true
  | .pybool _ => true
  | .term t => wfT t && notRawForm t
  | _ => false

mutual

/-- A parsing budget sufficient for one form. -/
def needF : Term → Nat
  | .leaf _ => 1
  | .node tag args =>
      if tag == "List" || tag == "Vector" || tag == "Set" then
        match args with
        | [.node ".tuple." es] => 1 + needE es
        | _ => 1
      else if tag == "Map" then
        match args with
        | [.node ".tuple." ps] => 1 + needM ps
        | _ => 1
      else if tag == "TaggedValue" then
        match args with
        | [_, payload] => 1 + needF payload
        | _ => 1
      else 1

/-- A parsing budget sufficient for an element list. -/
def needE : List Term → Nat
  | [] => 1
  | e :: ts => 1 + max (needF e) (needE ts)

/-- A parsing budget sufficient for a map pair list. -/
def needM : List Term → Nat
  | [] => 1
  | .node _ [k, v] :: ts => 1 + max (max (needF k) (needF v)) (needM ts)
  | _ :: ts => 1 + needM ts

end

/-- Characters compare `==` as false when their code points differ. -/
theorem char_beq_false (a b : Char) (h : a.toNat ≠ b.toNat) : (a == b) = false := by
  rcases hb : a == b with _ | _
  · rfl
  · exact absurd (congrArg Char.toNat (eq_of_beq hb)) h

/-- A printed form never begins with whitespace, a comment or a closing
bracket. -/
def goodHead (c : Char) : Bool :=
  !(isWsC c) && !(c == ';') && !(c == ')') && !(c == ']') && !(c == '}')

theorem goodHead_toNat (c : Char) (h32 : c.toNat ≠ 32) (h9 : c.toNat ≠ 9)
    (h10 : c.toNat ≠ 10) (h13 : c.toNat ≠ 13) (h44 : c.toNat ≠ 44)
    (h59 : c.toNat ≠ 59) (h41 : c.toNat ≠ 41) (h93 : c.toNat ≠ 93)
    (h125 : c.toNat ≠ 125) : goodHead c = true := by
  simp only [goodHead, isWsC, char_beq_false c ' ' h32, char_beq_false c '\t' h9,
    char_beq_false c '\n' h10, char_beq_false c '\r' h13, char_beq_false c ',' h44,
    char_beq_false c ';' h59, char_beq_false c ')' h41, char_beq_false c ']' h93,
    char_beq_false c '}' h125]
  rfl

theorem goodHead_of_digit (c : Char) (h : isDigitC c = true) : goodHead c = true := by
  simp only [isDigitC, Bool.and_eq_true, decide_eq_true_eq] at h
  exact goodHead_toNat c (by omega) (by omega) (by omega) (by omega) (by omega)
    (by omega) (by omega) (by omega) (by omega)

theorem goodHead_of_constituent (c : Char) (h : isConstituent c = true) :
    goodHead c = true := by
  simp only [isConstituent, Bool.or_eq_true] at h
  rcases h with (h | h) | h
  · simp only [isAlphaC, Bool.or_eq_true, Bool.and_eq_true, decide_eq_true_eq] at h
    rcases h with h | h <;>
      exact goodHead_toNat c (by omega) (by omega) (by omega) (by omega) (by omega)
        (by omega) (by omega) (by omega) (by omega)
  · exact goodHead_of_digit c h
  · simp only [isSymPunct, Bool.or_eq_true, beq_iff_eq] at h
    rcases h with ((((((((((((((h | h) | h) | h) | h) | h) | h) | h) | h) | h) | h) | h) | h) | h) | h) <;>
      subst h <;> decide

end EdnSpec

namespace EdnSpec

/-- Variant of `char_beq_false` taking the numeric code point. -/
theorem beq_false_code (c d : Char) (dn : Nat) (hd : d.toNat = dn)
    (h : c.toNat ≠ dn) : (c == d) = false :=
  char_beq_false c d (by omega)

theorem goodHead_unpack (c : Char) (h : goodHead c = true) :
    isWsC c = false ∧ (c == ';') = false ∧ (c == ')') = false ∧
      (c == ']') = false ∧ (c == '}') = false := by
  simp only [goodHead, Bool.and_eq_true, Bool.not_eq_true'] at h
  exact ⟨h.1.1.1.1, h.1.1.1.2, h.1.1.2, h.1.2, h.2⟩

/-- `skipWs` does not touch input beginning with a printed form. -/
theorem skipWs_goodHead (c : Char) (z : List Char) (h : goodHead c = true) :
    skipWs (c :: z) = c :: z := by
  have hu := goodHead_unpack c h
  exact skipWs_noop (by simp [headNot, hu.1, hu.2.1])

/-- A constituent head selects none of the bracket, string, character
or keyword branches. -/
theorem not_special_of_constituent (c : Char) (h : isConstituent c = true) :
    (c == '(') = false ∧ (c == '[') = false ∧ (c == '{') = false ∧
      (c == '"') = false ∧ (c == '\\') = false := by
  simp only [isConstituent, Bool.or_eq_true] at h
  rcases h with (h | h) | h
  · simp only [isAlphaC, Bool.or_eq_true, Bool.and_eq_true, decide_eq_true_eq] at h
    rcases h with h | h <;>
      exact ⟨beq_false_code c '(' 40 rfl (by omega), beq_false_code c '[' 91 rfl (by omega),
        beq_false_code c '{' 123 rfl (by omega), beq_false_code c '"' 34 rfl (by omega),
        beq_false_code c '\\' 92 rfl (by omega)⟩
  · simp only [isDigitC, Bool.and_eq_true, decide_eq_true_eq] at h
    exact ⟨beq_false_code c '(' 40 rfl (by omega), beq_false_code c '[' 91 rfl (by omega),
      beq_false_code c '{' 123 rfl (by omega), beq_false_code c '"' 34 rfl (by omega),
      beq_false_code c '\\' 92 rfl (by omega)⟩
  · simp only [isSymPunct, Bool.or_eq_true, beq_iff_eq] at h
    rcases h with ((((((((((((((h | h) | h) | h) | h) | h) | h) | h) | h) | h) | h) | h) | h) | h) | h) <;>
      subst h <;> exact ⟨rfl, rfl, rfl, rfl, rfl⟩

/-- One literal rule fails on a constituent chunk that either differs
from the literal or is followed by a slash. -/
theorem tryLit_fail : ∀ (lit chunk rest : List Char) (v : Obj),
    lit.all isConstituent = true → chunk.all isConstituent = true →
    headNot isConstituent rest = true →
    (¬(chunk = lit) ∨ rest.head? = some '/') →
    tryLit lit v (chunk ++ rest) = none := by
  intro lit
  induction lit with
  | nil =>
      intro chunk rest v _ hch hr hd
      cases chunk with
      | nil =>
          rcases hd with hd | hd
          · exact absurd rfl hd
          · cases rest with
            | nil => simp at hd
            | cons r0 r' =>
                have : r0 = '/' := by simpa using hd
                subst this
                simp [tryLit, startsWithL, boundaryOk]
      | cons c cs =>
          simp only [List.all_cons, Bool.and_eq_true] at hch
          simp [tryLit, startsWithL, boundaryOk, hch.1]
  | cons l ls ih =>
      intro chunk rest v hl hch hr hd
      simp only [List.all_cons, Bool.and_eq_true] at hl
      cases chunk with
      | nil =>
          cases rest with
          | nil => simp [tryLit, startsWithL]
          | cons r0 r' =>
              simp only [headNot, Bool.not_eq_true'] at hr
              have hne : (r0 == l) = false := by
                rcases hb : r0 == l with _ | _
                · rfl
                · exact absurd (eq_of_beq hb ▸ hl.1) (by simp [hr])
              simp [tryLit, startsWithL, hne]
      | cons c cs =>
          simp only [List.all_cons, Bool.and_eq_true] at hch
          by_cases hcl : (c == l) = true
          · have hd2 : ¬(cs = ls) ∨ rest.head? = some '/' := by
              rcases hd with hd | hd
              · refine Or.inl ?_
                intro hcs
                exact hd (by rw [hcs, eq_of_beq hcl])
              · exact Or.inr hd
            have := ih cs rest v hl.2 hch.2 hr hd2
            simp only [tryLit, List.cons_append, startsWithL, hcl, if_true]
            simpa [tryLit] using this
          · simp only [Bool.not_eq_true] at hcl
            simp [tryLit, startsWithL, hcl]

/-- All three literal rules fail on such a chunk. -/
theorem tryLiterals_fail (chunk rest : List Char)
    (hch : chunk.all isConstituent = true)
    (hr : headNot isConstituent rest = true)
    (hd : isLitName chunk = false ∨ rest.head? = some '/') :
    tryLiterals (chunk ++ rest) = none := by
  have hd3 : ∀ lit : List Char, (chunk == lit) = false ∨ rest.head? = some '/' →
      ¬(chunk = lit) ∨ rest.head? = some '/' := by
    intro lit h
    rcases h with h | h
    · exact Or.inl (by simpa using h)
    · exact Or.inr h
  have hsplit : ((chunk == "nil".data) = false ∧ (chunk == "true".data) = false ∧
      (chunk == "false".data) = false) ∨ rest.head? = some '/' := by
    rcases hd with hd | hd
    · simp only [isLitName, Bool.or_eq_false_iff] at hd
      exact Or.inl ⟨hd.1.1, hd.1.2, hd.2⟩
    · exact Or.inr hd
  have h1 : tryLit "nil".data (.term (.node "Nil" [])) (chunk ++ rest) = none := by
    refine tryLit_fail _ chunk rest _ (by decide) hch hr ?_
    rcases hsplit with h | h
    · exact hd3 _ (Or.inl h.1)
    · exact Or.inr h
  have h2 : tryLit "true".data (.pybool true) (chunk ++ rest) = none := by
    refine tryLit_fail _ chunk rest _ (by decide) hch hr ?_
    rcases hsplit with h | h
    · exact hd3 _ (Or.inl h.2.1)
    · exact Or.inr h
  have h3 : tryLit "false".data (.pybool false) (chunk ++ rest) = none := by
    refine tryLit_fail _ chunk rest _ (by decide) hch hr ?_
    rcases hsplit with h | h
    · exact hd3 _ (Or.inl h.2.2)
    · exact Or.inr h
  simp [tryLiterals, h1, h2, h3]

end EdnSpec

namespace EdnSpec

theorem string_eta (s : String) : String.mk s.data = s := rfl

theorem constituent_ne_slash (c : Char) (h : isConstituent c = true) : (c == '/') = false := by
  rcases hb : c == '/' with _ | _
  · rfl
  · rw [eq_of_beq hb] at h
    exact absurd h (by decide)

theorem headNot_digit_of_const {s : List Char} (h : headNot isConstituent s = true) :
    headNot isDigitC s = true := by
  cases s with
  | nil => rfl
  | cons c r =>
      simp only [headNot, Bool.not_eq_true'] at h ⊢
      rcases hd : isDigitC c with _ | _
      · rfl
      · rw [show isConstituent c = true by simp [isConstituent, hd]] at h
        exact h

theorem headOk_noSlash {s : List Char} (h : headOk s = true) :
    headNot (fun c => c == '/') s = true := by
  cases s with
  | nil => rfl
  | cons c r =>
      simp only [headOk, Bool.or_eq_true, beq_iff_eq] at h
      rcases h with ((h | h) | h) | h <;> subst h <;> rfl

theorem symStartOk_chunk (c : Char) (cs rest : List Char)
    (h : chunkStartOk (c :: cs) = true) (hr : headNot isDigitC rest = true) :
    symStartOk (c :: (cs ++ rest)) = true := by
  simp only [chunkStartOk, Bool.and_eq_true] at h
  obtain ⟨⟨⟨⟨h1, h2⟩, h3⟩, h4⟩, h5⟩ := h
  simp only [symStartOk, Bool.and_eq_true, h1, h2, h3, h4, true_and]
  by_cases hs : (c == '+' || c == '-') = true
  · rw [if_pos hs] at h5 ⊢
    cases cs with
    | nil =>
        simp only [List.nil_append]
        cases rest with
        | nil => rfl
        | cons r0 r' =>
            simp only [headNot, Bool.not_eq_true'] at hr
            simp [hr]
    | cons d cs' => simpa using h5
  · rw [if_neg hs]

/-- The symbol rule on a printed unprefixed chunk. -/
theorem symbolRule_chunk (name : String) (rest : List Char)
    (hall : allConstituent name.data = true) (hcs : chunkStartOk name.data = true)
    (hr : headNot isConstituent rest = true)
    (hsl : headNot (fun c => c == '/') rest = true) :
    symbolRule (name.data ++ rest) = some (.node "Symbol" [.leaf (.pstr name)], rest) := by
  rcases hn : name.data with _ | ⟨c, cs⟩
  · rw [hn] at hall; exact absurd hall (by simp [allConstituent])
  · rw [hn] at hall hcs
    simp only [allConstituent, Bool.and_eq_true, List.all_cons] at hall
    have hmunch := takeSyms_munch (c :: cs) rest (by simp [hall.2.1, hall.2.2]) hr
    simp only [List.cons_append] at hmunch
    rw [List.cons_append, symbolRule]
    rw [if_neg (by simp [constituent_ne_slash c hall.2.1]),
      if_pos (symStartOk_chunk c cs rest hcs (headNot_digit_of_const hr))]
    simp only [hmunch]
    cases rest with
    | nil =>
        have he : String.mk (c :: cs) = name := by rw [← hn]
        simp [he]
    | cons r0 r' =>
        simp only [headNot] at hsl
        have hr0 : (r0 == '/') = false := by simpa using hsl
        have he : String.mk (c :: cs) = name := by rw [← hn]
        simp [hr0, he]

/-- The symbol rule on a printed `prefix/name`. -/
theorem symbolRule_prefixed (name pfx : String) (rest : List Char)
    (hnall : allConstituent name.data = true) (hpall : allConstituent pfx.data = true)
    (hpcs : chunkStartOk pfx.data = true) (hr : headNot isConstituent rest = true) :
    symbolRule ((pfx.data ++ '/' :: name.data) ++ rest) =
      some (.node "Symbol" [.leaf (.pstr name), .leaf (.pstr pfx)], rest) := by
  rcases hp : pfx.data with _ | ⟨c, cs⟩
  · rw [hp] at hpall; exact absurd hpall (by simp [allConstituent])
  · rcases hnd : name.data with _ | ⟨n0, ns⟩
    · rw [hnd] at hnall; exact absurd hnall (by simp [allConstituent])
    · rw [hp] at hpall hpcs
      rw [hnd] at hnall
      simp only [allConstituent, Bool.and_eq_true, List.all_cons] at hpall hnall
      have hmunch := takeSyms_munch (c :: cs) ('/' :: (n0 :: (ns ++ rest)))
        (by simp [hpall.2.1, hpall.2.2]) (by rfl)
      simp only [List.cons_append] at hmunch
      have hmunch2 := takeSyms_munch (n0 :: ns) rest
        (by simp [hnall.2.1, hnall.2.2]) hr
      simp only [List.cons_append] at hmunch2
      simp only [List.cons_append, List.append_assoc]
      rw [symbolRule]
      rw [if_neg (by simp [constituent_ne_slash c hpall.2.1]),
        if_pos (symStartOk_chunk c cs ('/' :: (n0 :: (ns ++ rest))) hpcs (by rfl))]
      simp only [hmunch, List.cons_append]
      have e1 : String.mk (n0 :: ns) = name := by rw [← hnd]
      have e2 : String.mk (c :: cs) = pfx := by rw [← hp]
      simp [hmunch2, e1, e2]

end EdnSpec
namespace EdnSpec

/-- `scanDigits` splits its input: the parts rejoin to it, the first is
all digits and the remainder starts with a non-digit. -/
theorem scanDigits_split : ∀ cs : List Char,
    (scanDigits cs).1 ++ (scanDigits cs).2 = cs ∧
      (scanDigits cs).1.all isDigitC = true ∧
      headNot isDigitC (scanDigits cs).2 = true := by
  intro cs
  induction cs with
  | nil => exact ⟨rfl, rfl, rfl⟩
  | cons c r ih =>
      rcases hd : isDigitC c with _ | _
      · rw [scanDigits, if_neg (by simp [hd])]
        exact ⟨rfl, rfl, by simp [headNot, hd]⟩
      · rw [scanDigits, if_pos (by simp [hd])]
        refine ⟨?_, ?_, ?_⟩
        · simpa using ih.1
        · simpa [hd] using ih.2.1
        · simpa using ih.2.2

theorem headOk_code {c : Char} {r : List Char} (h : headOk (c :: r) = true) :
    c.toNat = 32 ∨ c.toNat = 41 ∨ c.toNat = 93 ∨ c.toNat = 125 := by
  simp only [headOk, Bool.or_eq_true, beq_iff_eq] at h
  rcases h with ((h | h) | h) | h <;> subst h <;> simp

/-- A digit is neither sign. -/
theorem digit_not_sign (c : Char) (h : isDigitC c = true) :
    ((c == '+') || (c == '-')) = false := by
  simp only [isDigitC, Bool.and_eq_true, decide_eq_true_eq] at h
  simp [beq_false_code c '+' 43 rfl (by omega), beq_false_code c '-' 45 rfl (by omega)]

/-- After a printed digit run, a legal follow set triggers none of the
fraction, exponent or suffix branches. -/
theorem headOk_num_follow {rest : List Char} (h : headOk rest = true) :
    headNot isDigitC rest = true ∧
    (match rest with
     | c :: _ => (c == '.') = false ∧ (c == 'e') = false ∧ (c == 'E') = false ∧
         (c == 'M') = false ∧ (c == 'N') = false
     | [] => True) := by
  refine ⟨headOk_not_digit h, ?_⟩
  cases rest with
  | nil => trivial
  | cons c r =>
      have hc := headOk_code h
      exact ⟨beq_false_code c '.' 46 rfl (by omega), beq_false_code c 'e' 101 rfl (by omega),
        beq_false_code c 'E' 69 rfl (by omega), beq_false_code c 'M' 77 rfl (by omega),
        beq_false_code c 'N' 78 rfl (by omega)⟩

/-- The number rule reads back a printed nonnegative digit run. -/
theorem numberRule_nat (m : Nat) (rest : List Char) (hr : headOk rest = true) :
    numberRule (natChars m ++ rest) = some (.pyint (Int.ofNat m), rest) := by
  obtain ⟨hne, hall, hval, hlead⟩ := natChars_spec m
  have hfollow := headOk_num_follow hr
  rcases hn : natChars m with _ | ⟨d, ds'⟩
  · exact absurd hn hne
  · rw [hn] at hall hval hlead
    simp only [List.all_cons, Bool.and_eq_true] at hall
    have hd := hall.1
    have hmunch : scanDigits (d :: (ds' ++ rest)) = (d :: ds', rest) := by
      have h2 := scanDigits_munch (d :: ds') rest (by simp [hd, hall.2]) hfollow.1
      simpa using h2
    unfold numberRule numberRuleCore
    simp only [List.cons_append, digit_not_sign d hd, Bool.false_eq_true, if_false,
      hmunch, List.isEmpty_cons, hlead, Bool.not_true]
    cases rest with
    | nil =>
        simp [scanExp, digitsVal, hval]
    | cons c0 r0 =>
        obtain ⟨e1, e2, e3, e4, e5⟩ := hfollow.2
        simp [scanExp, e1, e2, e3, e4, e5, digitsVal, hval]

/-- The number rule reads back a minus sign and a digit run. -/
theorem numberRule_neg (m : Nat) (rest : List Char) (hr : headOk rest = true) :
    numberRule ('-' :: natChars m ++ rest) = some (.pyint (-(Int.ofNat m)), rest) := by
  obtain ⟨hne, hall, hval, hlead⟩ := natChars_spec m
  have hfollow := headOk_num_follow hr
  rcases hn : natChars m with _ | ⟨d, ds'⟩
  · exact absurd hn hne
  · rw [hn] at hall hval hlead
    simp only [List.all_cons, Bool.and_eq_true] at hall
    have hd := hall.1
    unfold numberRule numberRuleCore
    cases rest with
    | nil =>
        have hmunch : scanDigits (d :: ds') = (d :: ds', []) := by
          have h2 := scanDigits_munch (d :: ds') [] (by simp [hd, hall.2])
            (by simp [headNot])
          simpa using h2
        simp [scanExp, digitsVal, hval, hmunch, hlead]
    | cons c0 r0 =>
        obtain ⟨e1, e2, e3, e4, e5⟩ := hfollow.2
        have hmunch : scanDigits (d :: (ds' ++ c0 :: r0)) = (d :: ds', c0 :: r0) := by
          have h2 := scanDigits_munch (d :: ds') (c0 :: r0) (by simp [hd, hall.2]) hfollow.1
          simpa using h2
        simp [scanExp, digitsVal, hval, hmunch, hlead, e1, e2, e3, e4, e5]

/-- The number rule reads back any printed integer. -/
theorem numberRule_int (n : Int) (rest : List Char) (hr : headOk rest = true) :
    numberRule (intChars n ++ rest) = some (.pyint n, rest) := by
  by_cases h : n < 0
  · rw [intChars, if_pos h]
    have h2 := numberRule_neg n.natAbs rest hr
    rw [List.cons_append] at h2 ⊢
    rw [h2]
    have h3 : -(Int.ofNat n.natAbs) = n := by
      rw [Int.ofNat_eq_coe]; omega
    rw [h3]
  · rw [intChars, if_neg h]
    rw [numberRule_nat n.toNat rest hr]
    have h3 : Int.ofNat n.toNat = n := by
      rw [Int.ofNat_eq_coe]; omega
    rw [h3]

/-- The number rule reads back a digit run with the long suffix. -/
theorem numberRule_longNat (m : Nat) (rest : List Char) :
    numberRule (natChars m ++ 'N' :: rest) = some (.pylong (Int.ofNat m), rest) := by
  obtain ⟨hne, hall, hval, hlead⟩ := natChars_spec m
  rcases hn : natChars m with _ | ⟨d, ds'⟩
  · exact absurd hn hne
  · rw [hn] at hall hval hlead
    simp only [List.all_cons, Bool.and_eq_true] at hall
    have hd := hall.1
    have hmunch : scanDigits (d :: (ds' ++ 'N' :: rest)) = (d :: ds', 'N' :: rest) := by
      have h2 := scanDigits_munch (d :: ds') ('N' :: rest) (by simp [hd, hall.2])
        (by simp [headNot, isDigitC])
      simpa using h2
    unfold numberRule numberRuleCore
    simp only [List.cons_append, digit_not_sign d hd, Bool.false_eq_true, if_false,
      hmunch, List.isEmpty_cons, hlead, Bool.not_true]
    simp [scanExp, digitsVal, hval]

/-- The number rule reads back a minus sign, digits and the long suffix. -/
theorem numberRule_longNeg (m : Nat) (rest : List Char) :
    numberRule ('-' :: natChars m ++ 'N' :: rest) = some (.pylong (-(Int.ofNat m)), rest) := by
  obtain ⟨hne, hall, hval, hlead⟩ := natChars_spec m
  rcases hn : natChars m with _ | ⟨d, ds'⟩
  · exact absurd hn hne
  · rw [hn] at hall hval hlead
    simp only [List.all_cons, Bool.and_eq_true] at hall
    have hd := hall.1
    unfold numberRule numberRuleCore
    have hmunch : scanDigits (d :: (ds' ++ 'N' :: rest)) = (d :: ds', 'N' :: rest) := by
      have h2 := scanDigits_munch (d :: ds') ('N' :: rest) (by simp [hd, hall.2])
        (by simp [headNot, isDigitC])
      simpa using h2
    simp [scanExp, digitsVal, hval, hmunch, hlead]

/-- The number rule reads back any printed long. -/
theorem numberRule_long (n : Int) (rest : List Char) :
    numberRule (intChars n ++ 'N' :: rest) = some (.pylong n, rest) := by
  by_cases h : n < 0
  · rw [intChars, if_pos h]
    have h2 := numberRule_longNeg n.natAbs rest
    rw [List.cons_append] at h2 ⊢
    rw [h2]
    have h3 : -(Int.ofNat n.natAbs) = n := by
      rw [Int.ofNat_eq_coe]; omega
    rw [h3]
  · rw [intChars, if_neg h]
    rw [numberRule_longNat n.toNat rest]
    have h3 : Int.ofNat n.toNat = n := by
      rw [Int.ofNat_eq_coe]; omega
    rw [h3]

/-- A well-formed nonempty exponent part scans back as itself in front
of any non-digit continuation. -/
theorem scanExp_wfExp (e : Char) (s3' rest' : List Char)
    (h : wfExpPart (e :: s3') = true) (hd : headNot isDigitC rest' = true) :
    scanExp ((e :: s3') ++ rest') = some (e :: s3', rest') := by
  simp only [wfExpPart, Bool.and_eq_true] at h
  obtain ⟨he, hbody⟩ := h
  cases s3' with
  | nil =>
      simp [scanDigits] at hbody
  | cons s r3 =>
      by_cases hsgn : ((s == '+') || (s == '-')) = true
      · simp only [hsgn, if_true, Bool.and_eq_true, Bool.not_eq_true',
          List.isEmpty_eq_true, List.isEmpty_eq_false] at hbody
        obtain ⟨hne, hE⟩ := hbody
        have hsp := scanDigits_split r3
        have hr3 : r3 = (scanDigits r3).1 := by
          conv_lhs => rw [← hsp.1]
          rw [hE, List.append_nil]
        have hall : r3.all isDigitC = true := by rw [hr3]; exact hsp.2.1
        have hner : r3 ≠ [] := by
          intro hc; rw [hc] at hr3; exact hne (by simp [← hr3, hc])
        have hmunch := scanDigits_munch r3 rest' hall hd
        simp only [List.cons_append, scanExp, he, if_true, hsgn, hmunch]
        simp [hner]
      · have hsgn2 : ((s == '+') || (s == '-')) = false := by simpa using hsgn
        simp only [hsgn2, Bool.false_eq_true, if_false, Bool.and_eq_true, Bool.not_eq_true',
          List.isEmpty_eq_true, List.isEmpty_eq_false] at hbody
        obtain ⟨hne, hE⟩ := hbody
        have hsp := scanDigits_split (s :: r3)
        have hr3 : s :: r3 = (scanDigits (s :: r3)).1 := by
          conv_lhs => rw [← hsp.1]
          rw [hE, List.append_nil]
        have hall : (s :: r3).all isDigitC = true := by rw [hr3]; exact hsp.2.1
        have hmunch := scanDigits_munch (s :: r3) rest' hall hd
        simp only [List.cons_append] at hmunch
        simp only [List.cons_append, scanExp, he, if_true, hsgn2, Bool.false_eq_true,
          if_false, hmunch]
        simp

/-- The number core reads an `M`-suffixed well-formed float literal
back as an `ExactFloat` term carrying the literal text. -/
theorem numberRuleCore_M (sgn : Option Char) (tail rest : List Char)
    (h : wfFloatTail tail = true) :
    numberRuleCore sgn (tail ++ 'M' :: rest) =
      some (.term (.node "ExactFloat" [.leaf (.pstr (String.mk
        ((match sgn with | some c => [c] | none => []) ++ tail)))]), rest) := by
  have hsp := scanDigits_split tail
  rcases hscan : scanDigits tail with ⟨ds, s2⟩
  rw [hscan] at hsp
  simp only [wfFloatTail, hscan, Bool.and_eq_true] at h
  obtain ⟨hlead, hmore⟩ := h
  have htail : tail = ds ++ s2 := hsp.1.symm
  subst htail
  have hferr : headNot isDigitC ('M' :: rest) = true := by
    simp [headNot, isDigitC]
  have hdne : ds.isEmpty = false := by
    cases ds with
    | nil => exact absurd hlead (by decide)
    | cons _ _ => rfl
  have hs2M : headNot isDigitC (s2 ++ 'M' :: rest) = true := by
    cases s2 with
    | nil => exact hferr
    | cons c2 r2 => simpa [headNot] using hsp.2.2
  have hmunch : scanDigits (ds ++ (s2 ++ 'M' :: rest)) = (ds, s2 ++ 'M' :: rest) :=
    scanDigits_munch ds (s2 ++ 'M' :: rest) (by simpa using hsp.2.1) hs2M
  rw [List.append_assoc]
  unfold numberRuleCore
  simp only [hmunch, hdne, Bool.false_eq_true, if_false, hlead, Bool.not_true]
  cases s2 with
  | nil =>
      simp [scanExp]
  | cons c2 r2 =>
      dsimp only at hmore
      by_cases hc2 : (c2 == '.') = true
      · have hc2e : c2 = '.' := by simpa using hc2
        subst hc2e
        rw [if_pos hc2] at hmore
        simp only [Bool.and_eq_true, Bool.not_eq_true', List.isEmpty_eq_false] at hmore
        have hsp2 := scanDigits_split r2
        rcases hscan2 : scanDigits r2 with ⟨fp, s3⟩
        rw [hscan2] at hsp2 hmore
        obtain ⟨hfpne, hexp⟩ := hmore
        have hr2 : r2 = fp ++ s3 := hsp2.1.symm
        subst hr2
        have hfpne2 : fp.isEmpty = false := by
          cases fp with
          | nil => exact absurd rfl hfpne
          | cons _ _ => rfl
        cases s3 with
        | nil =>
            have hmunch2 : scanDigits (fp ++ 'M' :: rest) = (fp, 'M' :: rest) :=
              scanDigits_munch fp _ (by simpa using hsp2.2.1) hferr
            simp [scanExp, hmunch2, hfpne2]
        | cons e r3 =>
            have hE : headNot isDigitC (e :: (r3 ++ 'M' :: rest)) = true := by
              simpa [headNot] using hsp2.2.2
            have hmunch2 :
                scanDigits (fp ++ (e :: (r3 ++ 'M' :: rest))) =
                  (fp, e :: (r3 ++ 'M' :: rest)) :=
              scanDigits_munch fp _ (by simpa using hsp2.2.1) hE
            have hse := scanExp_wfExp e r3 ('M' :: rest) hexp hferr
            rw [List.cons_append] at hse
            simp [hmunch2, hfpne2, hse]
      · have hc2f : (c2 == '.') = false := by simpa using hc2
        rw [if_neg hc2] at hmore
        have hse := scanExp_wfExp c2 r2 ('M' :: rest) hmore hferr
        rw [List.cons_append] at hse
        simp [hc2f, hse]

/-- The number rule reads an `M`-suffixed well-formed float literal
back as an `ExactFloat` term carrying the literal text. -/
theorem numberRule_float (lit rest : List Char) (hw : wfFloatLit lit = true) :
    numberRule (lit ++ 'M' :: rest) =
      some (.term (.node "ExactFloat" [.leaf (.pstr (String.mk lit))]), rest) := by
  cases lit with
  | nil => exact absurd hw (by decide)
  | cons c r =>
      simp only [wfFloatLit] at hw
      rw [List.cons_append]
      unfold numberRule
      dsimp only
      by_cases hs : ((c == '+') || (c == '-')) = true
      · rw [if_pos hs] at hw ⊢
        have h2 := numberRuleCore_M (some c) r rest hw
        simpa using h2
      · have hs2 : ((c == '+') || (c == '-')) = false := by simpa using hs
        rw [if_neg hs] at hw ⊢
        have h2 := numberRuleCore_M none (c :: r) rest hw
        rw [List.cons_append] at h2
        simpa using h2

/-- A two-or-more character literal cannot match a single byte followed
by a legal token boundary. -/
theorem startsWithL_headOk (p q : Char) (ps : List Char) (c : Char) (rest : List Char)
    (hr : headOk rest = true)
    (hq : q.toNat ≠ 32 ∧ q.toNat ≠ 41 ∧ q.toNat ≠ 93 ∧ q.toNat ≠ 125) :
    startsWithL (p :: q :: ps) (c :: rest) = none := by
  unfold startsWithL
  by_cases hc : (c == p) = true
  · rw [if_pos hc]
    cases rest with
    | nil => rfl
    | cons d r =>
        have hd := headOk_code hr
        unfold startsWithL
        rw [if_neg]
        simp only [beq_iff_eq]
        intro he
        subst he
        rcases hd with hd | hd | hd | hd <;> omega
  · rw [if_neg hc]

/-- After the backslash, a printed one-byte character payload followed
by a legal boundary is read back verbatim: none of the named character
literals can fire. -/
theorem charRule_single (c : Char) (rest : List Char) (hr : headOk rest = true) :
    charRule (c :: rest) = some (charT c, rest) := by
  have h1 : startsWithL "newline".data (c :: rest) = none := by
    rw [show "newline".data = 'n' :: 'e' :: ['w', 'l', 'i', 'n', 'e'] from rfl]
    exact startsWithL_headOk _ _ _ _ _ hr (by decide)
  have h2 : startsWithL "return".data (c :: rest) = none := by
    rw [show "return".data = 'r' :: 'e' :: ['t', 'u', 'r', 'n'] from rfl]
    exact startsWithL_headOk _ _ _ _ _ hr (by decide)
  have h3 : startsWithL "space".data (c :: rest) = none := by
    rw [show "space".data = 's' :: 'p' :: ['a', 'c', 'e'] from rfl]
    exact startsWithL_headOk _ _ _ _ _ hr (by decide)
  have h4 : startsWithL "tab".data (c :: rest) = none := by
    rw [show "tab".data = 't' :: 'a' :: ['b'] from rfl]
    exact startsWithL_headOk _ _ _ _ _ hr (by decide)
  unfold charRule
  simp only [h1, h2, h3, h4]

/-- Every character's code point is below the Unicode bound. -/
theorem char_toNat_lt (c : Char) : c.toNat < 1114112 := by
  rcases c.valid with h | ⟨h1, h2⟩
  · exact lt_trans h (by norm_num)
  · exact h2

/-- UTF-8 encoding produces bytes. -/
theorem utf8EncodeChar_lt (c : Char) : ∀ b ∈ utf8EncodeChar c, b < 256 := by
  have hv := char_toNat_lt c
  intro b hb
  simp only [utf8EncodeChar] at hb
  split_ifs at hb with h1 h2 h3
  · simp only [List.mem_singleton] at hb; omega
  · simp only [List.mem_cons, List.not_mem_nil, or_false] at hb
    rcases hb with rfl | rfl <;> omega
  · simp only [List.mem_cons, List.not_mem_nil, or_false] at hb
    rcases hb with rfl | rfl | rfl <;> omega
  · simp only [List.mem_cons, List.not_mem_nil, or_false] at hb
    rcases hb with rfl | rfl | rfl | rfl <;> omega

/-- UTF-8 encoding of a text produces bytes. -/
theorem utf8Encode_lt (s : List Char) : ∀ b ∈ utf8Encode s, b < 256 := by
  intro b hb
  simp only [utf8Encode, List.mem_flatMap] at hb
  obtain ⟨c, _, hbc⟩ := hb
  exact utf8EncodeChar_lt c b hbc

/-- The string body rule undoes the escape table on any byte sequence,
stopping at the closing quote. -/
theorem takeStr_bytes : ∀ (bs : List Nat), (∀ b ∈ bs, b < 256) → ∀ rest : List Char,
    takeStr (bs.flatMap escByte ++ '"' :: rest) = some (bs, rest) := by
  intro bs
  induction bs with
  | nil =>
      intro _ rest
      cases rest with
      | nil => rfl
      | cons e r => rfl
  | cons b bs ih =>
      intro hb rest
      have hblt : b < 256 := hb b (List.mem_cons_self b bs)
      have hbs : ∀ x ∈ bs, x < 256 := fun x hx => hb x (List.mem_cons_of_mem b hx)
      have ihr := ih hbs rest
      simp only [List.flatMap_cons, List.append_assoc]
      by_cases h34 : b = 34
      · subst h34; simp [takeStr, escByte, escVal, ihr]
      · by_cases h92 : b = 92
        · subst h92; simp [takeStr, escByte, escVal, ihr]
        · by_cases h10 : b = 10
          · subst h10; simp [takeStr, escByte, escVal, ihr]
          · by_cases h13 : b = 13
            · subst h13; simp [takeStr, escByte, escVal, ihr]
            · by_cases h9 : b = 9
              · subst h9; simp [takeStr, escByte, escVal, ihr]
              · by_cases h8 : b = 8
                · subst h8; simp [takeStr, escByte, escVal, ihr]
                · by_cases h12 : b = 12
                  · subst h12; simp [takeStr, escByte, escVal, ihr]
                  · have hesc : escByte b = [Char.ofNat b] := by
                      unfold escByte
                      rw [if_neg h34, if_neg h92, if_neg h10, if_neg h13, if_neg h9,
                        if_neg h8, if_neg h12]
                    rw [hesc]
                    rcases htail : bs.flatMap escByte ++ '"' :: rest with _ | ⟨t0, tr⟩
                    · exact absurd htail (by simp)
                    · rw [List.cons_append, List.nil_append, takeStr]
                      rw [if_neg (by rw [ofNat_beq_false b '"' (by omega) (by simpa using h34)]; simp)]
                      rw [if_neg (by rw [ofNat_beq_false b '\\' (by omega) (by simpa using h92)]; simp)]
                      rw [← htail]
                      rw [ihr]
                      rw [toNat_ofNat_valid b (by omega)]

/-- The string rule reads an escaped UTF-8 body back to the original
text. -/
theorem stringRule_roundtrip (t : List Char) (rest : List Char) :
    stringRule ((utf8Encode t).flatMap escByte ++ '"' :: rest) =
      some (.node "String" [.leaf (.puni (String.mk t))], rest) := by
  unfold stringRule
  rw [takeStr_bytes (utf8Encode t) (utf8Encode_lt t) rest]
  dsimp only
  rw [utf8Decode_encode]

/-- Every form needs at least one unit of budget. -/
theorem needF_pos (t : Term) : 1 ≤ needF t := by
  unfold needF
  split
  · omega
  · split_ifs <;> first | omega | (split <;> omega)

/-- Every element list needs at least one unit of budget. -/
theorem needE_pos (ts : List Term) : 1 ≤ needE ts := by
  unfold needE
  split <;> omega

/-- Every pair list needs at least one unit of budget. -/
theorem needM_pos (ps : List Term) : 1 ≤ needM ps := by
  unfold needM
  split <;> omega

/-- Inversion of a successful argument build. -/
theorem buildArgs_ok_cons (t : Term) (ts : List Term) (res : List (List Char))
    (h : buildArgs (t :: ts) = .ok res) :
    ∃ a as, buildTerm t = .ok a ∧ buildArgs ts = .ok as ∧ res = a :: as := by
  rw [buildArgs] at h
  rcases hbt : buildTerm t with e | a <;> rw [hbt] at h
  · simp at h
  · rcases hba : buildArgs ts with e | as <;> rw [hba] at h
    · simp at h
    · refine ⟨a, as, rfl, rfl, ?_⟩
      injection h with h2
      exact h2.symm

/-- The three literal rules fail when even the first byte mismatches. -/
theorem tryLiterals_head_fail (c : Char) (rest : List Char)
    (hn : (c == 'n') = false) (ht : (c == 't') = false) (hf : (c == 'f') = false) :
    tryLiterals (c :: rest) = none := by
  simp only [tryLiterals, tryLit,
    show "nil".data = 'n' :: "il".data from rfl,
    show "true".data = 't' :: "rue".data from rfl,
    show "false".data = 'f' :: "alse".data from rfl,
    startsWithL, hn, ht, hf, Bool.false_eq_true, if_false]

/-- A printed integer starts with a minus sign or a digit. -/
theorem intChars_head (n : Int) : ∃ c tl, intChars n = c :: tl ∧
    (c.toNat = 45 ∨ (48 ≤ c.toNat ∧ c.toNat ≤ 57)) := by
  unfold intChars
  split_ifs
  · exact ⟨'-', natChars n.natAbs, rfl, Or.inl rfl⟩
  · obtain ⟨hne, hall, _, _⟩ := natChars_spec n.toNat
    rcases h : natChars n.toNat with _ | ⟨d, tl⟩
    · exact absurd h hne
    · rw [h] at hall
      simp only [List.all_cons, Bool.and_eq_true] at hall
      have hd := hall.1
      simp only [isDigitC, Bool.and_eq_true, decide_eq_true_eq] at hd
      exact ⟨d, tl, rfl, Or.inr hd⟩

/-- A nonempty digit munch means the input starts with a digit. -/
theorem scanDigits_fst_ne (cs : List Char) (h : (scanDigits cs).1 ≠ []) :
    ∃ d tl, cs = d :: tl ∧ isDigitC d = true := by
  cases cs with
  | nil => exact absurd rfl h
  | cons c r =>
      by_cases hd : isDigitC c = true
      · exact ⟨c, r, rfl, hd⟩
      · rw [scanDigits, if_neg hd] at h
        exact absurd rfl h

/-- A well-formed float tail starts with a digit. -/
theorem wfFloatTail_head (cs : List Char) (h : wfFloatTail cs = true) :
    ∃ d tl, cs = d :: tl ∧ isDigitC d = true := by
  simp only [wfFloatTail, Bool.and_eq_true] at h
  refine scanDigits_fst_ne cs ?_
  intro hc
  rw [hc] at h
  exact absurd h.1 (by decide)

/-- A well-formed float literal starts with a sign or a digit. -/
theorem wfFloatLit_head (cs : List Char) (h : wfFloatLit cs = true) :
    ∃ c tl, cs = c :: tl ∧
      (c.toNat = 43 ∨ c.toNat = 45 ∨ (48 ≤ c.toNat ∧ c.toNat ≤ 57)) := by
  cases cs with
  | nil => exact absurd h (by decide)
  | cons c r =>
      simp only [wfFloatLit] at h
      by_cases hs : ((c == '+') || (c == '-')) = true
      · simp only [Bool.or_eq_true, beq_iff_eq] at hs
        rcases hs with hs | hs <;> subst hs
        · exact ⟨'+', r, rfl, Or.inl rfl⟩
        · exact ⟨'-', r, rfl, Or.inr (Or.inl rfl)⟩
      · rw [if_neg hs] at h
        obtain ⟨d, tl, he, hd⟩ := wfFloatTail_head _ h
        rw [he]
        simp only [isDigitC, Bool.and_eq_true, decide_eq_true_eq] at hd
        exact ⟨d, tl, rfl, Or.inr (Or.inr hd)⟩

/-- A printed integer token begins a number. -/
theorem numStartOk_int (n : Int) (rest : List Char) :
    numStartOk (intChars n ++ rest) = true := by
  unfold intChars
  split_ifs
  · obtain ⟨hne, hall, _, _⟩ := natChars_spec n.natAbs
    rcases h : natChars n.natAbs with _ | ⟨d, tl⟩
    · exact absurd h hne
    · rw [h] at hall
      simp only [List.all_cons, Bool.and_eq_true] at hall
      simp [numStartOk, hall.1]
  · obtain ⟨hne, hall, _, _⟩ := natChars_spec n.toNat
    rcases h : natChars n.toNat with _ | ⟨d, tl⟩
    · exact absurd h hne
    · rw [h] at hall
      simp only [List.all_cons, Bool.and_eq_true] at hall
      simp [numStartOk, hall.1]

/-- A well-formed float literal begins a number. -/
theorem numStartOk_float (cs : List Char) (h : wfFloatLit cs = true) (rest : List Char) :
    numStartOk (cs ++ rest) = true := by
  cases cs with
  | nil => exact absurd h (by decide)
  | cons c r =>
      simp only [wfFloatLit] at h
      by_cases hs : ((c == '+') || (c == '-')) = true
      · rw [if_pos hs] at h
        obtain ⟨d, tl, he, hd⟩ := wfFloatTail_head _ h
        subst he
        simp [numStartOk, hs, hd]
      · rw [if_neg hs] at h
        obtain ⟨d, tl, he, hd⟩ := wfFloatTail_head _ h
        rw [he]
        simp [numStartOk, hd]

/-- A symbol chunk does not begin a number. -/
theorem numStartOk_chunk_false (c : Char) (cs rest : List Char)
    (h : chunkStartOk (c :: cs) = true) (hr : headNot isDigitC rest = true) :
    numStartOk (c :: (cs ++ rest)) = false := by
  simp only [chunkStartOk, Bool.and_eq_true] at h
  obtain ⟨⟨⟨⟨h1, h2⟩, h3⟩, h4⟩, h5⟩ := h
  simp only [numStartOk, Bool.not_eq_true'] at h2 ⊢
  rw [h2]
  simp only [Bool.false_or]
  by_cases hs : ((c == '+') || (c == '-')) = true
  · rw [if_pos hs] at h5
    simp only [hs, Bool.true_and]
    cases cs with
    | nil =>
        simp only [List.nil_append]
        cases rest with
        | nil => rfl
        | cons r0 r' =>
            simp only [headNot, Bool.not_eq_true'] at hr
            simpa using hr
    | cons d cs' => simpa using h5
  · have hs2 : ((c == '+') || (c == '-')) = false := by simpa using hs
    simp [hs2]

/-- Collapse the ordered-choice dispatch of `parseForm` for a head that
selects none of the bracket, string, character, keyword or hash
branches. -/
theorem parseForm_plain (fuel : Nat) (c : Char) (r : List Char)
    (h1 : (c == '(') = false) (h2 : (c == '[') = false) (h3 : (c == '{') = false)
    (h4 : (c == '"') = false) (h5 : (c == '\\') = false) (h6 : (c == ':') = false)
    (h7 : (c == '#') = false) :
    parseForm (fuel + 1) (c :: r) =
      (match tryLiterals (c :: r) with
       | some (v, rest) => some (v, rest)
       | none =>
           if numStartOk (c :: r) then numberRule (c :: r)
           else match symbolRule (c :: r) with
                | some (sym, rest) => some (.term sym, rest)
                | none => none) := by
  have hstep : parseForm (fuel + 1) (c :: r) =
      parseFormBody (parseElems fuel) (parseMapItems fuel) (parseForm fuel) (c :: r) := rfl
  rw [hstep]
  unfold parseFormBody
  simp only [h1, h2, h3, h4, h5, h6, h7, Bool.false_eq_true, if_false]

/-- Inversion of well-formed symbol arguments. -/
theorem wfSymArgs_cases (args : List Term) (lits : Bool)
    (h : wfSymArgs args lits = true) :
    (∃ name, args = [.leaf (.pstr name)] ∧
       (if lits then wfName name.data else wfNameK name.data) = true) ∨
    (∃ name pfx, args = [.leaf (.pstr name), .leaf (.pstr pfx)] ∧
       allConstituent name.data = true ∧ allConstituent pfx.data = true ∧
       chunkStartOk pfx.data = true) := by
  rw [wfSymArgs.eq_def] at h
  split at h
  · exact Or.inl ⟨_, rfl, h⟩
  · simp only [Bool.and_eq_true] at h
    exact Or.inr ⟨_, _, rfl, h.1.1, h.1.2, h.2⟩
  · exact absurd h (by simp)

/-- Inversion of the well-formed name predicate. -/
theorem wfName_cases (cs : List Char) (h : wfName cs = true) :
    cs = "/".data ∨ (allConstituent cs = true ∧ chunkStartOk cs = true ∧
      isLitName cs = false) := by
  simp only [wfName, Bool.or_eq_true, Bool.and_eq_true, Bool.not_eq_true',
    beq_iff_eq] at h
  rcases h with h | h
  · exact Or.inl h
  · exact Or.inr ⟨h.1.1, h.1.2, h.2⟩

/-- Inversion of the kept-literals name predicate. -/
theorem wfNameK_cases (cs : List Char) (h : wfNameK cs = true) :
    cs = "/".data ∨ (allConstituent cs = true ∧ chunkStartOk cs = true) := by
  simp only [wfNameK, Bool.or_eq_true, Bool.and_eq_true, beq_iff_eq] at h
  exact h

/-- Shape inversion of the parse image on terms. -/
theorem wfT_cases (t : Term) (hw : wfT t = true) :
    (∃ n, t = .leaf (.pint n)) ∨ (∃ n, t = .leaf (.plong n)) ∨
    (t = .node "Nil" []) ∨ (t = .node "true" []) ∨ (t = .node "false" []) ∨
    (∃ s, t = .node "String" [.leaf (.puni s)]) ∨
    (∃ c, t = .node "Character" [.leaf (.pstr (String.mk [c]))]) ∨
    (∃ s, t = .node "ExactFloat" [.leaf (.pstr s)] ∧ wfFloatLit s.data = true) ∨
    (∃ sargs, t = .node "Symbol" sargs ∧ wfSymArgs sargs true = true) ∨
    (∃ sargs, t = .node "Keyword" [.node "Symbol" sargs] ∧
       wfSymArgs sargs false = true) ∨
    (∃ es, (t = .node "List" [.node ".tuple." es] ∨
            t = .node "Vector" [.node ".tuple." es] ∨
            t = .node "Set" [.node ".tuple." es]) ∧ wfElems es = true) ∨
    (∃ ps, t = .node "Map" [.node ".tuple." ps] ∧ wfPairs ps = true) ∨
    (∃ sargs payload, t = .node "TaggedValue" [.node "Symbol" sargs, payload] ∧
       wfSymArgs sargs false = true ∧ tagStartOk sargs = true ∧
       wfT payload = true) := by
  cases t with
  | leaf d =>
      cases d with
      | pint n => exact Or.inl ⟨n, rfl⟩
      | plong n => exact Or.inr (Or.inl ⟨n, rfl⟩)
      | pfloat b => simp [wfT] at hw
      | pstr st => simp [wfT] at hw
      | puni st => simp [wfT] at hw
  | node tag args =>
      rw [wfT.eq_def] at hw
      dsimp only at hw
      split_ifs at hw with hlit hstr hchar hexact hsym hkey hcoll hmap htag
      · simp only [Bool.or_eq_true, beq_iff_eq] at hlit
        have hempty : args = [] := by
          cases args with
          | nil => rfl
          | cons a as => simp [List.isEmpty] at hw
        subst hempty
        rcases hlit with (h | h) | h <;> subst h
        · exact Or.inr (Or.inr (Or.inl rfl))
        · exact Or.inr (Or.inr (Or.inr (Or.inl rfl)))
        · exact Or.inr (Or.inr (Or.inr (Or.inr (Or.inl rfl))))
      · have he : tag = "String" := by simpa using hstr
        subst he
        split at hw
        · exact Or.inr (Or.inr (Or.inr (Or.inr (Or.inr (Or.inl ⟨_, rfl⟩)))))
        · exact absurd hw (by simp)
      · have he : tag = "Character" := by simpa using hchar
        subst he
        split at hw
        · rename_i st
          split at hw
          · rename_i c0 heq
            refine Or.inr (Or.inr (Or.inr (Or.inr (Or.inr (Or.inr (Or.inl
              ⟨c0, ?_⟩))))))
            have hst : String.mk [c0] = st := by
              rw [← heq]
            rw [hst]
          · exact absurd hw (by simp)
        · exact absurd hw (by simp)
      · have he : tag = "ExactFloat" := by simpa using hexact
        subst he
        split at hw
        · exact Or.inr (Or.inr (Or.inr (Or.inr (Or.inr (Or.inr (Or.inr (Or.inl
            ⟨_, rfl, hw⟩)))))))
        · exact absurd hw (by simp)
      · have he : tag = "Symbol" := by simpa using hsym
        subst he
        exact Or.inr (Or.inr (Or.inr (Or.inr (Or.inr (Or.inr (Or.inr (Or.inr (Or.inl
          ⟨args, rfl, hw⟩))))))))
      · have he : tag = "Keyword" := by simpa using hkey
        subst he
        split at hw
        · exact Or.inr (Or.inr (Or.inr (Or.inr (Or.inr (Or.inr (Or.inr (Or.inr
            (Or.inr (Or.inl ⟨_, rfl, hw⟩)))))))))
        · exact absurd hw (by simp)
      · simp only [Bool.or_eq_true, beq_iff_eq] at hcoll
        split at hw
        · refine Or.inr (Or.inr (Or.inr (Or.inr (Or.inr (Or.inr (Or.inr (Or.inr
            (Or.inr (Or.inr (Or.inl ⟨_, ?_, hw⟩))))))))))
          rcases hcoll with (h | h) | h <;> subst h
          · exact Or.inl rfl
          · exact Or.inr (Or.inl rfl)
          · exact Or.inr (Or.inr rfl)
        · exact absurd hw (by simp)
      · have he : tag = "Map" := by simpa using hmap
        subst he
        split at hw
        · exact Or.inr (Or.inr (Or.inr (Or.inr (Or.inr (Or.inr (Or.inr (Or.inr
            (Or.inr (Or.inr (Or.inr (Or.inl ⟨_, rfl, hw⟩)))))))))))
        · exact absurd hw (by simp)
      · have he : tag = "TaggedValue" := by simpa using htag
        subst he
        split at hw
        · simp only [Bool.and_eq_true] at hw
          exact Or.inr (Or.inr (Or.inr (Or.inr (Or.inr (Or.inr (Or.inr (Or.inr
            (Or.inr (Or.inr (Or.inr (Or.inr ⟨_, _, rfl, hw.1.1, hw.1.2, hw.2⟩)))))))))))
        · exact absurd hw (by simp)

/-- Unfolded step of `buildTerm` on a node. -/
theorem buildTerm_node (tag : String) (args : List Term) :
    buildTerm (.node tag args) =
      match buildArgs args with
      | .ok as => dumpNode tag as
      | .error e => .error e := by
  rw [buildTerm]

/-- Unfolded step of `buildArgs` on a cons. -/
theorem buildArgs_cons (t : Term) (ts : List Term) :
    buildArgs (t :: ts) =
      match buildTerm t with
      | .ok a =>
          match buildArgs ts with
          | .ok as => .ok (a :: as)
          | .error e => .error e
      | .error e => .error e := by
  rw [buildArgs]

/-- A nonempty all-constituent chunk starts with a constituent. -/
theorem allConstituent_head (cs : List Char) (h : allConstituent cs = true) :
    ∃ c tl, cs = c :: tl ∧ isConstituent c = true := by
  cases cs with
  | nil => simp [allConstituent] at h
  | cons c tl =>
      simp only [allConstituent, List.all_cons, Bool.and_eq_true] at h
      exact ⟨c, tl, rfl, h.2.1⟩

/-- Every built well-formed term prints as a nonempty string whose head
survives whitespace skipping and is not a closer. -/
theorem build_head_good (t : Term) (out : List Char) (hw : wfT t = true)
    (hb : buildTerm t = .ok out) : ∃ c tl, out = c :: tl ∧ goodHead c = true := by
  rcases wfT_cases t hw with ⟨n, rfl⟩ | ⟨n, rfl⟩ | rfl | rfl | rfl | ⟨st, rfl⟩ | ⟨c0, rfl⟩ |
    ⟨st, rfl, hfl⟩ | ⟨sargs, rfl, hsa⟩ | ⟨sargs, rfl, hsa⟩ | ⟨es, hor, hes⟩ | ⟨ps, rfl, hps⟩ |
    ⟨sargs, payload, rfl, hsa, hts, hpw⟩
  · rw [show buildTerm (.leaf (.pint n)) = .ok (intChars n) from rfl] at hb
    injection hb with hb
    obtain ⟨c, tl, he, hc⟩ := intChars_head n
    refine ⟨c, tl, by rw [← hb, he], ?_⟩
    rcases hc with hc | hc <;>
      exact goodHead_toNat c (by omega) (by omega) (by omega) (by omega) (by omega)
        (by omega) (by omega) (by omega) (by omega)
  · rw [show buildTerm (.leaf (.plong n)) = .ok (intChars n ++ ['N']) from rfl] at hb
    injection hb with hb
    obtain ⟨c, tl, he, hc⟩ := intChars_head n
    refine ⟨c, tl ++ ['N'], by rw [← hb, he, List.cons_append], ?_⟩
    rcases hc with hc | hc <;>
      exact goodHead_toNat c (by omega) (by omega) (by omega) (by omega) (by omega)
        (by omega) (by omega) (by omega) (by omega)
  · rw [show buildTerm (.node "Nil" []) = .ok "nil".data from rfl] at hb
    injection hb with hb
    exact ⟨'n', "il".data, hb.symm, by decide⟩
  · rw [show buildTerm (.node "true" []) = .ok "true".data from rfl] at hb
    injection hb with hb
    exact ⟨'t', "rue".data, hb.symm, by decide⟩
  · rw [show buildTerm (.node "false" []) = .ok "false".data from rfl] at hb
    injection hb with hb
    exact ⟨'f', "alse".data, hb.symm, by decide⟩
  · rw [show buildTerm (.node "String" [.leaf (.puni st)]) =
      .ok (dump_String st.data) from rfl] at hb
    injection hb with hb
    exact ⟨'"', (utf8Encode st.data).flatMap escByte ++ ['"'], by rw [← hb]; rfl, by decide⟩
  · rw [show buildTerm (.node "Character" [.leaf (.pstr (String.mk [c0]))]) =
      .ok ['\\', c0] from rfl] at hb
    injection hb with hb
    exact ⟨'\\', [c0], hb.symm, by decide⟩
  · rw [show buildTerm (.node "ExactFloat" [.leaf (.pstr st)]) =
      .ok (st.data ++ ['M']) from rfl] at hb
    injection hb with hb
    obtain ⟨c, tl, he, hc⟩ := wfFloatLit_head st.data hfl
    refine ⟨c, tl ++ ['M'], by rw [← hb, he, List.cons_append], ?_⟩
    rcases hc with hc | hc | hc <;>
      exact goodHead_toNat c (by omega) (by omega) (by omega) (by omega) (by omega)
        (by omega) (by omega) (by omega) (by omega)
  · rcases wfSymArgs_cases sargs true hsa with ⟨name, rfl, hname⟩ |
      ⟨name, pfx, rfl, hna, hpa, hpc⟩
    · rw [show buildTerm (.node "Symbol" [.leaf (.pstr name)]) =
        .ok name.data from rfl] at hb
      injection hb with hb
      have hn2 : wfName name.data = true := by simpa using hname
      rcases wfName_cases name.data hn2 with hsl | ⟨hall, _, _⟩
      · exact ⟨'/', [], by rw [← hb, hsl], by decide⟩
      · obtain ⟨c, tl, he, hc⟩ := allConstituent_head name.data hall
        exact ⟨c, tl, by rw [← hb, he], goodHead_of_constituent c hc⟩
    · rw [show buildTerm (.node "Symbol" [.leaf (.pstr name), .leaf (.pstr pfx)]) =
        .ok (pfx.data ++ '/' :: name.data) from rfl] at hb
      injection hb with hb
      obtain ⟨c, tl, he, hc⟩ := allConstituent_head pfx.data hpa
      exact ⟨c, tl ++ '/' :: name.data, by rw [← hb, he, List.cons_append],
        goodHead_of_constituent c hc⟩
  · rcases wfSymArgs_cases sargs false hsa with ⟨name, rfl, hname⟩ |
      ⟨name, pfx, rfl, hna, hpa, hpc⟩
    · rw [show buildTerm (.node "Keyword" [.node "Symbol" [.leaf (.pstr name)]]) =
        .ok (':' :: name.data) from rfl] at hb
      injection hb with hb
      exact ⟨':', name.data, hb.symm, by decide⟩
    · rw [show buildTerm (.node "Keyword" [.node "Symbol"
        [.leaf (.pstr name), .leaf (.pstr pfx)]]) =
        .ok (':' :: (pfx.data ++ '/' :: name.data)) from rfl] at hb
      injection hb with hb
      exact ⟨':', pfx.data ++ '/' :: name.data, hb.symm, by decide⟩
  · rcases hor with rfl | rfl | rfl
    · rw [buildTerm_node, buildArgs_cons, buildTerm_node] at hb
      rcases hbe : buildArgs es with e | as <;> rw [hbe] at hb <;> dsimp only at hb
      · exact absurd hb (by simp)
      · rw [show dumpNode ".tuple." as = .ok (joinSpace as) from rfl] at hb
        dsimp only [buildArgs] at hb
        rw [show ∀ x : List (List Char), dumpNode "List" x =
          .ok ('(' :: x.flatten ++ [')']) from fun x => rfl] at hb
        injection hb with hb
        exact ⟨'(', _, hb.symm, by decide⟩
    · rw [buildTerm_node, buildArgs_cons, buildTerm_node] at hb
      rcases hbe : buildArgs es with e | as <;> rw [hbe] at hb <;> dsimp only at hb
      · exact absurd hb (by simp)
      · rw [show dumpNode ".tuple." as = .ok (joinSpace as) from rfl] at hb
        dsimp only [buildArgs] at hb
        rw [show ∀ x : List (List Char), dumpNode "Vector" x =
          .ok ('[' :: x.flatten ++ [']']) from fun x => rfl] at hb
        injection hb with hb
        exact ⟨'[', _, hb.symm, by decide⟩
    · rw [buildTerm_node, buildArgs_cons, buildTerm_node] at hb
      rcases hbe : buildArgs es with e | as <;> rw [hbe] at hb <;> dsimp only at hb
      · exact absurd hb (by simp)
      · rw [show dumpNode ".tuple." as = .ok (joinSpace as) from rfl] at hb
        dsimp only [buildArgs] at hb
        rw [show ∀ x : List (List Char), dumpNode "Set" x =
          .ok ('#' :: '{' :: x.flatten ++ ['\x7d']) from fun x => rfl] at hb
        injection hb with hb
        exact ⟨'#', _, hb.symm, by decide⟩
  · rw [buildTerm_node, buildArgs_cons, buildTerm_node] at hb
    rcases hbe : buildArgs ps with e | as <;> rw [hbe] at hb <;> dsimp only at hb
    · exact absurd hb (by simp)
    · rw [show dumpNode ".tuple." as = .ok (joinSpace as) from rfl] at hb
      dsimp only [buildArgs] at hb
      rw [show ∀ x : List (List Char), dumpNode "Map" x =
        .ok ('\x7b' :: x.flatten ++ ['\x7d']) from fun x => rfl] at hb
      injection hb with hb
      exact ⟨'\x7b', _, hb.symm, by decide⟩
  · rw [buildTerm_node, buildArgs_cons] at hb
    rcases hbs : buildTerm (.node "Symbol" sargs) with e | symout <;> rw [hbs] at hb <;>
      dsimp only at hb
    · exact absurd hb (by simp)
    · rw [buildArgs_cons] at hb
      rcases hbp : buildTerm payload with e | pout <;> rw [hbp] at hb <;> dsimp only at hb
      · exact absurd hb (by simp)
      · rw [show buildArgs ([] : List Term) = .ok [] from rfl] at hb
        dsimp only at hb
        rw [show dumpNode "TaggedValue" [symout, pout] =
          .ok ('#' :: symout ++ ' ' :: pout) from rfl] at hb
        injection hb with hb
        refine ⟨'#', symout ++ ' ' :: pout, ?_, by decide⟩
        rw [← hb, List.cons_append]

/-- Budget of a symbol node. -/
theorem needF_symbol (sargs : List Term) : needF (.node "Symbol" sargs) = 1 := by
  rw [needF.eq_def]; rfl

/-- Inversion of a well-formed pair list. -/
theorem wfPairs_cons_inv (p : Term) (ts : List Term) (h : wfPairs (p :: ts) = true) :
    ∃ k v, p = .node ".tuple." [k, v] ∧ wfT k = true ∧ wfT v = true ∧
      wfPairs ts = true := by
  rw [wfPairs.eq_def] at h
  split at h
  · rename_i heq
    exact absurd heq (by simp)
  · rename_i k v ts2 heq
    injection heq with h1 h2
    subst h2
    simp only [Bool.and_eq_true] at h
    exact ⟨k, v, h1, h.1.1, h.1.2, h.2⟩
  · exact absurd h (by simp)

/-- The printed text is always long enough to cover the parsing budget
its value needs. -/
theorem need_bound : ∀ fuel : Nat,
    (∀ t out, needF t ≤ fuel → wfT t = true → buildTerm t = .ok out →
       needF t ≤ out.length) ∧
    (∀ ts outs, needE ts ≤ fuel → wfElems ts = true → buildArgs ts = .ok outs →
       needE ts ≤ (joinSpace outs).length + 1) ∧
    (∀ ps pouts, needM ps ≤ fuel → wfPairs ps = true → buildArgs ps = .ok pouts →
       needM ps ≤ (joinSpace pouts).length + 1) := by
  intro fuel
  induction fuel with
  | zero =>
      refine ⟨?_, ?_, ?_⟩
      · intro t out hf _ _
        exact absurd hf (by have := needF_pos t; omega)
      · intro ts outs hf _ _
        exact absurd hf (by have := needE_pos ts; omega)
      · intro ps pouts hf _ _
        exact absurd hf (by have := needM_pos ps; omega)
  | succ n ih =>
      obtain ⟨ihF, ihE, ihM⟩ := ih
      refine ⟨?_, ?_, ?_⟩
      · intro t out hf hw hb
        obtain ⟨c0, tl0, ho, _⟩ := build_head_good t out hw hb
        rcases wfT_cases t hw with ⟨n1, rfl⟩ | ⟨n1, rfl⟩ | rfl | rfl | rfl | ⟨st, rfl⟩ |
          ⟨ch, rfl⟩ | ⟨st, rfl, hfl⟩ | ⟨sargs, rfl, hsa⟩ | ⟨sargs, rfl, hsa⟩ |
          ⟨es, hor, hes⟩ | ⟨ps, rfl, hps⟩ | ⟨sargs, payload, rfl, hsa, hts, hpw⟩
        · rw [show needF (.leaf (.pint n1)) = 1 from rfl, ho]; simp
        · rw [show needF (.leaf (.plong n1)) = 1 from rfl, ho]; simp
        · rw [show needF (.node "Nil" []) = 1 from rfl, ho]; simp
        · rw [show needF (.node "true" []) = 1 from rfl, ho]; simp
        · rw [show needF (.node "false" []) = 1 from rfl, ho]; simp
        · rw [show needF (.node "String" [.leaf (.puni st)]) = 1 from rfl, ho]; simp
        · rw [show needF (.node "Character" [.leaf (.pstr (String.mk [ch]))]) = 1
            from rfl, ho]
          simp
        · rw [show needF (.node "ExactFloat" [.leaf (.pstr st)]) = 1 from rfl, ho]; simp
        · rw [needF_symbol sargs, ho]; simp
        · rw [show needF (.node "Keyword" [.node "Symbol" sargs]) = 1 from rfl, ho]; simp
        · have hfe : needE es ≤ n := by
            rcases hor with rfl | rfl | rfl
            · rw [show needF (.node "List" [.node ".tuple." es]) = 1 + needE es
                from rfl] at hf
              omega
            · rw [show needF (.node "Vector" [.node ".tuple." es]) = 1 + needE es
                from rfl] at hf
              omega
            · rw [show needF (.node "Set" [.node ".tuple." es]) = 1 + needE es
                from rfl] at hf
              omega
          rcases hor with rfl | rfl | rfl
          · rw [buildTerm_node, buildArgs_cons, buildTerm_node] at hb
            rcases hbe : buildArgs es with e | as <;> rw [hbe] at hb <;> dsimp only at hb
            · exact absurd hb (by simp)
            · rw [show dumpNode ".tuple." as = .ok (joinSpace as) from rfl] at hb
              dsimp only [buildArgs] at hb
              rw [show ∀ x : List (List Char), dumpNode "List" x =
                .ok ('(' :: x.flatten ++ [')']) from fun x => rfl] at hb
              injection hb with hb
              have := ihE es as hfe hes hbe
              rw [show needF (.node "List" [.node ".tuple." es]) = 1 + needE es from rfl,
                ← hb]
              simp only [List.length_cons, List.length_append, List.flatten,
                List.append_nil, List.length_nil]
              omega
          · rw [buildTerm_node, buildArgs_cons, buildTerm_node] at hb
            rcases hbe : buildArgs es with e | as <;> rw [hbe] at hb <;> dsimp only at hb
            · exact absurd hb (by simp)
            · rw [show dumpNode ".tuple." as = .ok (joinSpace as) from rfl] at hb
              dsimp only [buildArgs] at hb
              rw [show ∀ x : List (List Char), dumpNode "Vector" x =
                .ok ('[' :: x.flatten ++ [']']) from fun x => rfl] at hb
              injection hb with hb
              have := ihE es as hfe hes hbe
              rw [show needF (.node "Vector" [.node ".tuple." es]) = 1 + needE es from rfl,
                ← hb]
              simp only [List.length_cons, List.length_append, List.flatten,
                List.append_nil, List.length_nil]
              omega
          · rw [buildTerm_node, buildArgs_cons, buildTerm_node] at hb
            rcases hbe : buildArgs es with e | as <;> rw [hbe] at hb <;> dsimp only at hb
            · exact absurd hb (by simp)
            · rw [show dumpNode ".tuple." as = .ok (joinSpace as) from rfl] at hb
              dsimp only [buildArgs] at hb
              rw [show ∀ x : List (List Char), dumpNode "Set" x =
                .ok ('#' :: '{' :: x.flatten ++ ['\x7d']) from fun x => rfl] at hb
              injection hb with hb
              have := ihE es as hfe hes hbe
              rw [show needF (.node "Set" [.node ".tuple." es]) = 1 + needE es from rfl,
                ← hb]
              simp only [List.length_cons, List.length_append, List.flatten,
                List.append_nil, List.length_nil]
              omega
        · have hfm : needM ps ≤ n := by
            rw [show needF (.node "Map" [.node ".tuple." ps]) = 1 + needM ps from rfl] at hf
            omega
          rw [buildTerm_node, buildArgs_cons, buildTerm_node] at hb
          rcases hbe : buildArgs ps with e | as <;> rw [hbe] at hb <;> dsimp only at hb
          · exact absurd hb (by simp)
          · rw [show dumpNode ".tuple." as = .ok (joinSpace as) from rfl] at hb
            dsimp only [buildArgs] at hb
            rw [show ∀ x : List (List Char), dumpNode "Map" x =
              .ok ('\x7b' :: x.flatten ++ ['\x7d']) from fun x => rfl] at hb
            injection hb with hb
            have := ihM ps as hfm hps hbe
            rw [show needF (.node "Map" [.node ".tuple." ps]) = 1 + needM ps from rfl,
              ← hb]
            simp only [List.length_cons, List.length_append, List.flatten,
              List.append_nil, List.length_nil]
            omega
        · have hfp : needF payload ≤ n := by
            rw [show needF (.node "TaggedValue" [.node "Symbol" sargs, payload]) =
              1 + needF payload from rfl] at hf
            omega
          rw [buildTerm_node, buildArgs_cons] at hb
          rcases hbs : buildTerm (.node "Symbol" sargs) with e | symout <;>
            rw [hbs] at hb <;> dsimp only at hb
          · exact absurd hb (by simp)
          · rw [buildArgs_cons] at hb
            rcases hbp : buildTerm payload with e | pout <;> rw [hbp] at hb <;>
              dsimp only at hb
            · exact absurd hb (by simp)
            · rw [show buildArgs ([] : List Term) = .ok [] from rfl] at hb
              dsimp only at hb
              rw [show dumpNode "TaggedValue" [symout, pout] =
                .ok ('#' :: symout ++ ' ' :: pout) from rfl] at hb
              injection hb with hb
              have := ihF payload pout hfp hpw hbp
              rw [show needF (.node "TaggedValue" [.node "Symbol" sargs, payload]) =
                1 + needF payload from rfl, ← hb]
              simp only [List.cons_append, List.length_cons, List.length_append]
              omega
      · intro ts outs hf hw hba
        cases ts with
        | nil =>
            rw [show buildArgs ([] : List Term) = .ok [] from rfl] at hba
            injection hba with hba
            rw [← hba, show needE ([] : List Term) = 1 from rfl]
            simp
        | cons t ts' =>
            obtain ⟨a, as, hbt, hbts, rfl⟩ := buildArgs_ok_cons t ts' outs hba
            rw [show wfElems (t :: ts') = (wfT t && wfElems ts') from rfl] at hw
            simp only [Bool.and_eq_true] at hw
            rw [show needE (t :: ts') = 1 + max (needF t) (needE ts') from rfl] at hf ⊢
            have hft : needF t ≤ n := by omega
            have hfe : needE ts' ≤ n := by omega
            have h1 := ihF t a hft hw.1 hbt
            have h2 := ihE ts' as hfe hw.2 hbts
            cases as with
            | nil =>
                have hp1 := needE_pos ts'
                have hp2 := needF_pos t
                rw [show joinSpace [a] = a from rfl]
                rw [show joinSpace ([] : List (List Char)) = [] from rfl] at h2
                simp only [List.length_nil] at h2
                omega
            | cons a2 as2 =>
                rw [show joinSpace (a :: a2 :: as2) = a ++ ' ' :: joinSpace (a2 :: as2)
                  from rfl]
                simp only [List.length_append, List.length_cons]
                omega
      · intro ps pouts hf hw hbp
        cases ps with
        | nil =>
            rw [show buildArgs ([] : List Term) = .ok [] from rfl] at hbp
            injection hbp with hbp
            rw [← hbp, show needM ([] : List Term) = 1 from rfl]
            simp
        | cons p ts' =>
            obtain ⟨k, v, rfl, hwk, hwv, hwts⟩ := wfPairs_cons_inv p ts' hw
            obtain ⟨a, as, hbt, hbts, rfl⟩ := buildArgs_ok_cons _ ts' pouts hbp
            rw [buildTerm_node, buildArgs_cons] at hbt
            rcases hbk : buildTerm k with e | kout <;> rw [hbk] at hbt <;>
              dsimp only at hbt
            · exact absurd hbt (by simp)
            · rw [buildArgs_cons] at hbt
              rcases hbv : buildTerm v with e | vout <;> rw [hbv] at hbt <;>
                dsimp only at hbt
              · exact absurd hbt (by simp)
              · rw [show buildArgs ([] : List Term) = .ok [] from rfl] at hbt
                dsimp only at hbt
                rw [show dumpNode ".tuple." [kout, vout] =
                  .ok (kout ++ ' ' :: vout) from rfl] at hbt
                injection hbt with hbt
                rw [show needM (.node ".tuple." [k, v] :: ts') =
                  1 + max (max (needF k) (needF v)) (needM ts') from rfl] at hf ⊢
                have hfk : needF k ≤ n := by omega
                have hfv : needF v ≤ n := by omega
                have hfm : needM ts' ≤ n := by omega
                have h1 := ihF k kout hfk hwk hbk
                have h2 := ihF v vout hfv hwv hbv
                have h3 := ihM ts' as hfm hwts hbts
                cases as with
                | nil =>
                    have := needM_pos ts'
                    rw [show joinSpace [a] = a from rfl, ← hbt]
                    rw [show joinSpace ([] : List (List Char)) = [] from rfl] at h3
                    simp only [List.length_nil] at h3
                    simp only [List.length_append, List.length_cons]
                    omega
                | cons a2 as2 =>
                    rw [show joinSpace (a :: a2 :: as2) = a ++ ' ' :: joinSpace (a2 :: as2)
                      from rfl, ← hbt]
                    simp only [List.length_append, List.length_cons]
                    omega

/-- One fuel step of the form parser. -/
theorem parseForm_step (fuel : Nat) (s : List Char) :
    parseForm (fuel + 1) s =
      parseFormBody (parseElems fuel) (parseMapItems fuel) (parseForm fuel) s := rfl

/-- One fuel step of the element parser. -/
theorem parseElems_step (fuel : Nat) (closer : Char) (s : List Char) :
    parseElems (fuel + 1) closer s =
      parseElemsBody (parseForm fuel) (parseElems fuel closer) closer s := rfl

/-- One fuel step of the map-item parser. -/
theorem parseMapItems_step (fuel : Nat) (s : List Char) :
    parseMapItems (fuel + 1) s =
      parseMapItemsBody (parseForm fuel) (parseMapItems fuel) s := rfl

/-- Only the empty argument list builds to an empty output list. -/
theorem buildArgs_nil_inv (ts : List Term) (h : buildArgs ts = .ok []) : ts = [] := by
  cases ts with
  | nil => rfl
  | cons t ts' =>
      obtain ⟨a, as, _, _, heq⟩ := buildArgs_ok_cons t ts' [] h
      exact absurd heq (by simp)

/-- A closer character is a legal token follow. -/
theorem headOk_closer (closer : Char) (h : closer = ')' ∨ closer = ']' ∨ closer = '}')
    (rest : List Char) : headOk (closer :: rest) = true := by
  rcases h with rfl | rfl | rfl <;> rfl

/-- The dispatch step on a string head. -/
theorem parseForm_string (fuel : Nat) (r : List Char) :
    parseForm (fuel + 1) ('"' :: r) =
      (match stringRule r with
       | some (t, rest) => some (.term t, rest)
       | none => none) := by
  rw [parseForm_step]
  unfold parseFormBody
  dsimp only
  rw [if_neg (by decide), if_neg (by decide), if_neg (by decide), if_pos (by decide)]

/-- The dispatch step on a character head. -/
theorem parseForm_char (fuel : Nat) (r : List Char) :
    parseForm (fuel + 1) ('\\' :: r) =
      (match charRule r with
       | some (t, rest) => some (.term t, rest)
       | none => none) := by
  rw [parseForm_step]
  unfold parseFormBody
  dsimp only
  rw [if_neg (by decide), if_neg (by decide), if_neg (by decide), if_neg (by decide),
    if_pos (by decide)]

/-- The dispatch step on a keyword head. -/
theorem parseForm_keyword (fuel : Nat) (r : List Char) :
    parseForm (fuel + 1) (':' :: r) =
      (match symbolRule r with
       | some (sym, rest) => some (.term (.node "Keyword" [sym]), rest)
       | none => none) := by
  rw [parseForm_step]
  unfold parseFormBody
  dsimp only
  rw [if_neg (by decide), if_neg (by decide), if_neg (by decide), if_neg (by decide),
    if_neg (by decide), if_pos (by decide)]

/-- The dispatch step on a list head. -/
theorem parseForm_list (fuel : Nat) (r : List Char) :
    parseForm (fuel + 1) ('(' :: r) =
      (match parseElems fuel ')' r with
       | some (es, rest) => some (.term (.node "List" [.node ".tuple." es]), rest)
       | none => none) := by
  rw [parseForm_step]
  unfold parseFormBody
  dsimp only
  rw [if_pos (by decide)]

/-- The dispatch step on a vector head. -/
theorem parseForm_vector (fuel : Nat) (r : List Char) :
    parseForm (fuel + 1) ('[' :: r) =
      (match parseElems fuel ']' r with
       | some (es, rest) => some (.term (.node "Vector" [.node ".tuple." es]), rest)
       | none => none) := by
  rw [parseForm_step]
  unfold parseFormBody
  dsimp only
  rw [if_neg (by decide), if_pos (by decide)]

/-- The dispatch step on a map head. -/
theorem parseForm_map (fuel : Nat) (r : List Char) :
    parseForm (fuel + 1) ('\x7b' :: r) =
      (match parseMapItems fuel r with
       | some (ps, rest) => some (.term (.node "Map" [.node ".tuple." ps]), rest)
       | none => none) := by
  rw [parseForm_step]
  unfold parseFormBody
  dsimp only
  rw [if_neg (by decide), if_neg (by decide), if_pos (by decide)]

/-- The dispatch step on a hash head. -/
theorem parseForm_hash (fuel : Nat) (r : List Char) :
    parseForm (fuel + 1) ('#' :: r) =
      (match r with
       | [] => none
       | c2 :: r2 =>
         if c2 == '\x7b' then
           match parseElems fuel '\x7d' r2 with
           | some (es, rest) => some (.term (.node "Set" [.node ".tuple." es]), rest)
           | none => none
         else if c2 == '_' then
           match parseForm fuel r2 with
           | some (_, rest2) => parseForm fuel (skipWs rest2)
           | none => none
         else
           match symbolRule (c2 :: r2) with
           | some (tagSym, r2) =>
               if wsHead r2 then
                 match parseForm fuel (skipWs r2) with
                 | some (v, rest) =>
                     match coerceToTerm v with
                     | some tv =>
                         some (.term (.node "TaggedValue" [tagSym, tv]), rest)
                     | none => none
                 | none => none
               else none
           | none => none) := by
  rw [parseForm_step]
  unfold parseFormBody
  dsimp only
  rw [if_neg (by decide), if_neg (by decide), if_neg (by decide), if_neg (by decide),
    if_neg (by decide), if_neg (by decide), if_pos (by decide)]

/-- Printing then reparsing: a well-formed term's built text, followed
by any legal token boundary, parses back to the term's surface object;
element and pair lists likewise, up to their closer. -/
theorem roundtrip_main : ∀ fuel : Nat,
    (∀ t out rest, wfT t = true → buildTerm t = .ok out → headOk rest = true →
       needF t ≤ fuel → parseForm fuel (out ++ rest) = some (objForm t, rest)) ∧
    (∀ sp ts outs closer rest, (sp = [] ∨ sp = [' ']) → wfElems ts = true →
       buildArgs ts = .ok outs → (closer = ')' ∨ closer = ']' ∨ closer = '\x7d') →
       needE ts ≤ fuel →
       parseElems fuel closer (sp ++ (joinSpace outs ++ closer :: rest)) =
         some (ts, rest)) ∧
    (∀ sp ps pouts rest, (sp = [] ∨ sp = [' ']) → wfPairs ps = true →
       buildArgs ps = .ok pouts → needM ps ≤ fuel →
       parseMapItems fuel (sp ++ (joinSpace pouts ++ '\x7d' :: rest)) =
         some (ps, rest)) := by
  intro fuel
  induction fuel with
  | zero =>
      refine ⟨?_, ?_, ?_⟩
      · intro t _ _ _ _ _ hf
        exact absurd hf (by have := needF_pos t; omega)
      · intro _ ts _ _ _ _ _ _ _ hf
        exact absurd hf (by have := needE_pos ts; omega)
      · intro _ ps _ _ _ _ _ hf
        exact absurd hf (by have := needM_pos ps; omega)
  | succ n ih =>
      obtain ⟨ihF, ihE, ihM⟩ := ih
      refine ⟨?_, ?_, ?_⟩
      · intro t out rest hw hb hr hf
        rcases wfT_cases t hw with ⟨n1, rfl⟩ | ⟨n1, rfl⟩ | rfl | rfl | rfl | ⟨st, rfl⟩ |
          ⟨ch, rfl⟩ | ⟨st, rfl, hfl⟩ | ⟨sargs, rfl, hsa⟩ | ⟨sargs, rfl, hsa⟩ |
          ⟨es, hor, hes⟩ | ⟨ps, rfl, hps⟩ | ⟨sargs, payload, rfl, hsa, hts, hpw⟩
        · -- integer
          rw [show buildTerm (.leaf (.pint n1)) = .ok (intChars n1) from rfl] at hb
          injection hb with hb
          subst hb
          show _ = some (.pyint n1, rest)
          obtain ⟨c, tl, he, hc⟩ := intChars_head n1
          have hnum := numberRule_int n1 rest hr
          have hstart := numStartOk_int n1 rest
          rw [he, List.cons_append] at hnum hstart ⊢
          rw [parseForm_plain n c (tl ++ rest)
            (beq_false_code c '(' 40 rfl (by rcases hc with hc | hc <;> omega))
            (beq_false_code c '[' 91 rfl (by rcases hc with hc | hc <;> omega))
            (beq_false_code c '\x7b' 123 rfl (by rcases hc with hc | hc <;> omega))
            (beq_false_code c '"' 34 rfl (by rcases hc with hc | hc <;> omega))
            (beq_false_code c '\\' 92 rfl (by rcases hc with hc | hc <;> omega))
            (beq_false_code c ':' 58 rfl (by rcases hc with hc | hc <;> omega))
            (beq_false_code c '#' 35 rfl (by rcases hc with hc | hc <;> omega))]
          simp only [tryLiterals_head_fail c (tl ++ rest)
            (beq_false_code c 'n' 110 rfl (by rcases hc with hc | hc <;> omega))
            (beq_false_code c 't' 116 rfl (by rcases hc with hc | hc <;> omega))
            (beq_false_code c 'f' 102 rfl (by rcases hc with hc | hc <;> omega)),
            hstart, if_true, hnum]
        · -- long
          rw [show buildTerm (.leaf (.plong n1)) = .ok (intChars n1 ++ ['N'])
            from rfl] at hb
          injection hb with hb
          subst hb
          show _ = some (.pylong n1, rest)
          obtain ⟨c, tl, he, hc⟩ := intChars_head n1
          have hnum := numberRule_long n1 rest
          have hstart := numStartOk_int n1 ('N' :: rest)
          rw [he, List.cons_append] at hnum hstart
          rw [List.append_assoc, show (['N'] : List Char) ++ rest = 'N' :: rest from rfl,
            he, List.cons_append]
          rw [parseForm_plain n c (tl ++ 'N' :: rest)
            (beq_false_code c '(' 40 rfl (by rcases hc with hc | hc <;> omega))
            (beq_false_code c '[' 91 rfl (by rcases hc with hc | hc <;> omega))
            (beq_false_code c '\x7b' 123 rfl (by rcases hc with hc | hc <;> omega))
            (beq_false_code c '"' 34 rfl (by rcases hc with hc | hc <;> omega))
            (beq_false_code c '\\' 92 rfl (by rcases hc with hc | hc <;> omega))
            (beq_false_code c ':' 58 rfl (by rcases hc with hc | hc <;> omega))
            (beq_false_code c '#' 35 rfl (by rcases hc with hc | hc <;> omega))]
          simp only [tryLiterals_head_fail c (tl ++ 'N' :: rest)
            (beq_false_code c 'n' 110 rfl (by rcases hc with hc | hc <;> omega))
            (beq_false_code c 't' 116 rfl (by rcases hc with hc | hc <;> omega))
            (beq_false_code c 'f' 102 rfl (by rcases hc with hc | hc <;> omega)),
            hstart, if_true, hnum]
        · -- nil literal
          rw [show buildTerm (.node "Nil" []) = .ok "nil".data from rfl] at hb
          injection hb with hb
          subst hb
          show parseForm (n + 1) ('n' :: ('i' :: 'l' :: rest)) =
            some (.term (.node "Nil" []), rest)
          rw [parseForm_plain n 'n' ('i' :: 'l' :: rest) (by decide) (by decide)
            (by decide) (by decide) (by decide) (by decide) (by decide)]
          rw [show ('n' :: ('i' :: 'l' :: rest)) = "nil".data ++ rest from rfl]
          simp only [tryLiterals, tryLit, startsWithL_self, headOk_boundary hr, if_true]
        · -- true literal
          rw [show buildTerm (.node "true" []) = .ok "true".data from rfl] at hb
          injection hb with hb
          subst hb
          show parseForm (n + 1) ('t' :: ('r' :: 'u' :: 'e' :: rest)) =
            some (.pybool true, rest)
          rw [parseForm_plain n 't' ('r' :: 'u' :: 'e' :: rest) (by decide) (by decide)
            (by decide) (by decide) (by decide) (by decide) (by decide)]
          simp [tryLiterals, tryLit, startsWithL, headOk_boundary hr]
        · -- false literal
          rw [show buildTerm (.node "false" []) = .ok "false".data from rfl] at hb
          injection hb with hb
          subst hb
          show parseForm (n + 1) ('f' :: ('a' :: 'l' :: 's' :: 'e' :: rest)) =
            some (.pybool false, rest)
          rw [parseForm_plain n 'f' ('a' :: 'l' :: 's' :: 'e' :: rest) (by decide)
            (by decide) (by decide) (by decide) (by decide) (by decide) (by decide)]
          simp [tryLiterals, tryLit, startsWithL, headOk_boundary hr]
        · -- string
          rw [show buildTerm (.node "String" [.leaf (.puni st)]) =
            .ok (dump_String st.data) from rfl] at hb
          injection hb with hb
          subst hb
          show parseForm (n + 1)
            ('"' :: (((utf8Encode st.data).flatMap escByte ++ ['"']) ++ rest)) =
            some (.term (.node "String" [.leaf (.puni st)]), rest)
          rw [List.append_assoc, show (['"'] : List Char) ++ rest = '"' :: rest from rfl]
          rw [parseForm_string n _]
          simp only [stringRule_roundtrip st.data rest, string_eta]
        · -- character
          rw [show buildTerm (.node "Character" [.leaf (.pstr (String.mk [ch]))]) =
            .ok ['\\', ch] from rfl] at hb
          injection hb with hb
          subst hb
          show parseForm (n + 1) ('\\' :: (ch :: rest)) =
            some (.term (.node "Character" [.leaf (.pstr (String.mk [ch]))]), rest)
          rw [parseForm_char n _]
          simp only [charRule_single ch rest hr, charT]
        · -- exact float
          rw [show buildTerm (.node "ExactFloat" [.leaf (.pstr st)]) =
            .ok (st.data ++ ['M']) from rfl] at hb
          injection hb with hb
          subst hb
          show _ = some (.term (.node "ExactFloat" [.leaf (.pstr st)]), rest)
          obtain ⟨c, tl, he, hc⟩ := wfFloatLit_head st.data hfl
          have hnum := numberRule_float st.data rest hfl
          have hstart := numStartOk_float st.data hfl ('M' :: rest)
          rw [he, List.cons_append] at hnum hstart
          rw [List.append_assoc, show (['M'] : List Char) ++ rest = 'M' :: rest from rfl,
            he, List.cons_append]
          rw [parseForm_plain n c (tl ++ 'M' :: rest)
            (beq_false_code c '(' 40 rfl (by rcases hc with hc | hc | hc <;> omega))
            (beq_false_code c '[' 91 rfl (by rcases hc with hc | hc | hc <;> omega))
            (beq_false_code c '\x7b' 123 rfl (by rcases hc with hc | hc | hc <;> omega))
            (beq_false_code c '"' 34 rfl (by rcases hc with hc | hc | hc <;> omega))
            (beq_false_code c '\\' 92 rfl (by rcases hc with hc | hc | hc <;> omega))
            (beq_false_code c ':' 58 rfl (by rcases hc with hc | hc | hc <;> omega))
            (beq_false_code c '#' 35 rfl (by rcases hc with hc | hc | hc <;> omega))]
          simp only [tryLiterals_head_fail c (tl ++ 'M' :: rest)
            (beq_false_code c 'n' 110 rfl (by rcases hc with hc | hc | hc <;> omega))
            (beq_false_code c 't' 116 rfl (by rcases hc with hc | hc | hc <;> omega))
            (beq_false_code c 'f' 102 rfl (by rcases hc with hc | hc | hc <;> omega)),
            hstart, if_true, hnum]
          rw [← he, string_eta]
        · -- symbol in form position
          rcases wfSymArgs_cases sargs true hsa with ⟨name, rfl, hname⟩ |
            ⟨name, pfx, rfl, hna, hpa, hpc⟩
          · rw [show buildTerm (.node "Symbol" [.leaf (.pstr name)]) =
              .ok name.data from rfl] at hb
            injection hb with hb
            subst hb
            have hn2 : wfName name.data = true := by simpa using hname
            rcases wfName_cases name.data hn2 with hsl | ⟨hall, hcs, hlitf⟩
            · have hne : name = "/" := by
                rw [← string_eta name, hsl]
              subst hne
              show parseForm (n + 1) ('/' :: rest) =
                some (.term (.node "Symbol" [.leaf (.pstr "/")]), rest)
              rw [parseForm_plain n '/' rest (by decide) (by decide) (by decide)
                (by decide) (by decide) (by decide) (by decide)]
              simp only [tryLiterals_head_fail '/' rest (by decide) (by decide)
                (by decide), show numStartOk ('/' :: rest) = false from rfl,
                Bool.false_eq_true, if_false]
              rw [symbolRule]
              simp only [if_pos (show (('/' : Char) == '/') = true from rfl),
                headOk_boundary hr, if_true]
            · show _ = some (.term (.node "Symbol" [.leaf (.pstr name)]), rest)
              obtain ⟨c, cs, hnd, hcc⟩ := allConstituent_head name.data hall
              have hcs2 : chunkStartOk (c :: cs) = true := by rw [← hnd]; exact hcs
              have hnum : numStartOk (c :: (cs ++ rest)) = false :=
                numStartOk_chunk_false c cs rest hcs2 (headOk_not_digit hr)
              have hsym := symbolRule_chunk name rest hall hcs
                (headOk_not_constituent hr) (headOk_noSlash hr)
              have hlits := tryLiterals_fail name.data rest
                (by simp only [allConstituent, Bool.and_eq_true] at hall; exact hall.2)
                (headOk_not_constituent hr) (Or.inl hlitf)
              obtain ⟨hs1, hs2, hs3, hs4, hs5⟩ := not_special_of_constituent c hcc
              have hcs3 := hcs2
              simp only [chunkStartOk, Bool.and_eq_true, Bool.not_eq_true'] at hcs3
              rw [hnd, List.cons_append]
              rw [parseForm_plain n c (cs ++ rest) hs1 hs2 hs3 hs4 hs5
                hcs3.1.1.2 hcs3.1.2]
              rw [← List.cons_append, ← hnd]
              simp only [hlits]
              rw [hnd, List.cons_append]
              simp only [hnum, Bool.false_eq_true, if_false]
              rw [← List.cons_append, ← hnd]
              simp only [hsym]
          · rw [show buildTerm (.node "Symbol"
              [.leaf (.pstr name), .leaf (.pstr pfx)]) =
              .ok (pfx.data ++ '/' :: name.data) from rfl] at hb
            injection hb with hb
            subst hb
            show _ = some (.term (.node "Symbol"
              [.leaf (.pstr name), .leaf (.pstr pfx)]), rest)
            obtain ⟨c, cs, hnd, hcc⟩ := allConstituent_head pfx.data hpa
            have hcs2 : chunkStartOk (c :: cs) = true := by rw [← hnd]; exact hpc
            have hsym := symbolRule_prefixed name pfx rest hna hpa hpc
              (headOk_not_constituent hr)
            have hlits := tryLiterals_fail pfx.data ('/' :: (name.data ++ rest))
              (by simp only [allConstituent, Bool.and_eq_true] at hpa; exact hpa.2)
              (by rfl) (Or.inr rfl)
            have hnum : numStartOk (c :: (cs ++ ('/' :: (name.data ++ rest)))) = false :=
              numStartOk_chunk_false c cs ('/' :: (name.data ++ rest)) hcs2 (by rfl)
            obtain ⟨hs1, hs2, hs3, hs4, hs5⟩ := not_special_of_constituent c hcc
            have hcs3 := hcs2
            simp only [chunkStartOk, Bool.and_eq_true, Bool.not_eq_true'] at hcs3
            rw [List.append_assoc, List.cons_append, hnd, List.cons_append]
            rw [parseForm_plain n c (cs ++ ('/' :: (name.data ++ rest))) hs1 hs2 hs3
              hs4 hs5 hcs3.1.1.2 hcs3.1.2]
            rw [← List.cons_append, ← hnd]
            simp only [hlits]
            rw [hnd, List.cons_append]
            simp only [hnum, Bool.false_eq_true, if_false]
            rw [← List.cons_append, ← hnd, ← List.cons_append, ← List.append_assoc]
            simp only [hsym]
        · -- keyword
          rcases wfSymArgs_cases sargs false hsa with ⟨name, rfl, hname⟩ |
            ⟨name, pfx, rfl, hna, hpa, hpc⟩
          · rw [show buildTerm (.node "Keyword" [.node "Symbol"
              [.leaf (.pstr name)]]) = .ok (':' :: name.data) from rfl] at hb
            injection hb with hb
            subst hb
            have hnk : wfNameK name.data = true := by simpa using hname
            rcases wfNameK_cases name.data hnk with hsl | ⟨hall, hcs⟩
            · have hne : name = "/" := by
                rw [← string_eta name, hsl]
              subst hne
              show parseForm (n + 1) (':' :: ('/' :: rest)) =
                some (.term (.node "Keyword" [.node "Symbol" [.leaf (.pstr "/")]]), rest)
              rw [parseForm_keyword n _]
              rw [symbolRule]
              simp only [if_pos (show (('/' : Char) == '/') = true from rfl),
                headOk_boundary hr, if_true]
            · show parseForm (n + 1) (':' :: (name.data ++ rest)) =
                some (.term (.node "Keyword" [.node "Symbol"
                  [.leaf (.pstr name)]]), rest)
              rw [parseForm_keyword n _]
              simp only [symbolRule_chunk name rest hall hcs
                (headOk_not_constituent hr) (headOk_noSlash hr)]
          · rw [show buildTerm (.node "Keyword" [.node "Symbol"
              [.leaf (.pstr name), .leaf (.pstr pfx)]]) =
              .ok (':' :: (pfx.data ++ '/' :: name.data)) from rfl] at hb
            injection hb with hb
            subst hb
            show parseForm (n + 1) (':' :: ((pfx.data ++ '/' :: name.data) ++ rest)) =
              some (.term (.node "Keyword" [.node "Symbol"
                [.leaf (.pstr name), .leaf (.pstr pfx)]]), rest)
            rw [parseForm_keyword n _]
            simp only [symbolRule_prefixed name pfx rest hna hpa hpc
              (headOk_not_constituent hr)]
        · -- list, vector, set
          have hne : needE es ≤ n := by
            rcases hor with rfl | rfl | rfl
            · rw [show needF (.node "List" [.node ".tuple." es]) = 1 + needE es
                from rfl] at hf
              omega
            · rw [show needF (.node "Vector" [.node ".tuple." es]) = 1 + needE es
                from rfl] at hf
              omega
            · rw [show needF (.node "Set" [.node ".tuple." es]) = 1 + needE es
                from rfl] at hf
              omega
          rcases hor with rfl | rfl | rfl
          · rw [buildTerm_node, buildArgs_cons, buildTerm_node] at hb
            rcases hbe : buildArgs es with e | outs <;> rw [hbe] at hb <;>
              dsimp only at hb
            · exact absurd hb (by simp)
            · rw [show dumpNode ".tuple." outs = .ok (joinSpace outs) from rfl] at hb
              dsimp only [buildArgs] at hb
              rw [show ∀ x : List (List Char), dumpNode "List" x =
                .ok ('(' :: x.flatten ++ [')']) from fun x => rfl] at hb
              injection hb with hb
              subst hb
              show _ = some (.term (.node "List" [.node ".tuple." es]), rest)
              rw [show ([joinSpace outs] : List (List Char)).flatten =
                joinSpace outs ++ [] from rfl, List.append_nil]
              rw [List.append_assoc,
                show ([')'] : List Char) ++ rest = ')' :: rest from rfl,
                List.cons_append]
              rw [parseForm_list n _]
              have hrec := ihE [] es outs ')' rest (Or.inl rfl) hes hbe (Or.inl rfl) hne
              rw [List.nil_append] at hrec
              simp only [hrec]
          · rw [buildTerm_node, buildArgs_cons, buildTerm_node] at hb
            rcases hbe : buildArgs es with e | outs <;> rw [hbe] at hb <;>
              dsimp only at hb
            · exact absurd hb (by simp)
            · rw [show dumpNode ".tuple." outs = .ok (joinSpace outs) from rfl] at hb
              dsimp only [buildArgs] at hb
              rw [show ∀ x : List (List Char), dumpNode "Vector" x =
                .ok ('[' :: x.flatten ++ [']']) from fun x => rfl] at hb
              injection hb with hb
              subst hb
              show _ = some (.term (.node "Vector" [.node ".tuple." es]), rest)
              rw [show ([joinSpace outs] : List (List Char)).flatten =
                joinSpace outs ++ [] from rfl, List.append_nil]
              rw [List.append_assoc,
                show ([']'] : List Char) ++ rest = ']' :: rest from rfl,
                List.cons_append]
              rw [parseForm_vector n _]
              have hrec := ihE [] es outs ']' rest (Or.inl rfl) hes hbe
                (Or.inr (Or.inl rfl)) hne
              rw [List.nil_append] at hrec
              simp only [hrec]
          · rw [buildTerm_node, buildArgs_cons, buildTerm_node] at hb
            rcases hbe : buildArgs es with e | outs <;> rw [hbe] at hb <;>
              dsimp only at hb
            · exact absurd hb (by simp)
            · rw [show dumpNode ".tuple." outs = .ok (joinSpace outs) from rfl] at hb
              dsimp only [buildArgs] at hb
              rw [show ∀ x : List (List Char), dumpNode "Set" x =
                .ok ('#' :: '\x7b' :: x.flatten ++ ['\x7d']) from fun x => rfl] at hb
              injection hb with hb
              subst hb
              show _ = some (.term (.node "Set" [.node ".tuple." es]), rest)
              rw [show ([joinSpace outs] : List (List Char)).flatten =
                joinSpace outs ++ [] from rfl, List.append_nil]
              rw [List.append_assoc,
                show (['\x7d'] : List Char) ++ rest = '\x7d' :: rest from rfl,
                List.cons_append, List.cons_append]
              rw [parseForm_hash n _]
              dsimp only
              rw [if_pos (by decide)]
              have hrec := ihE [] es outs '\x7d' rest (Or.inl rfl) hes hbe
                (Or.inr (Or.inr rfl)) hne
              rw [List.nil_append] at hrec
              simp only [hrec]
        · -- map
          have hnm : needM ps ≤ n := by
            rw [show needF (.node "Map" [.node ".tuple." ps]) = 1 + needM ps
              from rfl] at hf
            omega
          rw [buildTerm_node, buildArgs_cons, buildTerm_node] at hb
          rcases hbe : buildArgs ps with e | pouts <;> rw [hbe] at hb <;>
            dsimp only at hb
          · exact absurd hb (by simp)
          · rw [show dumpNode ".tuple." pouts = .ok (joinSpace pouts) from rfl] at hb
            dsimp only [buildArgs] at hb
            rw [show ∀ x : List (List Char), dumpNode "Map" x =
              .ok ('\x7b' :: x.flatten ++ ['\x7d']) from fun x => rfl] at hb
            injection hb with hb
            subst hb
            show _ = some (.term (.node "Map" [.node ".tuple." ps]), rest)
            rw [show ([joinSpace pouts] : List (List Char)).flatten =
              joinSpace pouts ++ [] from rfl, List.append_nil]
            rw [List.append_assoc,
              show (['\x7d'] : List Char) ++ rest = '\x7d' :: rest from rfl,
              List.cons_append]
            rw [parseForm_map n _]
            have hrec := ihM [] ps pouts rest (Or.inl rfl) hps hbe hnm
            rw [List.nil_append] at hrec
            simp only [hrec]
        · -- tagged value
          have hfp : needF payload ≤ n := by
            rw [show needF (.node "TaggedValue" [.node "Symbol" sargs, payload]) =
              1 + needF payload from rfl] at hf
            omega
          rcases hbp : buildTerm payload with e | pout
          · -- payload failed to build: impossible under hb
            rcases wfSymArgs_cases sargs false hsa with ⟨name, rfl, _⟩ |
              ⟨name, pfx, rfl, _, _, _⟩ <;>
            · rw [buildTerm_node, buildArgs_cons] at hb
              rcases hbs : buildTerm (.node "Symbol" _) with e2 | symout <;>
                rw [hbs] at hb <;> dsimp only at hb
              · exact absurd hb (by simp)
              · rw [buildArgs_cons, hbp] at hb
                dsimp only at hb
                exact absurd hb (by simp)
          · obtain ⟨pc, ptl, hpo, hpg⟩ := build_head_good payload pout hpw hbp
            have hskips : skipWs (' ' :: (pout ++ rest)) = pout ++ rest := by
              rw [skipWs_space, hpo, List.cons_append]
              exact skipWs_goodHead pc _ hpg
            have hform := ihF payload pout rest hpw hbp hr hfp
            rcases wfSymArgs_cases sargs false hsa with ⟨name, rfl, hname⟩ |
              ⟨name, pfx, rfl, hna, hpa, hpc2⟩
            · rw [buildTerm_node, buildArgs_cons,
                show buildTerm (.node "Symbol" [.leaf (.pstr name)]) =
                  .ok name.data from rfl] at hb
              dsimp only at hb
              rw [buildArgs_cons, hbp] at hb
              dsimp only at hb
              rw [show buildArgs ([] : List Term) = .ok [] from rfl] at hb
              dsimp only at hb
              rw [show dumpNode "TaggedValue" [name.data, pout] =
                .ok ('#' :: name.data ++ ' ' :: pout) from rfl] at hb
              injection hb with hb
              subst hb
              have hnk : wfNameK name.data = true := by simpa using hname
              rcases wfNameK_cases name.data hnk with hsl | ⟨hall, hcs⟩
              · have hne : name = "/" := by
                  rw [← string_eta name, hsl]
                subst hne
                show parseForm (n + 1) ('#' :: ('/' :: (' ' :: (pout ++ rest)))) =
                  some (.term (.node "TaggedValue" [.node "Symbol"
                    [.leaf (.pstr "/")], payload]), rest)
                rw [parseForm_hash n _]
                dsimp only
                rw [if_neg (by decide), if_neg (by decide)]
                rw [symbolRule]
                rw [if_pos (show (('/' : Char) == '/') = true from rfl)]
                rw [if_pos (show boundaryOk (' ' :: (pout ++ rest)) = true from rfl)]
                dsimp only
                rw [if_pos (show wsHead (' ' :: (pout ++ rest)) = true from rfl)]
                rw [hskips]
                simp only [hform, coerce_objForm]
              · show _ = some (.term (.node "TaggedValue" [.node "Symbol"
                  [.leaf (.pstr name)], payload]), rest)
                obtain ⟨c, cs, hnd, hcc⟩ := allConstituent_head name.data hall
                have hts2 : (c == '_') = false := by
                  rw [show tagStartOk [Term.leaf (PyLeaf.pstr name)] =
                    (match name.data with
                     | c :: _ => !(c == '_')
                     | [] => false) from rfl, hnd] at hts
                  simpa using hts
                obtain ⟨_, _, hs3, _, _⟩ := not_special_of_constituent c hcc
                have hsym := symbolRule_chunk name (' ' :: (pout ++ rest)) hall hcs
                  (by rfl) (by rfl)
                rw [List.append_assoc, List.cons_append, List.cons_append]
                rw [parseForm_hash n _]
                rw [hnd, List.cons_append]
                dsimp only
                rw [if_neg (by rw [hs3]; simp), if_neg (by rw [hts2]; simp)]
                rw [← List.cons_append, ← hnd]
                simp only [hsym]
                rw [if_pos (show wsHead (' ' :: (pout ++ rest)) = true from rfl)]
                rw [hskips]
                simp only [hform, coerce_objForm]
            · rw [buildTerm_node, buildArgs_cons,
                show buildTerm (.node "Symbol"
                  [.leaf (.pstr name), .leaf (.pstr pfx)]) =
                  .ok (pfx.data ++ '/' :: name.data) from rfl] at hb
              dsimp only at hb
              rw [buildArgs_cons, hbp] at hb
              dsimp only at hb
              rw [show buildArgs ([] : List Term) = .ok [] from rfl] at hb
              dsimp only at hb
              rw [show dumpNode "TaggedValue" [pfx.data ++ '/' :: name.data, pout] =
                .ok ('#' :: (pfx.data ++ '/' :: name.data) ++ ' ' :: pout)
                from rfl] at hb
              injection hb with hb
              subst hb
              show _ = some (.term (.node "TaggedValue" [.node "Symbol"
                [.leaf (.pstr name), .leaf (.pstr pfx)], payload]), rest)
              obtain ⟨c, cs, hnd, hcc⟩ := allConstituent_head pfx.data hpa
              have hts2 : (c == '_') = false := by
                rw [show tagStartOk [Term.leaf (PyLeaf.pstr name),
                  Term.leaf (PyLeaf.pstr pfx)] =
                  (match pfx.data with
                   | c :: _ => !(c == '_')
                   | [] => false) from rfl, hnd] at hts
                simpa using hts
              obtain ⟨_, _, hs3, _, _⟩ := not_special_of_constituent c hcc
              have hsym := symbolRule_prefixed name pfx (' ' :: (pout ++ rest))
                hna hpa hpc2 (by rfl)
              rw [List.append_assoc, List.cons_append, List.cons_append]
              rw [parseForm_hash n _]
              rw [List.append_assoc, List.cons_append, hnd, List.cons_append]
              dsimp only
              rw [if_neg (by rw [hs3]; simp), if_neg (by rw [hts2]; simp)]
              rw [← List.cons_append, ← hnd, ← List.cons_append, ← List.append_assoc]
              simp only [hsym]
              rw [if_pos (show wsHead (' ' :: (pout ++ rest)) = true from rfl)]
              rw [hskips]
              simp only [hform, coerce_objForm]
      · -- elements
        intro sp ts outs closer rest hsp hw hba hcl hf
        rw [parseElems_step]
        unfold parseElemsBody
        have hskip0 : skipWs (sp ++ (joinSpace outs ++ closer :: rest)) =
            skipWs (joinSpace outs ++ closer :: rest) := by
          rcases hsp with rfl | rfl
          · rw [List.nil_append]
          · exact skipWs_space _
        rw [hskip0]
        cases ts with
        | nil =>
            have ho : outs = [] := by
              rw [show buildArgs ([] : List Term) = .ok [] from rfl] at hba
              injection hba with h2
              exact h2.symm
            subst ho
            rw [show joinSpace ([] : List (List Char)) = ([] : List Char) from rfl,
              List.nil_append]
            rw [skipWs_noop (by rcases hcl with rfl | rfl | rfl <;> rfl)]
            dsimp only
            rw [if_pos (by simp)]
        | cons t ts' =>
            obtain ⟨o, os, hbt, hbts, rfl⟩ := buildArgs_ok_cons t ts' outs hba
            rw [show wfElems (t :: ts') = (wfT t && wfElems ts') from rfl] at hw
            simp only [Bool.and_eq_true] at hw
            have hft : needF t ≤ n := by
              rw [show needE (t :: ts') = 1 + max (needF t) (needE ts') from rfl] at hf
              omega
            have hfe : needE ts' ≤ n := by
              rw [show needE (t :: ts') = 1 + max (needF t) (needE ts') from rfl] at hf
              omega
            obtain ⟨c, tl, hoc, hgood⟩ := build_head_good t o hw.1 hbt
            have hcc : (c == closer) = false := by
              obtain ⟨_, _, h3, h4, h5⟩ := goodHead_unpack c hgood
              rcases hcl with rfl | rfl | rfl
              · exact h3
              · exact h4
              · exact h5
            cases os with
            | nil =>
                have hts' : ts' = [] := buildArgs_nil_inv ts' hbts
                subst hts'
                rw [show joinSpace [o] = o from rfl]
                rw [hoc, List.cons_append, skipWs_goodHead c _ hgood]
                dsimp only
                rw [if_neg (by rw [hcc]; simp)]
                rw [← List.cons_append, ← hoc]
                have hform := ihF t o (closer :: rest) hw.1 hbt
                  (headOk_closer closer hcl rest) hft
                simp only [hform, coerce_objForm]
                have hrec := ihE [] [] [] closer rest (Or.inl rfl) rfl rfl hcl hfe
                simp only [List.nil_append,
                  show joinSpace ([] : List (List Char)) = ([] : List Char) from rfl]
                  at hrec
                simp only [hrec]
            | cons o2 os2 =>
                rw [show joinSpace (o :: o2 :: os2) =
                  o ++ ' ' :: joinSpace (o2 :: os2) from rfl]
                rw [List.append_assoc,
                  show (' ' :: joinSpace (o2 :: os2)) ++ closer :: rest =
                    ' ' :: (joinSpace (o2 :: os2) ++ closer :: rest) from rfl]
                rw [hoc, List.cons_append, skipWs_goodHead c _ hgood]
                dsimp only
                rw [if_neg (by rw [hcc]; simp)]
                rw [← List.cons_append, ← hoc]
                have hform := ihF t o
                  (' ' :: (joinSpace (o2 :: os2) ++ closer :: rest)) hw.1 hbt
                  (by rfl) hft
                simp only [hform, coerce_objForm]
                have hrec := ihE [' '] ts' (o2 :: os2) closer rest (Or.inr rfl)
                  hw.2 hbts hcl hfe
                rw [show ([' '] : List Char) ++
                  (joinSpace (o2 :: os2) ++ closer :: rest) =
                  ' ' :: (joinSpace (o2 :: os2) ++ closer :: rest) from rfl] at hrec
                simp only [hrec]
      · -- map items
        intro sp ps pouts rest hsp hw hbp hf
        rw [parseMapItems_step]
        unfold parseMapItemsBody
        have hskip0 : skipWs (sp ++ (joinSpace pouts ++ '\x7d' :: rest)) =
            skipWs (joinSpace pouts ++ '\x7d' :: rest) := by
          rcases hsp with rfl | rfl
          · rw [List.nil_append]
          · exact skipWs_space _
        rw [hskip0]
        cases ps with
        | nil =>
            have ho : pouts = [] := by
              rw [show buildArgs ([] : List Term) = .ok [] from rfl] at hbp
              injection hbp with h2
              exact h2.symm
            subst ho
            rw [show joinSpace ([] : List (List Char)) = ([] : List Char) from rfl,
              List.nil_append]
            rw [skipWs_noop (by rfl)]
            dsimp only
            rw [if_pos (by simp)]
        | cons p ts' =>
            obtain ⟨k, v, rfl, hwk, hwv, hwts⟩ := wfPairs_cons_inv p ts' hw
            obtain ⟨a, as, hbt, hbts, rfl⟩ := buildArgs_ok_cons _ ts' pouts hbp
            rw [buildTerm_node, buildArgs_cons] at hbt
            rcases hbk : buildTerm k with e | kout <;> rw [hbk] at hbt <;>
              dsimp only at hbt
            · exact absurd hbt (by simp)
            · rw [buildArgs_cons] at hbt
              rcases hbv : buildTerm v with e | vout <;> rw [hbv] at hbt <;>
                dsimp only at hbt
              · exact absurd hbt (by simp)
              · rw [show buildArgs ([] : List Term) = .ok [] from rfl] at hbt
                dsimp only at hbt
                rw [show dumpNode ".tuple." [kout, vout] =
                  .ok (kout ++ ' ' :: vout) from rfl] at hbt
                injection hbt with hbt
                subst hbt
                rw [show needM (.node ".tuple." [k, v] :: ts') =
                  1 + max (max (needF k) (needF v)) (needM ts') from rfl] at hf
                have hfk : needF k ≤ n := by omega
                have hfv : needF v ≤ n := by omega
                have hfm : needM ts' ≤ n := by omega
                obtain ⟨kc, ktl, hkc, hkg⟩ := build_head_good k kout hwk hbk
                obtain ⟨vc, vtl, hvc, hvg⟩ := build_head_good v vout hwv hbv
                have hkcc : (kc == '\x7d') = false := (goodHead_unpack kc hkg).2.2.2.2
                have hskipv : ∀ z : List Char, skipWs (' ' :: (vout ++ z)) = vout ++ z := by
                  intro z
                  rw [skipWs_space, hvc, List.cons_append]
                  exact skipWs_goodHead vc _ hvg
                cases as with
                | nil =>
                    have hts2 : ts' = [] := buildArgs_nil_inv ts' hbts
                    subst hts2
                    rw [show joinSpace [kout ++ ' ' :: vout] = kout ++ ' ' :: vout
                      from rfl]
                    rw [List.append_assoc,
                      show (' ' :: vout) ++ '\x7d' :: rest =
                        ' ' :: (vout ++ '\x7d' :: rest) from rfl]
                    rw [hkc, List.cons_append, skipWs_goodHead kc _ hkg]
                    dsimp only
                    rw [if_neg (by rw [hkcc]; simp)]
                    rw [← List.cons_append, ← hkc]
                    have hkform := ihF k kout
                      (' ' :: (vout ++ '\x7d' :: rest)) hwk hbk (by rfl) hfk
                    simp only [hkform]
                    rw [hskipv ('\x7d' :: rest)]
                    have hvform := ihF v vout ('\x7d' :: rest) hwv hbv (by rfl) hfv
                    simp only [hvform, coerce_objForm]
                    have hrec := ihM [] [] [] rest (Or.inl rfl) rfl rfl hfm
                    simp only [List.nil_append,
                      show joinSpace ([] : List (List Char)) = ([] : List Char)
                        from rfl] at hrec
                    simp only [hrec]
                | cons a2 as2 =>
                    rw [show joinSpace ((kout ++ ' ' :: vout) :: a2 :: as2) =
                      (kout ++ ' ' :: vout) ++ ' ' :: joinSpace (a2 :: as2) from rfl]
                    rw [List.append_assoc, List.append_assoc,
                      show (' ' :: vout) ++ ((' ' :: joinSpace (a2 :: as2)) ++
                        '\x7d' :: rest) = ' ' :: (vout ++ (' ' ::
                        (joinSpace (a2 :: as2) ++ '\x7d' :: rest))) from by
                          rw [List.cons_append, List.cons_append]]
                    rw [hkc, List.cons_append, skipWs_goodHead kc _ hkg]
                    dsimp only
                    rw [if_neg (by rw [hkcc]; simp)]
                    rw [← List.cons_append, ← hkc]
                    have hkform := ihF k kout
                      (' ' :: (vout ++ (' ' :: (joinSpace (a2 :: as2) ++
                        '\x7d' :: rest)))) hwk hbk (by rfl) hfk
                    simp only [hkform]
                    rw [hskipv (' ' :: (joinSpace (a2 :: as2) ++ '\x7d' :: rest))]
                    have hvform := ihF v vout
                      (' ' :: (joinSpace (a2 :: as2) ++ '\x7d' :: rest)) hwv hbv
                      (by rfl) hfv
                    simp only [hvform, coerce_objForm]
                    have hrec := ihM [' '] ts' (a2 :: as2) rest (Or.inr rfl)
                      hwts hbts hfm
                    rw [show ([' '] : List Char) ++
                      (joinSpace (a2 :: as2) ++ '\x7d' :: rest) =
                      ' ' :: (joinSpace (a2 :: as2) ++ '\x7d' :: rest) from rfl] at hrec
                    simp only [hrec]

/-- `takeSyms` splits its input: the parts rejoin to it, the first is
all constituents and the remainder starts with a non-constituent. -/
theorem takeSyms_split : ∀ cs : List Char,
    (takeSyms cs).1 ++ (takeSyms cs).2 = cs ∧
      (takeSyms cs).1.all isConstituent = true ∧
      headNot isConstituent (takeSyms cs).2 = true := by
  intro cs
  induction cs with
  | nil => exact ⟨rfl, rfl, rfl⟩
  | cons c r ih =>
      rcases hd : isConstituent c with _ | _
      · rw [takeSyms, if_neg (by simp [hd])]
        exact ⟨rfl, rfl, by simp [headNot, hd]⟩
      · rw [takeSyms, if_pos (by simp [hd])]
        refine ⟨?_, ?_, ?_⟩
        · simpa using ih.1
        · simpa [hd] using ih.2.1
        · simpa using ih.2.2

/-- A term the parser would not surface as a raw value keeps its term
form. -/
theorem objForm_notRaw (t : Term) (h : notRawForm t = true) : objForm t = .term t := by
  rw [objForm.eq_def]
  split
  · simp [notRawForm] at h
  · simp [notRawForm] at h
  · simp [notRawForm] at h
  · simp [notRawForm] at h
  · rfl

/-- Coercion sends values of the parse image to well-formed terms. -/
theorem coerce_wf (v : Obj) (t : Term) (hw : wfImage v = true)
    (hc : coerceToTerm v = some t) : wfT t = true := by
  cases v with
  | pyint n =>
      injection hc with hc
      rw [← hc]
      rfl
  | pylong n =>
      injection hc with hc
      rw [← hc]
      rfl
  | pybool b =>
      cases b <;> injection hc with hc <;> rw [← hc] <;> rfl
  | term t0 =>
      injection hc with hc
      rw [← hc]
      simp only [wfImage, Bool.and_eq_true] at hw
      exact hw.1
  | pynone => simp [wfImage] at hw
  | pyfloat b => simp [wfImage] at hw
  | pystr s => simp [wfImage] at hw
  | pyuni s => simp [wfImage] at hw
  | pydec s => simp [wfImage] at hw
  | pylist xs => simp [wfImage] at hw
  | pytuple xs => simp [wfImage] at hw
  | pyset xs => simp [wfImage] at hw
  | pyfrozenset xs => simp [wfImage] at hw
  | pydict ps => simp [wfImage] at hw
  | pyfrozendict ps => simp [wfImage] at hw
  | pydatetime s => simp [wfImage] at hw
  | pyuuid s => simp [wfImage] at hw
  | custom n => simp [wfImage] at hw

/-- A boundary suppresses constituents. -/
theorem headNot_of_boundary {rest : List Char} (h : boundaryOk rest = true) :
    headNot isConstituent rest = true := by
  cases rest with
  | nil => rfl
  | cons c r =>
      simp only [boundaryOk, Bool.and_eq_true, Bool.not_eq_true'] at h
      simp [headNot, h.1]

/-- The literal rules only produce well-formed surface values. -/
theorem tryLiterals_sound (s : List Char) (v : Obj) (rest : List Char)
    (h : tryLiterals s = some (v, rest)) : wfImage v = true := by
  rw [tryLiterals] at h
  have hone : ∀ (lit : List Char) (w u : Obj) (r2 : List Char),
      tryLit lit w s = some (u, r2) → u = w := by
    intro lit w u r2 h2
    rw [tryLit] at h2
    split at h2
    · split at h2
      · injection h2 with h3
        injection h3 with h4 h5
        exact h4.symm
      · exact absurd h2 (by simp)
    · exact absurd h2 (by simp)
  split at h
  · rename_i r hr2
    injection h with h2
    rw [h2] at hr2
    rw [hone _ _ _ _ hr2]
    rfl
  · split at h
    · rename_i r hr2
      injection h with h2
      rw [h2] at hr2
      rw [hone _ _ _ _ hr2]
      rfl
    · rw [hone _ _ _ _ h]
      rfl

/-- A literal-token chunk at a boundary is claimed by the literal
rules. -/
theorem litName_forces (chunk rest : List Char) (hl : isLitName chunk = true)
    (hb : boundaryOk rest = true) (hr : headNot isConstituent rest = true) :
    tryLiterals (chunk ++ rest) ≠ none := by
  simp only [isLitName, Bool.or_eq_true, beq_iff_eq] at hl
  rcases hl with (rfl | rfl) | rfl
  · simp [tryLiterals, tryLit, startsWithL, hb]
  · rw [tryLiterals]
    rw [tryLit_fail "nil".data "true".data rest _ (by decide) (by decide) hr
      (Or.inl (by decide))]
    simp [tryLit, startsWithL, hb]
  · rw [tryLiterals]
    rw [tryLit_fail "nil".data "false".data rest _ (by decide) (by decide) hr
      (Or.inl (by decide))]
    rw [tryLit_fail "true".data "false".data rest _ (by decide) (by decide) hr
      (Or.inl (by decide))]
    simp [tryLit, startsWithL, hb]

/-- The character rule only produces one-byte character terms. -/
theorem charRule_wf (s : List Char) (t : Term) (rest : List Char)
    (h : charRule s = some (t, rest)) : ∃ c0, t = charT c0 := by
  rw [charRule.eq_def] at h
  split at h
  · injection h with h2
    injection h2 with h3 h4
    exact ⟨'\n', h3.symm⟩
  · split at h
    · injection h with h2
      injection h2 with h3 h4
      exact ⟨'\r', h3.symm⟩
    · split at h
      · injection h with h2
        injection h2 with h3 h4
        exact ⟨' ', h3.symm⟩
      · split at h
        · injection h with h2
          injection h2 with h3 h4
          exact ⟨'\t', h3.symm⟩
        · split at h
          · injection h with h2
            injection h2 with h3 h4
            exact ⟨_, h3.symm⟩
          · exact absurd h (by simp)

/-- The string rule only produces `String` terms. -/
theorem stringRule_wf (s : List Char) (t : Term) (rest : List Char)
    (h : stringRule s = some (t, rest)) :
    ∃ s0, t = .node "String" [.leaf (.puni s0)] := by
  rw [stringRule] at h
  split at h
  · split at h
    · rename_i cs heq
      injection h with h2
      injection h2 with h3 h4
      exact ⟨String.mk cs, h3.symm⟩
    · exact absurd h (by simp)
  · exact absurd h (by simp)

/-- The chunk-initial conditions transfer from the whole input to the
munched chunk. -/
theorem chunkStartOk_of_symStart (c : Char) (cs rest2 r : List Char)
    (hj : cs ++ rest2 = r) (hs : symStartOk (c :: r) = true) :
    chunkStartOk (c :: cs) = true := by
  simp only [symStartOk, Bool.and_eq_true] at hs
  obtain ⟨⟨⟨⟨h1, h2⟩, h3⟩, h4⟩, h5⟩ := hs
  simp only [chunkStartOk, Bool.and_eq_true]
  refine ⟨⟨⟨⟨h1, h2⟩, h3⟩, h4⟩, ?_⟩
  by_cases hcs : ((c == '+') || (c == '-')) = true
  · rw [if_pos hcs] at h5 ⊢
    cases cs with
    | nil => rfl
    | cons d cs' =>
        rw [← hj] at h5
        exact h5
  · rw [if_neg hcs] at h5 ⊢

/-- Everything the symbol rule can produce: an unprefixed well-formed
name at a boundary, or a prefixed pair of constituent chunks; the
first character of the (prefix) name is the input head. -/
theorem symbolRule_wf (c : Char) (r : List Char) (t : Term) (rest : List Char)
    (h : symbolRule (c :: r) = some (t, rest)) :
    (∃ name, t = .node "Symbol" [.leaf (.pstr name)] ∧ wfNameK name.data = true ∧
       (∃ tl2, name.data = c :: tl2) ∧ boundaryOk rest = true ∧
       c :: r = name.data ++ rest) ∨
    (∃ name pfx, t = .node "Symbol" [.leaf (.pstr name), .leaf (.pstr pfx)] ∧
       allConstituent name.data = true ∧ allConstituent pfx.data = true ∧
       chunkStartOk pfx.data = true ∧ ∃ tl2, pfx.data = c :: tl2) := by
  rw [symbolRule] at h
  by_cases hc : (c == '/') = true
  · rw [if_pos hc] at h
    have hce : c = '/' := by simpa using hc
    subst hce
    split at h
    · rename_i hb0
      injection h with h2
      injection h2 with h3 h4
      exact Or.inl ⟨"/", h3.symm, by decide, ⟨[], by decide⟩, h4 ▸ hb0,
        by rw [← h4]; rfl⟩
    · exact absurd h (by simp)
  · rw [if_neg hc] at h
    by_cases hs : symStartOk (c :: r) = true
    · rw [if_pos hs] at h
      have hconst : isConstituent c = true := by
        simp only [symStartOk, Bool.and_eq_true] at hs
        exact hs.1.1.1.1
      have htk : takeSyms (c :: r) = (c :: (takeSyms r).1, (takeSyms r).2) := by
        rw [takeSyms, if_pos hconst]
      have hsp := takeSyms_split r
      rcases htk2 : takeSyms r with ⟨cs, rest2⟩
      rw [htk2] at hsp htk
      dsimp only at hsp
      rw [htk] at h
      dsimp only at h
      have hall : (c :: cs).all isConstituent = true := by
        simp only [List.all_cons, Bool.and_eq_true]
        exact ⟨hconst, hsp.2.1⟩
      have hallc : allConstituent (c :: cs) = true := by
        simp only [allConstituent, Bool.and_eq_true]
        exact ⟨by simp, hall⟩
      have hcsk : chunkStartOk (c :: cs) = true :=
        chunkStartOk_of_symStart c cs rest2 r hsp.1 hs
      have hnk : wfNameK (c :: cs) = true := by
        simp only [wfNameK, Bool.or_eq_true, Bool.and_eq_true]
        exact Or.inr ⟨hallc, hcsk⟩
      split at h
      · rename_i sep r2
        split at h
        · -- prefixed
          rename_i hsep
          have hsp2 := takeSyms_split r2
          rcases htk3 : takeSyms r2 with ⟨name2, rest3⟩
          rw [htk3] at hsp2 h
          dsimp only at hsp2 h
          split at h
          · exact absurd h (by simp)
          · rename_i hne
            injection h with h2
            injection h2 with h3 h4
            refine Or.inr ⟨String.mk name2, String.mk (c :: cs), h3.symm, ?_,
              hallc, hcsk, ⟨cs, rfl⟩⟩
            simp only [allConstituent, Bool.and_eq_true]
            refine ⟨?_, hsp2.2.1⟩
            rw [Bool.not_eq_true']
            simpa using hne
        · -- unprefixed, nonempty follow
          rename_i hsep
          injection h with h2
          injection h2 with h3 h4
          refine Or.inl ⟨String.mk (c :: cs), h3.symm, hnk, ⟨cs, rfl⟩, ?_, ?_⟩
          · rw [← h4]
            have hh := hsp.2.2
            simp only [headNot, Bool.not_eq_true'] at hh
            simp only [boundaryOk, Bool.and_eq_true, Bool.not_eq_true']
            exact ⟨hh, by simpa using hsep⟩
          · rw [← h4]
            show c :: r = c :: (cs ++ _)
            rw [hsp.1]
      · -- unprefixed, empty follow
        injection h with h2
        injection h2 with h3 h4
        refine Or.inl ⟨String.mk (c :: cs), h3.symm, hnk, ⟨cs, rfl⟩, ?_, ?_⟩
        · rw [← h4]
          rfl
        · rw [← h4]
          show c :: r = c :: (cs ++ _)
          rw [hsp.1]
    · rw [if_neg hs] at h
      exact absurd h (by simp)

/-- Inversion of a successful exponent scan. -/
theorem scanExp_inv (s es r : List Char) (h : scanExp s = some (es, r)) :
    s = es ++ r ∧ wfExpPart es = true ∧
      ∃ e tl, es = e :: tl ∧ ((e == 'e') || (e == 'E')) = true := by
  cases s with
  | nil => exact absurd h (by simp [scanExp])
  | cons c r0 =>
      rw [scanExp.eq_def] at h
      dsimp only at h
      by_cases he : ((c == 'e') || (c == 'E')) = true
      · rw [if_pos he] at h
        cases r0 with
        | nil => exact absurd h (by simp)
        | cons d r2 =>
            dsimp only at h
            by_cases hd : ((d == '+') || (d == '-')) = true
            · rw [if_pos hd] at h
              have hsp := scanDigits_split r2
              rcases hsd : scanDigits r2 with ⟨ed, r3⟩
              rw [hsd] at hsp h
              dsimp only at hsp h
              split at h
              · exact absurd h (by simp)
              · rename_i hne
                injection h with h2
                injection h2 with h3 h4
                subst h3 h4
                have hmunch : scanDigits ed = (ed, []) := by
                  have h5 := scanDigits_munch ed [] hsp.2.1 (by rfl)
                  simpa using h5
                refine ⟨by rw [← hsp.1]; simp, ?_, ⟨c, d :: ed, rfl, he⟩⟩
                simp only [wfExpPart, Bool.and_eq_true]
                refine ⟨he, ?_⟩
                rw [if_pos hd]
                simp only [hmunch]
                simpa using hne
            · rw [if_neg hd] at h
              have hsp := scanDigits_split (d :: r2)
              rcases hsd : scanDigits (d :: r2) with ⟨ed, r3⟩
              rw [hsd] at hsp h
              dsimp only at hsp h
              split at h
              · exact absurd h (by simp)
              · rename_i hne
                injection h with h2
                injection h2 with h3 h4
                subst h3 h4
                have hne2 : ed ≠ [] := by simpa using hne
                obtain ⟨e0, ed', rfl⟩ : ∃ e0 ed', ed = e0 :: ed' := by
                  cases ed with
                  | nil => exact absurd rfl hne2
                  | cons a b => exact ⟨a, b, rfl⟩
                have hd0 : isDigitC e0 = true := by
                  have h6 := hsp.2.1
                  simp only [List.all_cons, Bool.and_eq_true] at h6
                  exact h6.1
                have hmunch : scanDigits (e0 :: ed') = (e0 :: ed', []) := by
                  have h5 := scanDigits_munch (e0 :: ed') [] hsp.2.1 (by rfl)
                  simpa using h5
                refine ⟨by rw [← hsp.1]; simp, ?_, ⟨c, e0 :: ed', rfl, he⟩⟩
                simp only [wfExpPart, Bool.and_eq_true]
                refine ⟨he, ?_⟩
                rw [if_neg (by rw [digit_not_sign e0 hd0]; simp)]
                simp only [hmunch]
                simp
      · rw [if_neg he] at h
        exact absurd h (by simp)

/-- An exponent head is not a digit and not the decimal point. -/
theorem exp_head_facts (e : Char) (he : ((e == 'e') || (e == 'E')) = true) :
    isDigitC e = false ∧ (e == '.') = false := by
  simp only [Bool.or_eq_true, beq_iff_eq] at he
  rcases he with rfl | rfl <;> exact ⟨by decide, by decide⟩

/-- The scanned number pieces reassemble into a well-formed float
tail. -/
theorem wfFloatTail_build (ds fracpart exppart : List Char)
    (hds : ds.all isDigitC = true) (hlead : noLeadZero ds = true)
    (hfp : fracpart = [] ∨ ∃ fp, fracpart = '.' :: fp ∧ fp ≠ [] ∧
      fp.all isDigitC = true)
    (hex : exppart = [] ∨ (wfExpPart exppart = true ∧
      ∃ e tl, exppart = e :: tl ∧ ((e == 'e') || (e == 'E')) = true)) :
    wfFloatTail (ds ++ (fracpart ++ exppart)) = true := by
  have hexpN : headNot isDigitC exppart = true := by
    rcases hex with rfl | ⟨_, e, tl, rfl, he⟩
    · rfl
    · simp only [headNot, Bool.not_eq_true']
      exact (exp_head_facts e he).1
  have hX : headNot isDigitC (fracpart ++ exppart) = true := by
    rcases hfp with rfl | ⟨fp, rfl, _, _⟩
    · simpa using hexpN
    · rfl
  have hmunch := scanDigits_munch ds _ hds hX
  simp only [wfFloatTail, hmunch, Bool.and_eq_true]
  refine ⟨hlead, ?_⟩
  rcases hfp with rfl | ⟨fp, rfl, hfne, hfall⟩
  · rcases hex with rfl | ⟨hwf, e, tl, rfl, he⟩
    · rfl
    · dsimp only [List.nil_append]
      rw [if_neg (by rw [(exp_head_facts e he).2]; simp)]
      exact hwf
  · dsimp only [List.cons_append]
    rw [if_pos (by rfl)]
    have hmunch2 := scanDigits_munch fp _ hfall hexpN
    simp only [hmunch2, Bool.and_eq_true]
    constructor
    · cases fp with
      | nil => exact absurd rfl hfne
      | cons a b => rfl
    · rcases hex with rfl | ⟨hwf, _⟩
      · rfl
      · exact hwf

/-- The reconstructed literal of the float branch is well formed. -/
theorem wfFloatLit_build (sgnpart ds fracpart exppart : List Char)
    (hs : sgnpart = [] ∨ ∃ c, sgnpart = [c] ∧ ((c == '+') || (c == '-')) = true)
    (hds : ds.all isDigitC = true) (hlead : noLeadZero ds = true)
    (hfp : fracpart = [] ∨ ∃ fp, fracpart = '.' :: fp ∧ fp ≠ [] ∧
      fp.all isDigitC = true)
    (hex : exppart = [] ∨ (wfExpPart exppart = true ∧
      ∃ e tl, exppart = e :: tl ∧ ((e == 'e') || (e == 'E')) = true)) :
    wfFloatLit (sgnpart ++ ds ++ fracpart ++ exppart) = true := by
  have htail := wfFloatTail_build ds fracpart exppart hds hlead hfp hex
  have hdsne : ∃ d ds', ds = d :: ds' ∧ isDigitC d = true := by
    cases ds with
    | nil => exact absurd hlead (by decide)
    | cons d ds' =>
        simp only [List.all_cons, Bool.and_eq_true] at hds
        exact ⟨d, ds', rfl, hds.1⟩
  obtain ⟨d, ds', rfl, hd⟩ := hdsne
  simp only [List.cons_append, List.append_assoc] at htail
  rcases hs with rfl | ⟨c, rfl, hc⟩
  · simp only [List.nil_append, List.cons_append, List.append_assoc]
    rw [wfFloatLit]
    rw [if_neg (by rw [digit_not_sign d hd]; simp)]
    exact htail
  · simp only [List.cons_append, List.nil_append, List.append_assoc]
    rw [wfFloatLit, if_pos hc]
    exact htail

/-- An exact-float term with a well-formed literal is in the parse
image. -/
theorem wfImage_exactFloat (lit : List Char) (h : wfFloatLit lit = true) :
    wfImage (.term (.node "ExactFloat" [.leaf (.pstr (String.mk lit))])) = true := by
  simp [wfImage, wfT, notRawForm, h]

/-- Everything the number core can produce is in the parse image. -/
theorem numberRuleCore_wf (sgn : Option Char) (s1 : List Char) (v : Obj)
    (rest : List Char)
    (hs : sgn = none ∨ ∃ c, sgn = some c ∧ ((c == '+') || (c == '-')) = true)
    (h : numberRuleCore sgn s1 = some (v, rest)) : wfImage v = true := by
  have hsgn : (match sgn with | some c => [c] | none => ([] : List Char)) = [] ∨
      ∃ c0, (match sgn with | some c => [c] | none => ([] : List Char)) = [c0] ∧
        ((c0 == '+') || (c0 == '-')) = true := by
    rcases hs with rfl | ⟨c, rfl, hc⟩
    · exact Or.inl rfl
    · exact Or.inr ⟨c, rfl, hc⟩
  unfold numberRuleCore at h
  have hsp := scanDigits_split s1
  rcases hsd : scanDigits s1 with ⟨ds, s2⟩
  rw [hsd] at hsp h
  dsimp only at hsp h
  split at h
  · exact absurd h (by simp)
  · rename_i hne
    split at h
    · exact absurd h (by simp)
    · rename_i hlead2
      have hlead : noLeadZero ds = true := by simpa using hlead2
      cases s2 with
      | nil =>
          dsimp only at h
          rw [show scanExp ([] : List Char) = none from rfl] at h
          dsimp only at h
          injection h with h2
          injection h2 with h3 h4
          rw [← h3]
          rfl
      | cons c2 r =>
          dsimp only at h
          by_cases hc2 : (c2 == '.') = true
          · rw [if_pos hc2] at h
            have hc2e : c2 = '.' := by simpa using hc2
            subst hc2e
            have hsp2 := scanDigits_split r
            rcases hsd2 : scanDigits r with ⟨fp, r2⟩
            rw [hsd2] at hsp2 h
            dsimp only at hsp2 h
            by_cases hfp : fp.isEmpty = true
            · -- empty fraction: the dot is left in place
              rw [if_pos hfp] at h
              dsimp only at h
              rw [scanExp.eq_def] at h
              dsimp only at h
              rw [if_neg (by decide)] at h
              dsimp only at h
              injection h with h2
              injection h2 with h3 h4
              rw [← h3]
              rfl
            · rw [if_neg hfp] at h
              dsimp only at h
              have hfpne : fp ≠ [] := by
                cases fp with
                | nil => exact absurd rfl hfp
                | cons a b => simp
              rcases hse : scanExp r2 with _ | ⟨es, r4⟩ <;> rw [hse] at h <;>
                dsimp only at h
              · cases r2 with
                | nil =>
                    dsimp only at h
                    exact absurd h (by simp)
                | cons c4 r5 =>
                    dsimp only at h
                    by_cases hM : (c4 == 'M') = true
                    · rw [if_pos hM] at h
                      injection h with h2
                      injection h2 with h3 h4
                      rw [← h3]
                      exact wfImage_exactFloat _ (wfFloatLit_build _ ds ('.' :: fp) []
                        hsgn hsp.2.1 hlead
                        (Or.inr ⟨fp, rfl, hfpne, hsp2.2.1⟩)
                        (Or.inl rfl))
                    · rw [if_neg hM] at h
                      simp at h
              · obtain ⟨hjoin, hwfe, e, tl, hes, he⟩ := scanExp_inv r2 es r4 hse
                cases r4 with
                | nil =>
                    dsimp only at h
                    exact absurd h (by simp)
                | cons c4 r5 =>
                    dsimp only at h
                    by_cases hM : (c4 == 'M') = true
                    · rw [if_pos hM] at h
                      injection h with h2
                      injection h2 with h3 h4
                      rw [← h3]
                      exact wfImage_exactFloat _ (wfFloatLit_build _ ds ('.' :: fp) es
                        hsgn hsp.2.1 hlead
                        (Or.inr ⟨fp, rfl, hfpne, hsp2.2.1⟩)
                        (Or.inr ⟨hwfe, e, tl, hes, he⟩))
                    · rw [if_neg hM] at h
                      simp at h
          · rw [if_neg hc2] at h
            dsimp only at h
            rcases hse : scanExp (c2 :: r) with _ | ⟨es, r4⟩ <;> rw [hse] at h <;>
              dsimp only at h
            · by_cases hM : (c2 == 'M') = true
              · rw [if_pos hM] at h
                injection h with h2
                injection h2 with h3 h4
                rw [← h3]
                exact wfImage_exactFloat _ (wfFloatLit_build _ ds [] []
                  hsgn hsp.2.1 hlead (Or.inl rfl) (Or.inl rfl))
              · rw [if_neg hM] at h
                by_cases hN : (c2 == 'N') = true
                · rw [if_pos hN] at h
                  simp only [Option.isSome_none, Bool.or_self, Bool.false_eq_true,
                    if_false] at h
                  injection h with h2
                  injection h2 with h3 h4
                  rw [← h3]
                  rfl
                · rw [if_neg hN] at h
                  simp only [Option.isSome_none, Bool.or_self, Bool.false_eq_true,
                    if_false] at h
                  injection h with h2
                  injection h2 with h3 h4
                  rw [← h3]
                  rfl
            · obtain ⟨hjoin, hwfe, e, tl, hes, he⟩ := scanExp_inv (c2 :: r) es r4 hse
              cases r4 with
              | nil =>
                  dsimp only at h
                  exact absurd h (by simp)
              | cons c4 r5 =>
                  dsimp only at h
                  by_cases hM : (c4 == 'M') = true
                  · rw [if_pos hM] at h
                    injection h with h2
                    injection h2 with h3 h4
                    rw [← h3]
                    exact wfImage_exactFloat _ (wfFloatLit_build _ ds [] es
                      hsgn hsp.2.1 hlead (Or.inl rfl)
                      (Or.inr ⟨hwfe, e, tl, hes, he⟩))
                  · rw [if_neg hM] at h
                    simp at h

/-- `wfT` at a list node. -/
theorem wfT_eval_list (es : List Term) :
    wfT (.node "List" [.node ".tuple." es]) = wfElems es := by
  rw [wfT.eq_def]
  rfl

/-- `wfT` at a vector node. -/
theorem wfT_eval_vector (es : List Term) :
    wfT (.node "Vector" [.node ".tuple." es]) = wfElems es := by
  rw [wfT.eq_def]
  rfl

/-- `wfT` at a set node. -/
theorem wfT_eval_set (es : List Term) :
    wfT (.node "Set" [.node ".tuple." es]) = wfElems es := by
  rw [wfT.eq_def]
  rfl

/-- `wfT` at a map node. -/
theorem wfT_eval_map (ps : List Term) :
    wfT (.node "Map" [.node ".tuple." ps]) = wfPairs ps := by
  rw [wfT.eq_def]
  rfl

/-- `wfT` at a keyword node. -/
theorem wfT_eval_keyword (sargs : List Term) :
    wfT (.node "Keyword" [.node "Symbol" sargs]) = wfSymArgs sargs false := by
  rw [wfT.eq_def]
  rfl

/-- `wfT` at a symbol node. -/
theorem wfT_eval_symbol (args : List Term) :
    wfT (.node "Symbol" args) = wfSymArgs args true := by
  rw [wfT.eq_def]
  rfl

/-- `wfT` at a tagged-value node. -/
theorem wfT_eval_tagged (sargs : List Term) (payload : Term) :
    wfT (.node "TaggedValue" [.node "Symbol" sargs, payload]) =
      (wfSymArgs sargs false && tagStartOk sargs && wfT payload) := by
  rw [wfT.eq_def]
  rfl

/-- `wfT` at a string node. -/
theorem wfT_eval_string (s0 : String) :
    wfT (.node "String" [.leaf (.puni s0)]) = true := by
  rw [wfT.eq_def]
  rfl

/-- `wfT` at a character term. -/
theorem wfT_eval_char (c : Char) : wfT (charT c) = true := by
  rw [charT, wfT.eq_def]
  rfl


/-- Everything the number rule can produce is in the parse image. -/
theorem numberRule_wf (s : List Char) (v : Obj) (rest : List Char)
    (h : numberRule s = some (v, rest)) : wfImage v = true := by
  cases s with
  | nil => exact numberRuleCore_wf none [] v rest (Or.inl rfl) h
  | cons c r =>
      have h2 : numberRule (c :: r) =
          if ((c == '+') || (c == '-')) = true then numberRuleCore (some c) r
          else numberRuleCore none (c :: r) := rfl
      rw [h2] at h
      by_cases hc : ((c == '+') || (c == '-')) = true
      · rw [if_pos hc] at h
        exact numberRuleCore_wf (some c) r v rest (Or.inr ⟨c, rfl, hc⟩) h
      · rw [if_neg hc] at h
        exact numberRuleCore_wf none (c :: r) v rest (Or.inl rfl) h


/-- Soundness of the recursive-descent parser: every produced value is
in the parse image, every element list is well formed, and every map
item list is a list of well-formed pairs. -/
theorem parse_sound_aux : ∀ fuel : Nat,
    (∀ s v rest, parseForm fuel s = some (v, rest) → wfImage v = true) ∧
    (∀ closer s ts rest, parseElems fuel closer s = some (ts, rest) →
      wfElems ts = true) ∧
    (∀ s ts rest, parseMapItems fuel s = some (ts, rest) → wfPairs ts = true) := by
  intro fuel
  induction fuel with
  | zero =>
      refine ⟨?_, ?_, ?_⟩
      · intro s v rest h
        exact absurd h (by simp [parseForm])
      · intro closer s ts rest h
        exact absurd h (by simp [parseElems])
      · intro s ts rest h
        exact absurd h (by simp [parseMapItems])
  | succ fuel ih =>
      obtain ⟨ihF, ihE, ihM⟩ := ih
      refine ⟨?_, ?_, ?_⟩
      · intro s v rest h
        rw [parseForm_step] at h
        cases s with
        | nil => exact absurd h (by simp [parseFormBody])
        | cons c r =>
            rw [parseFormBody.eq_def] at h
            dsimp only at h
            by_cases h1 : (c == '(') = true
            · rw [if_pos h1] at h
              rcases hpe : parseElems fuel ')' r with _ | ⟨es, rest2⟩ <;>
                rw [hpe] at h <;> dsimp only at h
              · exact absurd h (by simp)
              · injection h with h2
                injection h2 with h3 h4
                rw [← h3]
                have hwf := ihE ')' r es rest2 hpe
                simp [wfImage, wfT_eval_list, notRawForm, hwf]
            · rw [if_neg h1] at h
              by_cases h2c : (c == '[') = true
              · rw [if_pos h2c] at h
                rcases hpe : parseElems fuel ']' r with _ | ⟨es, rest2⟩ <;>
                  rw [hpe] at h <;> dsimp only at h
                · exact absurd h (by simp)
                · injection h with h2
                  injection h2 with h3 h4
                  rw [← h3]
                  have hwf := ihE ']' r es rest2 hpe
                  simp [wfImage, wfT_eval_vector, notRawForm, hwf]
              · rw [if_neg h2c] at h
                by_cases h3c : (c == '\x7b') = true
                · rw [if_pos h3c] at h
                  rcases hpm : parseMapItems fuel r with _ | ⟨ps, rest2⟩ <;>
                    rw [hpm] at h <;> dsimp only at h
                  · exact absurd h (by simp)
                  · injection h with h2
                    injection h2 with h3 h4
                    rw [← h3]
                    have hwf := ihM r ps rest2 hpm
                    simp [wfImage, wfT_eval_map, notRawForm, hwf]
                · rw [if_neg h3c] at h
                  by_cases h4c : (c == '"') = true
                  · rw [if_pos h4c] at h
                    rcases hsr : stringRule r with _ | ⟨t0, rest2⟩ <;>
                      rw [hsr] at h <;> dsimp only at h
                    · exact absurd h (by simp)
                    · injection h with h2
                      injection h2 with h3 h4
                      rw [← h3]
                      obtain ⟨s0, rfl⟩ := stringRule_wf r t0 rest2 hsr
                      simp [wfImage, wfT_eval_string, notRawForm]
                  · rw [if_neg h4c] at h
                    by_cases h5c : (c == '\\') = true
                    · rw [if_pos h5c] at h
                      rcases hcr : charRule r with _ | ⟨t0, rest2⟩ <;>
                        rw [hcr] at h <;> dsimp only at h
                      · exact absurd h (by simp)
                      · injection h with h2
                        injection h2 with h3 h4
                        rw [← h3]
                        obtain ⟨c0, rfl⟩ := charRule_wf r t0 rest2 hcr
                        simp only [wfImage, Bool.and_eq_true]
                        exact ⟨wfT_eval_char c0, rfl⟩
                    · rw [if_neg h5c] at h
                      by_cases h6c : (c == ':') = true
                      · rw [if_pos h6c] at h
                        cases r with
                        | nil =>
                            rw [show symbolRule [] = none from rfl] at h
                            exact absurd h (by simp)
                        | cons c2 r2 =>
                            rcases hsr : symbolRule (c2 :: r2) with _ | ⟨sym, rest2⟩ <;>
                              rw [hsr] at h <;> dsimp only at h
                            · exact absurd h (by simp)
                            · injection h with h2
                              injection h2 with h3 h4
                              rw [← h3]
                              rcases symbolRule_wf c2 r2 sym rest2 hsr with
                                ⟨name, rfl, hnk, _, _, _⟩ |
                                ⟨name, pfx, rfl, han, hap, hck, _, _⟩
                              · simp [wfImage, wfT_eval_keyword, notRawForm,
                                  wfSymArgs, hnk]
                              · simp [wfImage, wfT_eval_keyword, notRawForm,
                                  wfSymArgs, han, hap, hck]
                      · rw [if_neg h6c] at h
                        by_cases h7c : (c == '#') = true
                        · rw [if_pos h7c] at h
                          cases r with
                          | nil =>
                              dsimp only at h
                              exact absurd h (by simp)
                          | cons c2 r2 =>
                              dsimp only at h
                              by_cases h8c : (c2 == '\x7b') = true
                              · rw [if_pos h8c] at h
                                rcases hpe : parseElems fuel '\x7d' r2 with
                                  _ | ⟨es, rest2⟩ <;> rw [hpe] at h <;> dsimp only at h
                                · exact absurd h (by simp)
                                · injection h with h2
                                  injection h2 with h3 h4
                                  rw [← h3]
                                  have hwf := ihE '\x7d' r2 es rest2 hpe
                                  simp [wfImage, wfT_eval_set, notRawForm, hwf]
                              · rw [if_neg h8c] at h
                                by_cases h9c : (c2 == '_') = true
                                · rw [if_pos h9c] at h
                                  rcases hp1 : parseForm fuel r2 with _ | ⟨v1, rest1⟩ <;>
                                    rw [hp1] at h <;> dsimp only at h
                                  · exact absurd h (by simp)
                                  · exact ihF (skipWs rest1) v rest h
                                · rw [if_neg h9c] at h
                                  rcases hsr : symbolRule (c2 :: r2) with
                                    _ | ⟨tagSym, r3⟩ <;> rw [hsr] at h <;>
                                    dsimp only at h
                                  · exact absurd h (by simp)
                                  · by_cases hws : wsHead r3 = true
                                    · rw [if_pos hws] at h
                                      rcases hpf : parseForm fuel (skipWs r3) with
                                        _ | ⟨v0, rest2⟩ <;> rw [hpf] at h <;>
                                        dsimp only at h
                                      · exact absurd h (by simp)
                                      · rcases hco : coerceToTerm v0 with _ | tv <;>
                                          rw [hco] at h <;> dsimp only at h
                                        · exact absurd h (by simp)
                                        · injection h with h2
                                          injection h2 with h3 h4
                                          rw [← h3]
                                          have hwt := coerce_wf v0 tv
                                            (ihF (skipWs r3) v0 rest2 hpf) hco
                                          rcases symbolRule_wf c2 r2 tagSym r3 hsr with
                                            ⟨name, rfl, hnk, ⟨tl2, hn⟩, _, _⟩ |
                                            ⟨name, pfx, rfl, han, hap, hck, tl2, hp⟩
                                          · have htag : tagStartOk
                                                [Term.leaf (.pstr name)] = true := by
                                              simp only [tagStartOk, hn]
                                              simpa using h9c
                                            simp [wfImage, wfT_eval_tagged, notRawForm,
                                              wfSymArgs, hnk, htag, hwt]
                                          · have htag : tagStartOk
                                                [Term.leaf (.pstr name),
                                                 Term.leaf (.pstr pfx)] = true := by
                                              simp only [tagStartOk, hp]
                                              simpa using h9c
                                            simp [wfImage, wfT_eval_tagged, notRawForm,
                                              wfSymArgs, han, hap, hck, htag, hwt]
                                    · rw [if_neg hws] at h
                                      exact absurd h (by simp)
                        · rw [if_neg h7c] at h
                          rcases htl : tryLiterals (c :: r) with _ | ⟨v0, rest0⟩ <;>
                            rw [htl] at h <;> dsimp only at h
                          · by_cases hnum : numStartOk (c :: r) = true
                            · rw [if_pos hnum] at h
                              exact numberRule_wf _ v rest h
                            · rw [if_neg hnum] at h
                              rcases hsr : symbolRule (c :: r) with _ | ⟨sym, rest2⟩ <;>
                                rw [hsr] at h <;> dsimp only at h
                              · exact absurd h (by simp)
                              · injection h with h2
                                injection h2 with h3 h4
                                rw [← h3]
                                rcases symbolRule_wf c r sym rest2 hsr with
                                  ⟨name, rfl, hnk, ⟨tl2, hn⟩, hb, hsplit⟩ |
                                  ⟨name, pfx, rfl, han, hap, hck, tl2, hp⟩
                                · have hwfn : wfName name.data = true := by
                                    rcases wfNameK_cases name.data hnk with
                                      hslash | ⟨hac, hcs⟩
                                    · simp [wfName, hslash]
                                    · have hlitf : isLitName name.data = false := by
                                        by_cases hlit : isLitName name.data = true
                                        · exfalso
                                          have hforce := litName_forces name.data
                                            rest2 hlit hb (headNot_of_boundary hb)
                                          rw [← hsplit] at hforce
                                          exact hforce htl
                                        · simpa using hlit
                                      simp [wfName, hac, hcs, hlitf]
                                  simp [wfImage, wfT_eval_symbol, notRawForm,
                                    wfSymArgs, hwfn]
                                · simp [wfImage, wfT_eval_symbol, notRawForm,
                                    wfSymArgs, han, hap, hck]
                          · injection h with h2
                            injection h2 with h3 h4
                            rw [← h3]
                            exact tryLiterals_sound _ _ _ htl
      · intro closer s ts rest h
        rw [parseElems_step] at h
        rw [parseElemsBody.eq_def] at h
        rcases hsw : skipWs s with _ | ⟨c, r⟩ <;> rw [hsw] at h <;> dsimp only at h
        · exact absurd h (by simp)
        · by_cases hc : (c == closer) = true
          · rw [if_pos hc] at h
            injection h with h2
            injection h2 with h3 h4
            rw [← h3]
            rfl
          · rw [if_neg hc] at h
            rcases hpf : parseForm fuel (c :: r) with _ | ⟨v0, rest0⟩ <;>
              rw [hpf] at h <;> dsimp only at h
            · exact absurd h (by simp)
            · rcases hco : coerceToTerm v0 with _ | t0 <;> rw [hco] at h <;>
                dsimp only at h
              · exact absurd h (by simp)
              · rcases hpe : parseElems fuel closer rest0 with _ | ⟨ts2, rest2⟩ <;>
                  rw [hpe] at h <;> dsimp only at h
                · exact absurd h (by simp)
                · injection h with h2
                  injection h2 with h3 h4
                  rw [← h3]
                  have h5 := coerce_wf v0 t0 (ihF _ _ _ hpf) hco
                  have h6 := ihE closer rest0 ts2 rest2 hpe
                  simp [wfElems, h5, h6]
      · intro s ts rest h
        rw [parseMapItems_step] at h
        rw [parseMapItemsBody.eq_def] at h
        rcases hsw : skipWs s with _ | ⟨c, r⟩ <;> rw [hsw] at h <;> dsimp only at h
        · exact absurd h (by simp)
        · by_cases hc : (c == '\x7d') = true
          · rw [if_pos hc] at h
            injection h with h2
            injection h2 with h3 h4
            rw [← h3]
            rfl
          · rw [if_neg hc] at h
            rcases hpk : parseForm fuel (c :: r) with _ | ⟨k0, rest0⟩ <;>
              rw [hpk] at h <;> dsimp only at h
            · exact absurd h (by simp)
            · rcases hpv : parseForm fuel (skipWs rest0) with _ | ⟨v0, rest1⟩ <;>
                rw [hpv] at h <;> dsimp only at h
              · exact absurd h (by simp)
              · rcases hck0 : coerceToTerm k0 with _ | tk <;> rw [hck0] at h
                all_goals rcases hcv0 : coerceToTerm v0 with _ | tv <;>
                  rw [hcv0] at h <;> dsimp only at h
                · exact absurd h (by simp)
                · exact absurd h (by simp)
                · exact absurd h (by simp)
                · rcases hpm : parseMapItems fuel rest1 with _ | ⟨ts2, rest2⟩ <;>
                    rw [hpm] at h <;> dsimp only at h
                  · exact absurd h (by simp)
                  · injection h with h2
                    injection h2 with h3 h4
                    rw [← h3]
                    have h5 := coerce_wf k0 tk (ihF _ _ _ hpk) hck0
                    have h6 := coerce_wf v0 tv (ihF _ _ _ hpv) hcv0
                    have h7 := ihM rest1 ts2 rest2 hpm
                    simp [wfPairs, h5, h6, h7]

/-- Every value returned by `parse` is in the parse image. -/
theorem parse_sound (s : String) (v : Obj) (h : parse s = some v) :
    wfImage v = true := by
  simp only [parse] at h
  rcases hpf : parseForm ((skipWs s.data).length + 1) (skipWs s.data) with
    _ | ⟨v0, rest⟩ <;> rw [hpf] at h <;> dsimp only at h
  · exact absurd h (by simp)
  · injection h with h2
    rw [← h2]
    exact (parse_sound_aux ((skipWs s.data).length + 1)).1 _ _ _ hpf


/-- Building a well-formed term never fails: every parse-image term has
a printed form. -/
theorem build_total : ∀ fuel : Nat,
    (∀ t, needF t ≤ fuel → wfT t = true → ∃ out, buildTerm t = .ok out) ∧
    (∀ ts, needE ts ≤ fuel → wfElems ts = true → ∃ outs, buildArgs ts = .ok outs) ∧
    (∀ ps, needM ps ≤ fuel → wfPairs ps = true → ∃ pouts, buildArgs ps = .ok pouts) := by
  intro fuel
  induction fuel with
  | zero =>
      refine ⟨?_, ?_, ?_⟩
      · intro t hf _
        exact absurd hf (by have := needF_pos t; omega)
      · intro ts hf _
        exact absurd hf (by have := needE_pos ts; omega)
      · intro ps hf _
        exact absurd hf (by have := needM_pos ps; omega)
  | succ n ih =>
      obtain ⟨ihF, ihE, ihM⟩ := ih
      refine ⟨?_, ?_, ?_⟩
      · intro t hf hw
        rcases wfT_cases t hw with ⟨n1, rfl⟩ | ⟨n1, rfl⟩ | rfl | rfl | rfl | ⟨st, rfl⟩ |
          ⟨ch, rfl⟩ | ⟨st, rfl, hfl⟩ | ⟨sargs, rfl, hsa⟩ | ⟨sargs, rfl, hsa⟩ |
          ⟨es, hor, hes⟩ | ⟨ps, rfl, hps⟩ | ⟨sargs, payload, rfl, hsa, hts, hpw⟩
        · exact ⟨intChars n1, rfl⟩
        · exact ⟨intChars n1 ++ ['N'], rfl⟩
        · exact ⟨"nil".data, rfl⟩
        · exact ⟨"true".data, rfl⟩
        · exact ⟨"false".data, rfl⟩
        · exact ⟨dump_String st.data, rfl⟩
        · exact ⟨['\\', ch], rfl⟩
        · exact ⟨st.data ++ ['M'], rfl⟩
        · rcases wfSymArgs_cases sargs true hsa with ⟨name, rfl, _⟩ |
            ⟨name, pfx, rfl, _, _, _⟩
          · exact ⟨name.data, rfl⟩
          · exact ⟨pfx.data ++ '/' :: name.data, rfl⟩
        · rcases wfSymArgs_cases sargs false hsa with ⟨name, rfl, _⟩ |
            ⟨name, pfx, rfl, _, _, _⟩
          · exact ⟨':' :: name.data, rfl⟩
          · exact ⟨':' :: (pfx.data ++ '/' :: name.data), rfl⟩
        · have hne : needE es ≤ n := by
            rcases hor with rfl | rfl | rfl
            · have h1 : needF (Term.node "List" [Term.node ".tuple." es]) =
                  1 + needE es := rfl
              omega
            · have h1 : needF (Term.node "Vector" [Term.node ".tuple." es]) =
                  1 + needE es := rfl
              omega
            · have h1 : needF (Term.node "Set" [Term.node ".tuple." es]) =
                  1 + needE es := rfl
              omega
          obtain ⟨outs, hba⟩ := ihE es hne hes
          rcases hor with rfl | rfl | rfl
          · refine ⟨'(' :: [joinSpace outs].flatten ++ [')'], ?_⟩
            rw [buildTerm_node, buildArgs_cons, buildTerm_node, hba]
            rfl
          · refine ⟨'[' :: [joinSpace outs].flatten ++ [']'], ?_⟩
            rw [buildTerm_node, buildArgs_cons, buildTerm_node, hba]
            rfl
          · refine ⟨'#' :: '\x7b' :: [joinSpace outs].flatten ++ ['\x7d'], ?_⟩
            rw [buildTerm_node, buildArgs_cons, buildTerm_node, hba]
            rfl
        · have hne : needM ps ≤ n := by
            have h1 : needF (Term.node "Map" [Term.node ".tuple." ps]) =
                1 + needM ps := rfl
            omega
          obtain ⟨pouts, hba⟩ := ihM ps hne hps
          refine ⟨'\x7b' :: [joinSpace pouts].flatten ++ ['\x7d'], ?_⟩
          rw [buildTerm_node, buildArgs_cons, buildTerm_node, hba]
          rfl
        · have hne : needF payload ≤ n := by
            have h1 : needF (Term.node "TaggedValue"
                [Term.node "Symbol" sargs, payload]) = 1 + needF payload := rfl
            omega
          obtain ⟨pout, hbp⟩ := ihF payload hne hpw
          rcases wfSymArgs_cases sargs false hsa with ⟨name, rfl, _⟩ |
            ⟨name, pfx, rfl, _, _, _⟩
          · refine ⟨'#' :: name.data ++ ' ' :: pout, ?_⟩
            rw [buildTerm_node, buildArgs_cons, buildArgs_cons, hbp]
            rfl
          · refine ⟨'#' :: (pfx.data ++ '/' :: name.data) ++ ' ' :: pout, ?_⟩
            rw [buildTerm_node, buildArgs_cons, buildArgs_cons, hbp]
            rfl
      · intro ts hf hwe
        cases ts with
        | nil => exact ⟨[], rfl⟩
        | cons t ts2 =>
            simp only [wfElems, Bool.and_eq_true] at hwe
            have h1 : needE (t :: ts2) = 1 + max (needF t) (needE ts2) := rfl
            obtain ⟨a, hba⟩ := ihF t (by omega) hwe.1
            obtain ⟨as, hbas⟩ := ihE ts2 (by omega) hwe.2
            refine ⟨a :: as, ?_⟩
            rw [buildArgs_cons, hba, hbas]
      · intro ps hf hwp
        cases ps with
        | nil => exact ⟨[], rfl⟩
        | cons p ps2 =>
            obtain ⟨k, w, rfl, hk, hw2, hps2⟩ := wfPairs_cons_inv p ps2 hwp
            have h1 : needM (Term.node ".tuple." [k, w] :: ps2) =
                1 + max (max (needF k) (needF w)) (needM ps2) := rfl
            obtain ⟨ak, hbk⟩ := ihF k (by omega) hk
            obtain ⟨aw, hbw⟩ := ihF w (by omega) hw2
            obtain ⟨as, hbas⟩ := ihM ps2 (by omega) hps2
            refine ⟨joinSpace [ak, aw] :: as, ?_⟩
            rw [buildArgs_cons, buildTerm_node, buildArgs_cons, buildArgs_cons,
              hbk, hbw, hbas]
            rfl

/-- The parse image coerces to a well-formed term whose form view is
the original object. -/
theorem wfImage_coerce (v : Obj) (hw : wfImage v = true) :
    ∃ t, coerceToTerm v = some t ∧ wfT t = true ∧ objForm t = v := by
  cases v with
  | pyint n => exact ⟨.leaf (.pint n), rfl, rfl, rfl⟩
  | pylong n => exact ⟨.leaf (.plong n), rfl, rfl, rfl⟩
  | pybool b => cases b <;> exact ⟨_, rfl, rfl, rfl⟩
  | term t0 =>
      simp only [wfImage, Bool.and_eq_true] at hw
      exact ⟨t0, rfl, hw.1, objForm_notRaw t0 hw.2⟩
  | pynone => simp [wfImage] at hw
  | pyfloat b => simp [wfImage] at hw
  | pystr s => simp [wfImage] at hw
  | pyuni s => simp [wfImage] at hw
  | pydec s => simp [wfImage] at hw
  | pylist xs => simp [wfImage] at hw
  | pytuple xs => simp [wfImage] at hw
  | pyset xs => simp [wfImage] at hw
  | pyfrozenset xs => simp [wfImage] at hw
  | pydict ps => simp [wfImage] at hw
  | pyfrozendict ps => simp [wfImage] at hw
  | pydatetime s => simp [wfImage] at hw
  | pyuuid s => simp [wfImage] at hw
  | custom n => simp [wfImage] at hw

/-- Unparse then reparse is the identity on the parse image. -/
theorem unparse_reparse (v : Obj) (hw : wfImage v = true) :
    ∃ out, unparse v = .ok out ∧ parse (String.mk out) = some v := by
  obtain ⟨t, hco, hwt, hof⟩ := wfImage_coerce v hw
  obtain ⟨out, hb⟩ := (build_total (needF t)).1 t le_rfl hwt
  refine ⟨out, ?_, ?_⟩
  · rw [unparse, hco]
    exact hb
  · obtain ⟨c, tl, hout, hgh⟩ := build_head_good t out hwt hb
    have hneed : needF t ≤ out.length := (need_bound (needF t)).1 t out le_rfl hwt hb
    have hpf := (roundtrip_main (out.length + 1)).1 t out [] hwt hb rfl (by omega)
    rw [List.append_nil] at hpf
    have hskip : skipWs out = out := by
      rw [hout]
      exact skipWs_goodHead c tl hgh
    simp only [parse]
    rw [hskip, hpf]
    rw [hof]


/-- One step of `decodeTerm` on a leaf. -/
theorem decodeTerm_leaf (ctx : DecCtx) (d : PyLeaf) :
    decodeTerm ctx (.leaf d) = .ok (leafObj d) := rfl

/-- One step of `decodeTerm` on a node. -/
theorem decodeTerm_node (ctx : DecCtx) (tag : String) (args : List Term) :
    decodeTerm ctx (.node tag args) =
      match decodeArgs ctx args with
      | .ok as => applyDecoder ctx tag as
      | .error err => .error err := by
  rw [decodeTerm]

/-- One step of `decodeArgs` on a cons. -/
theorem decodeArgs_cons (ctx : DecCtx) (t : Term) (ts : List Term) :
    decodeArgs ctx (t :: ts) =
      match decodeTerm ctx t with
      | .ok a =>
          match decodeArgs ctx ts with
          | .ok as => .ok (a :: as)
          | .error err => .error err
      | .error err => .error err := by
  rw [decodeArgs]

/-- One fuel step of the encoder. -/
theorem to_terms_step (fuel : Nat) (writers : List Writer)
    (dflt : Option (Obj → Obj)) (obj : Obj) :
    to_terms (fuel + 1) writers dflt obj =
      (if getTagName obj == some "Keyword" || getTagName obj == some "Symbol" then
        .ok obj
      else
        match firstWriter (writers ++ DEFAULT_WRITERS) obj with
        | some w =>
            match to_terms fuel [] none (w.transform obj) with
            | .ok e =>
                match coerceToTerm e with
                | some te => .ok (.term (.node "TaggedValue" [w.tag, te]))
                | none => .error .uncoercible
            | .error err => .error err
        | none =>
          match obj with
          | .pystr s => .ok (.term (.node "String" [.leaf (.pstr s)]))
          | .pyuni s => .ok (.term (.node "String" [.leaf (.puni s)]))
          | .pydict ps =>
              match encodePairs fuel writers dflt ps with
              | .ok ts => .ok (.term (.node "Map" [.node ".tuple." ts]))
              | .error err => .error err
          | .pyfrozendict ps =>
              match encodePairs fuel writers dflt ps with
              | .ok ts => .ok (.term (.node "Map" [.node ".tuple." ts]))
              | .error err => .error err
          | .pyset xs =>
              match encodeElems fuel writers dflt xs with
              | .ok ts => .ok (.term (.node "Set" [.node ".tuple." ts]))
              | .error err => .error err
          | .pyfrozenset xs =>
              match encodeElems fuel writers dflt xs with
              | .ok ts => .ok (.term (.node "Set" [.node ".tuple." ts]))
              | .error err => .error err
          | .pytuple xs =>
              match encodeElems fuel writers dflt xs with
              | .ok ts => .ok (.term (.node "List" [.node ".tuple." ts]))
              | .error err => .error err
          | .pylist xs =>
              match encodeElems fuel writers dflt xs with
              | .ok ts => .ok (.term (.node "Vector" [.node ".tuple." ts]))
              | .error err => .error err
          | .pynone => .ok (.term (.node "Nil" []))
          | .pybool b => .ok (.pybool b)
          | .pyint n => .ok (.pyint n)
          | .pyfloat u => .ok (.pyfloat u)
          | .pydec s => .ok (.term (.node "ExactFloat" [.leaf (.pstr s)]))
          | o =>
              match dflt with
              | some d => to_terms fuel writers dflt (d o)
              | none => .error (.cannotConvert o)) := rfl

/-- One fuel step of the element encoder on a cons. -/
theorem encodeElems_step (fuel : Nat) (writers : List Writer)
    (dflt : Option (Obj → Obj)) (x : Obj) (xs : List Obj) :
    encodeElems (fuel + 1) writers dflt (x :: xs) =
      (match to_terms fuel writers dflt x with
      | .ok e =>
          match coerceToTerm e with
          | some t =>
              match encodeElems fuel writers dflt xs with
              | .ok ts => .ok (t :: ts)
              | .error err => .error err
          | none => .error .uncoercible
      | .error err => .error err) := rfl

/-- One fuel step of the pair encoder on a cons. -/
theorem encodePairs_step (fuel : Nat) (writers : List Writer)
    (dflt : Option (Obj → Obj)) (k v : Obj) (ps : List (Obj × Obj)) :
    encodePairs (fuel + 1) writers dflt ((k, v) :: ps) =
      (match to_terms fuel writers dflt k with
      | .ok ek =>
          match to_terms fuel writers dflt v with
          | .ok ev =>
              match coerceToTerm ek, coerceToTerm ev with
              | some tk, some tv =>
                  match encodePairs fuel writers dflt ps with
                  | .ok ts => .ok (.node ".tuple." [tk, tv] :: ts)
                  | .error err => .error err
              | _, _ => .error .uncoercible
          | .error err => .error err
      | .error err => .error err) := rfl


/-- The decoder table dispatches the `TaggedValue` tag to the tagged
value handler. -/
theorem applyDecoder_tagged (ctx : DecCtx) (as : List Obj) :
    applyDecoder ctx "TaggedValue" as = handleTaggedValue ctx as := rfl

/-- `handleTaggedValue` on a two-element argument list. -/
theorem handleTaggedValue_pair (ctx : DecCtx) (sym val : Obj) :
    handleTaggedValue ctx [sym, val] =
      (match lookupReader (ctx.readers ++ DEFAULT_READERS) sym with
      | some f => f val
      | none =>
          match ctx.dflt with
          | some d => .ok (d sym val)
          | none =>
              match coerceToTerm sym, coerceToTerm val with
              | some ts, some tv => .ok (.term (.node "TaggedValue" [ts, tv]))
              | _, _ => .error .uncoercible) := rfl

/-- Reader lookup over a concatenated table scans the front first. -/
theorem lookupReader_append (rs1 rs2 : List (Term × Reader)) (sym : Obj) :
    lookupReader (rs1 ++ rs2) sym =
      match lookupReader rs1 sym with
      | some f => some f
      | none => lookupReader rs2 sym := by
  induction rs1 with
  | nil => rfl
  | cons p rs ih =>
      obtain ⟨k, f⟩ := p
      rw [List.cons_append, lookupReader, lookupReader]
      by_cases hk : pyEq (.term k) sym = true
      · rw [if_pos hk, if_pos hk]
      · rw [if_neg hk, if_neg hk, ih]

/-- C3 (amended): an unresolved tag falls through the reader table:
with a caller default the result is `default(symbol, decoded value)`;
without one the decoded (not raw) payload is rewrapped in a generic
`TaggedValue` carrier when the payload is terml-coercible, while an
uncoercible decoded payload (a Decimal, mapping, set, datetime or
uuid) makes the carrier's argument coercion raise. -/
theorem C3_unresolved_tag_graceful (ctx : DecCtx) (tsym tinner : Term)
    (sym innerV : Obj)
    (hs : decodeTerm ctx tsym = .ok sym)
    (hi : decodeTerm ctx tinner = .ok innerV)
    (hlk : lookupReader (ctx.readers ++ DEFAULT_READERS) sym = none) :
    (∀ d, ctx.dflt = some d →
       decodeTerm ctx (.node "TaggedValue" [tsym, tinner]) = .ok (d sym innerV)) ∧
    (ctx.dflt = none → ∀ ts tv, coerceToTerm sym = some ts →
       coerceToTerm innerV = some tv →
       decodeTerm ctx (.node "TaggedValue" [tsym, tinner]) =
         .ok (.term (.node "TaggedValue" [ts, tv]))) ∧
    (ctx.dflt = none → ∀ ts, coerceToTerm sym = some ts →
       coerceToTerm innerV = none →
       decodeTerm ctx (.node "TaggedValue" [tsym, tinner]) =
         .error .uncoercible) := by
  have hstep : decodeTerm ctx (.node "TaggedValue" [tsym, tinner]) =
      handleTaggedValue ctx [sym, innerV] := by
    rw [decodeTerm_node, decodeArgs_cons, hs, decodeArgs_cons, hi,
      show decodeArgs ctx [] = .ok [] from rfl]
    rfl
  refine ⟨?_, ?_, ?_⟩
  · intro d hd
    rw [hstep, handleTaggedValue_pair, hlk, hd]
  · intro hd ts tv hcs hcv
    rw [hstep, handleTaggedValue_pair, hlk, hd, hcs, hcv]
  · intro hd ts hcs hcv
    rw [hstep, handleTaggedValue_pair, hlk, hd, hcs, hcv]

/-- C3 counterexample: `#foo 4.2M` with no reader and no default
decodes the payload to a Decimal, and the generic carrier's terml
argument coercion raises on it, so decode does fail on an unresolved
tag. -/
theorem C3_counterexample :
    decodeTerm ⟨[], none⟩
      (.node "TaggedValue" [symbolT "foo", .node "ExactFloat" [.leaf (.pstr "4.2")]]) =
      .error .uncoercible := by
  rw [decodeTerm_node, decodeArgs_cons,
    show decodeTerm ⟨[], none⟩ (symbolT "foo") = .ok (.term (symbolT "foo"))
      from rfl,
    decodeArgs_cons,
    show decodeTerm ⟨[], none⟩ (.node "ExactFloat" [.leaf (.pstr "4.2")]) =
      .ok (.pydec "4.2") from rfl,
    show decodeArgs ⟨[], none⟩ [] = .ok [] from rfl]
  dsimp only
  rw [applyDecoder_tagged, handleTaggedValue_pair]
  dsimp only [List.nil_append]
  rw [show lookupReader DEFAULT_READERS (.term (symbolT "foo")) = none from by
    simp [lookupReader, DEFAULT_READERS, pyEq, INST, UUID, symbolT, termBEq,
      termListBEq, pyLeafEq]]
  rfl

/-- C3 witness. -/
theorem C3_witness :
    decodeTerm ⟨[], none⟩ (.node "TaggedValue" [symbolT "foo", .leaf (.pint 1)]) =
      .ok (.term (.node "TaggedValue" [symbolT "foo", .leaf (.pint 1)])) :=
  (C3_unresolved_tag_graceful ⟨[], none⟩ (symbolT "foo") (.leaf (.pint 1))
    (.term (symbolT "foo")) (.pyint 1) rfl rfl
    (by simp [lookupReader, DEFAULT_READERS, pyEq, INST, UUID, symbolT,
      termBEq, termListBEq, pyLeafEq])).2.1 rfl
    (symbolT "foo") (.leaf (.pint 1)) rfl rfl

/-- C6: the reader table is merged per call, caller entries first: a
caller hit shadows the defaults, a caller miss falls through to the
default table, and the reader found in the merged table is the one the
tagged-value handler applies.  The context is rebuilt from the call
arguments each time, so no call affects a later one. -/
theorem C6_reader_merge (readers : List (Term × Reader))
    (dflt : Option (Obj → Obj → Obj)) (sym : Obj) :
    (∀ f, lookupReader readers sym = some f →
       lookupReader (readers ++ DEFAULT_READERS) sym = some f) ∧
    (lookupReader readers sym = none →
       lookupReader (readers ++ DEFAULT_READERS) sym =
         lookupReader DEFAULT_READERS sym) ∧
    (∀ f val, lookupReader (readers ++ DEFAULT_READERS) sym = some f →
       handleTaggedValue ⟨readers, dflt⟩ [sym, val] = f val) := by
  refine ⟨?_, ?_, ?_⟩
  · intro f h
    rw [lookupReader_append, h]
  · intro h
    rw [lookupReader_append, h]
  · intro f val h
    rw [handleTaggedValue_pair]
    dsimp only
    rw [h]

/-- A constant caller reader used by the C6 witness. -/
def c6Reader : Reader := fun _ => .ok Obj.pynone

/-- C6 witness: a caller entry for `#inst` shadows the built-in
reader. -/
theorem C6_witness :
    lookupReader ([(INST, c6Reader)] ++ DEFAULT_READERS) (.term INST) =
      some c6Reader :=
  (C6_reader_merge [(INST, c6Reader)] none (.term INST)).1 c6Reader
    (by rw [lookupReader,
      if_pos (by simp [pyEq, INST, symbolT, termBEq, termListBEq, pyLeafEq])])

/-- C9: decoding erases the List/Vector distinction: both decode their
(decoded) elements to the same Python tuple. -/
theorem C9_list_vector_erased (readers : List (Term × Reader))
    (dflt : Option (Obj → Obj → Obj)) (es : List Term) :
    (from_terms (.term (.node "List" [.node ".tuple." es])) readers dflt =
       from_terms (.term (.node "Vector" [.node ".tuple." es])) readers dflt) ∧
    (∀ as, decodeArgs ⟨readers, dflt⟩ es = .ok as →
       from_terms (.term (.node "List" [.node ".tuple." es])) readers dflt =
         .ok (.pytuple as)) := by
  have hL : from_terms (.term (.node "List" [.node ".tuple." es])) readers dflt =
      decodeTerm ⟨readers, dflt⟩ (.node "List" [.node ".tuple." es]) := rfl
  have hV : from_terms (.term (.node "Vector" [.node ".tuple." es])) readers dflt =
      decodeTerm ⟨readers, dflt⟩ (.node "Vector" [.node ".tuple." es]) := rfl
  constructor
  · rw [hL, hV, decodeTerm_node, decodeTerm_node, decodeArgs_cons, decodeTerm_node]
    rcases hda : decodeArgs ⟨readers, dflt⟩ es with err | as <;> rfl
  · intro as hda
    rw [hL, decodeTerm_node, decodeArgs_cons, decodeTerm_node, hda]
    rfl

/-- C9 witness. -/
theorem C9_witness :
    from_terms (.term (.node "List" [.node ".tuple." [.leaf (.pint 1)]])) [] none =
      .ok (.pytuple [.pyint 1]) :=
  (C9_list_vector_erased [] none [.leaf (.pint 1)]).2 [.pyint 1] rfl


/-- Objects that fall through every built-in structural encoding rule
(the catch-all branch of the encoder's object match). -/
def noStructuralRule : Obj → Bool
  | .pylong _ => true
  | .term _ => true
  | .pydatetime _ => true
  | .pyuuid _ => true
  | .custom _ => true
  | _ => false

/-- C4: the encoder dispatches in a fixed order: Symbol/Keyword values
pass through before any writer is consulted; otherwise the first
matching writer (caller rules before the built-in ones) fires;
otherwise the built-in structural rules apply; otherwise the caller
default is invoked (or encoding fails). -/
theorem C4_dispatch_order (fuel : Nat) (w : List Writer)
    (d : Option (Obj → Obj)) :
    (∀ obj, (getTagName obj == some "Keyword" ||
        getTagName obj == some "Symbol") = true →
       to_terms (fuel + 1) w d obj = .ok obj) ∧
    (∀ obj wr, (getTagName obj == some "Keyword" ||
        getTagName obj == some "Symbol") = false →
       firstWriter (w ++ DEFAULT_WRITERS) obj = some wr →
       to_terms (fuel + 1) w d obj =
         (match to_terms fuel [] none (wr.transform obj) with
          | .ok e =>
              match coerceToTerm e with
              | some te => .ok (.term (.node "TaggedValue" [wr.tag, te]))
              | none => .error .uncoercible
          | .error err => .error err)) ∧
    (∀ s, firstWriter (w ++ DEFAULT_WRITERS) (.pystr s) = none →
       to_terms (fuel + 1) w d (.pystr s) =
         .ok (.term (.node "String" [.leaf (.pstr s)]))) ∧
    (firstWriter (w ++ DEFAULT_WRITERS) .pynone = none →
       to_terms (fuel + 1) w d .pynone = .ok (.term (.node "Nil" []))) ∧
    (∀ ps, firstWriter (w ++ DEFAULT_WRITERS) (.pydict ps) = none →
       to_terms (fuel + 1) w d (.pydict ps) =
         (match encodePairs fuel w d ps with
          | .ok ts => .ok (.term (.node "Map" [.node ".tuple." ts]))
          | .error err => .error err)) ∧
    (∀ xs, firstWriter (w ++ DEFAULT_WRITERS) (.pyset xs) = none →
       to_terms (fuel + 1) w d (.pyset xs) =
         (match encodeElems fuel w d xs with
          | .ok ts => .ok (.term (.node "Set" [.node ".tuple." ts]))
          | .error err => .error err)) ∧
    (∀ xs, firstWriter (w ++ DEFAULT_WRITERS) (.pytuple xs) = none →
       to_terms (fuel + 1) w d (.pytuple xs) =
         (match encodeElems fuel w d xs with
          | .ok ts => .ok (.term (.node "List" [.node ".tuple." ts]))
          | .error err => .error err)) ∧
    (∀ xs, firstWriter (w ++ DEFAULT_WRITERS) (.pylist xs) = none →
       to_terms (fuel + 1) w d (.pylist xs) =
         (match encodeElems fuel w d xs with
          | .ok ts => .ok (.term (.node "Vector" [.node ".tuple." ts]))
          | .error err => .error err)) ∧
    (∀ n, firstWriter (w ++ DEFAULT_WRITERS) (.pyint n) = none →
       to_terms (fuel + 1) w d (.pyint n) = .ok (.pyint n)) ∧
    (∀ u, firstWriter (w ++ DEFAULT_WRITERS) (.pyfloat u) = none →
       to_terms (fuel + 1) w d (.pyfloat u) = .ok (.pyfloat u)) ∧
    (∀ ds, firstWriter (w ++ DEFAULT_WRITERS) (.pydec ds) = none →
       to_terms (fuel + 1) w d (.pydec ds) =
         .ok (.term (.node "ExactFloat" [.leaf (.pstr ds)]))) ∧
    (∀ obj, (getTagName obj == some "Keyword" ||
        getTagName obj == some "Symbol") = false →
       firstWriter (w ++ DEFAULT_WRITERS) obj = none →
       noStructuralRule obj = true →
       to_terms (fuel + 1) w d obj =
         (match d with
          | some df => to_terms fuel w d (df obj)
          | none => .error (.cannotConvert obj))) := by
  refine ⟨?_, ?_, ?_, ?_, ?_, ?_, ?_, ?_, ?_, ?_, ?_, ?_⟩
  · intro obj h
    rw [to_terms_step, if_pos h]
  · intro obj wr h hfw
    rw [to_terms_step, if_neg (by simp [h]), hfw]
  · intro s hfw
    rw [to_terms_step, if_neg (by simp [getTagName]), hfw]
  · intro hfw
    rw [to_terms_step, if_neg (by simp [getTagName]), hfw]
  · intro ps hfw
    rw [to_terms_step, if_neg (by simp [getTagName]), hfw]
  · intro xs hfw
    rw [to_terms_step, if_neg (by simp [getTagName]), hfw]
  · intro xs hfw
    rw [to_terms_step, if_neg (by simp [getTagName]), hfw]
  · intro xs hfw
    rw [to_terms_step, if_neg (by simp [getTagName]), hfw]
  · intro n hfw
    rw [to_terms_step, if_neg (by simp [getTagName]), hfw]
  · intro u hfw
    rw [to_terms_step, if_neg (by simp [getTagName]), hfw]
  · intro ds hfw
    rw [to_terms_step, if_neg (by simp [getTagName]), hfw]
  · intro obj h hfw hns
    rw [to_terms_step, if_neg (by simp [h]), hfw]
    cases obj <;> simp [noStructuralRule] at hns <;> rfl

/-- C4 witness: a Symbol passes through unchanged. -/
theorem C4_witness :
    to_terms 1 [] none (.term (.node "Symbol" [.leaf (.pstr "x")])) =
      .ok (.term (.node "Symbol" [.leaf (.pstr "x")])) :=
  (C4_dispatch_order 0 [] none).1 _ (by decide)

/-- A writer matching the opaque object `custom 1` and rewriting it to
`custom 2` (used to exhibit the writer-chain behaviour). -/
def c5wA : Writer :=
  ⟨fun o => match o with | .custom 1 => true | _ => false,
   symbolT "a", fun _ => .custom 2⟩

/-- A writer matching `custom 2` and rewriting it to an integer. -/
def c5wB : Writer :=
  ⟨fun o => match o with | .custom 2 => true | _ => false,
   symbolT "b", fun _ => .pyint 7⟩

/-- The two-writer table of the C5 counterexample. -/
def c5writers : List Writer := [c5wA, c5wB]

/-- C5 counterexample: when a writer fires, its transform's output is
re-encoded with the DEFAULT table (no writers, raising default), not
with the caller's writers: the encode fails, while the re-encoding
claimed by the specification (same writers, same default) would
succeed. -/
theorem C5_counterexample :
    to_terms 3 c5writers none (.custom 1) =
      .error (.cannotConvert (.custom 2)) ∧
    (match to_terms 2 c5writers none (c5wA.transform (.custom 1)) with
     | .ok e =>
         match coerceToTerm e with
         | some te => Except.ok (Obj.term (.node "TaggedValue" [c5wA.tag, te]))
         | none => Except.error EncErr.uncoercible
     | .error err => Except.error err) =
      .ok (.term (.node "TaggedValue" [symbolT "a",
        .node "TaggedValue" [symbolT "b", .leaf (.pint 7)]])) :=
  ⟨rfl, rfl⟩

/-- C5 (amended): when the first matching writer rule fires, the result
is `TaggedValue(tag, e)` where `e` is the transform's output re-encoded
with the default writer table and the raising default handler. -/
theorem C5_writer_rule (fuel : Nat) (w : List Writer) (d : Option (Obj → Obj))
    (obj : Obj) (wr : Writer)
    (hks : (getTagName obj == some "Keyword" ||
       getTagName obj == some "Symbol") = false)
    (hfw : firstWriter (w ++ DEFAULT_WRITERS) obj = some wr) :
    to_terms (fuel + 1) w d obj =
      (match to_terms fuel [] none (wr.transform obj) with
       | .ok e =>
           match coerceToTerm e with
           | some te => .ok (.term (.node "TaggedValue" [wr.tag, te]))
           | none => .error .uncoercible
       | .error err => .error err) := by
  rw [to_terms_step, if_neg (by simp [hks]), hfw]

/-- C5 witness: the built-in datetime writer. -/
theorem C5_witness :
    to_terms 2 [] none (.pydatetime "T") =
      .ok (.term (.node "TaggedValue" [INST, .node "String" [.leaf (.pstr "T")]])) :=
  (C5_writer_rule 1 [] none (.pydatetime "T") _ (by decide) rfl).trans rfl

/-- Modelled from the spec: the escape clause of the printed string
round-trip section, byte for byte. -/
def escByteSpec (b : Nat) : List Char :=
  if b = 34 then ['\\', '"']
  else if b = 92 then ['\\', '\\']
  else if b = 10 then ['\\', 'n']
  else if b = 13 then ['\\', 'r']
  else if b = 9 then ['\\', 't']
  else if b = 8 then ['\\', 'b']
  else if b = 12 then ['\\', 'f']
  else [Char.ofNat b]

/-- C7: every printed String is the double-quoted UTF-8 encoding with
the seven-entry escape table applied byte by byte, and a String holding
a raw newline prints with the two-character escape. -/
theorem C7_dump_string :
    (∀ s : List Char, dump_String s =
       '"' :: (utf8Encode s).flatMap escByteSpec ++ ['"']) ∧
    unparse (.term (.node "String" [.leaf (.puni (String.mk ['\n']))])) =
      .ok ['"', '\\', 'n', '"'] := by
  constructor
  · intro s
    rw [dump_String, show escByte = escByteSpec from funext fun _ => rfl]
  · rfl

/-- C8: a value that is not Symbol/Keyword and matches no writer rule
and no structural rule makes the encoder fail with an error naming the
value when no caller default is supplied; with a default, the default's
result is re-encoded instead. -/
theorem C8_default_handler (fuel : Nat) (w : List Writer) (obj : Obj)
    (hks : (getTagName obj == some "Keyword" ||
       getTagName obj == some "Symbol") = false)
    (hfw : firstWriter (w ++ DEFAULT_WRITERS) obj = none)
    (hns : noStructuralRule obj = true) :
    to_terms (fuel + 1) w none obj = .error (.cannotConvert obj) ∧
    (∀ df, to_terms (fuel + 1) w (some df) obj =
       to_terms fuel w (some df) (df obj)) := by
  constructor
  · rw [to_terms_step, if_neg (by simp [hks]), hfw]
    cases obj <;> simp [noStructuralRule] at hns <;> rfl
  · intro df
    rw [to_terms_step, if_neg (by simp [hks]), hfw]
    cases obj <;> simp [noStructuralRule] at hns <;> rfl

/-- C8 witness. -/
theorem C8_witness :
    to_terms 1 [] none (.custom 3) = .error (.cannotConvert (.custom 3)) ∧
    to_terms 1 [] (some (fun _ => .pynone)) (.custom 3) =
      to_terms 0 [] (some (fun _ => .pynone)) .pynone :=
  ⟨(C8_default_handler 0 [] (.custom 3) (by decide) rfl rfl).1,
   (C8_default_handler 0 [] (.custom 3) (by decide) rfl rfl).2 (fun _ => .pynone)⟩


/-- The tags of the value-model constructors that the decoder table
covers (`_DECODERS` plus the `TaggedValue` handler; the `true`/`false`
nodes that booleans coerce to are NOT among them). -/
def modelTags : List String :=
  [".tuple.", "Character", "ExactFloat", "String", "Vector", "List", "Map",
   "Nil", "Set", "Symbol", "Keyword", "TaggedValue"]

mutual

/-- Terms built only from decoder-covered tags. -/
def declOk : Term → Bool
  | .leaf _ => true
  | .node tag args => modelTags.contains tag && declOkArgs args

/-- `declOk` on every argument. -/
def declOkArgs : List Term → Bool
  | [] => true
  | t :: ts => declOk t && declOkArgs ts

end

mutual

/-- Structural size of a term. -/
def sizeT : Term → Nat
  | .leaf _ => 1
  | .node _ args => 1 + sizeL args

/-- Structural size of an argument list. -/
def sizeL : List Term → Nat
  | [] => 1
  | t :: ts => 1 + sizeT t + sizeL ts

end

/-- Sizes are positive. -/
theorem sizeT_pos (t : Term) : 1 ≤ sizeT t := by
  cases t <;> simp [sizeT]

/-- List sizes are positive. -/
theorem sizeL_pos (ts : List Term) : 1 ≤ sizeL ts := by
  cases ts with
  | nil => simp [sizeL]
  | cons t ts2 =>
      simp [sizeL]
      omega

/-- The built-in `#inst` reader never reports an unknown tag. -/
theorem parse_date_noCannot (v : Obj) (tg : String) :
    parse_date v ≠ .error (.cannotDecode tg) := by
  cases v <;> simp [parse_date]

/-- The built-in `#uuid` reader never reports an unknown tag. -/
theorem uuidOfText_noCannot (v : Obj) (tg : String) :
    uuidOfText v ≠ .error (.cannotDecode tg) := by
  cases v <;> simp [uuidOfText]

/-- `unicode(x)` never reports an unknown tag. -/
theorem pyUnicodeOf_noCannot (v : Obj) (tg : String) :
    pyUnicodeOf v ≠ .error (.cannotDecode tg) := by
  cases v <;> simp [pyUnicodeOf] <;> split <;> simp

/-- A hit in the default reader table is one of the two built-in
readers. -/
theorem lookupReader_default_cases (sym : Obj) (f : Reader)
    (h : lookupReader DEFAULT_READERS sym = some f) :
    f = parse_date ∨ f = uuidOfText := by
  rw [show DEFAULT_READERS = [(INST, parse_date), (UUID, uuidOfText)] from rfl,
    lookupReader] at h
  by_cases h1 : pyEq (.term INST) sym = true
  · rw [if_pos h1] at h
    injection h with h2
    exact Or.inl h2.symm
  · rw [if_neg h1, lookupReader] at h
    by_cases h2 : pyEq (.term UUID) sym = true
    · rw [if_pos h2] at h
      injection h with h3
      exact Or.inr h3.symm
    · rw [if_neg h2] at h
      exact absurd h (by simp [lookupReader])

/-- The decoder table never reports an unknown tag when the tag is one
of the model tags and no caller readers are installed. -/
theorem applyDecoder_noCannot (ctx : DecCtx) (tag : String) (as : List Obj)
    (hmem : modelTags.contains tag = true) (hr : ctx.readers = [])
    (tg2 : String) : applyDecoder ctx tag as ≠ .error (.cannotDecode tg2) := by
  have hmem2 : tag = ".tuple." ∨ tag = "Character" ∨ tag = "ExactFloat" ∨
      tag = "String" ∨ tag = "Vector" ∨ tag = "List" ∨ tag = "Map" ∨
      tag = "Nil" ∨ tag = "Set" ∨ tag = "Symbol" ∨ tag = "Keyword" ∨
      tag = "TaggedValue" := by
    simpa [modelTags, List.contains_eq_any_beq, List.any_eq_true] using hmem
  rcases hmem2 with rfl | rfl | rfl | rfl | rfl | rfl | rfl | rfl | rfl | rfl |
    rfl | rfl
  · simp [applyDecoder]
  · rcases as with _ | ⟨a, _ | ⟨b, as3⟩⟩
    · simp [applyDecoder]
    · simpa [applyDecoder] using pyUnicodeOf_noCannot a tg2
    · simp [applyDecoder]
  · rcases as with _ | ⟨a, _ | ⟨b, as3⟩⟩
    · simp [applyDecoder]
    · cases a <;> simp [applyDecoder] <;> split <;> simp
    · simp [applyDecoder]
  · rcases as with _ | ⟨a, _ | ⟨b, as3⟩⟩
    · simp [applyDecoder]
    · simpa [applyDecoder] using pyUnicodeOf_noCannot a tg2
    · simp [applyDecoder]
  · rcases as with _ | ⟨a, _ | ⟨b, as3⟩⟩
    · simp [applyDecoder]
    · cases a <;> simp [applyDecoder]
    · simp [applyDecoder]
  · rcases as with _ | ⟨a, _ | ⟨b, as3⟩⟩
    · simp [applyDecoder]
    · cases a <;> simp [applyDecoder]
    · simp [applyDecoder]
  · rcases as with _ | ⟨a, _ | ⟨b, as3⟩⟩
    · simp [applyDecoder]
    · cases a <;> simp [applyDecoder]
      rename_i ps
      rcases htp : toPairs ps with _ | prs <;> simp [htp]
    · simp [applyDecoder]
  · simp [applyDecoder]
  · rcases as with _ | ⟨a, _ | ⟨b, as3⟩⟩
    · simp [applyDecoder]
    · cases a <;> simp [applyDecoder]
    · simp [applyDecoder]
  · rcases hcl : coerceList as with _ | ts <;> simp [applyDecoder, hcl]
  · rcases hcl : coerceList as with _ | ts <;> simp [applyDecoder, hcl]
  · intro heq
    rw [applyDecoder_tagged, handleTaggedValue.eq_def] at heq
    split at heq
    · rename_i sym val
      rw [hr, List.nil_append] at heq
      rcases hlk : lookupReader DEFAULT_READERS sym with _ | f <;>
        rw [hlk] at heq <;> dsimp only at heq
      · rcases hd : ctx.dflt with _ | d <;> rw [hd] at heq <;> dsimp only at heq
        · split at heq <;> exact absurd heq (by simp)
        · exact absurd heq (by simp)
      · rcases lookupReader_default_cases sym f hlk with rfl | rfl
        · exact parse_date_noCannot _ _ heq
        · exact uuidOfText_noCannot _ _ heq
    · exact absurd heq (by simp)

/-- No term over the model tags can reach the unknown-tag branch. -/
theorem decode_noCannot_aux : ∀ fuel : Nat,
    (∀ t, sizeT t ≤ fuel → declOk t = true → ∀ dflt tg2,
       decodeTerm ⟨[], dflt⟩ t ≠ .error (.cannotDecode tg2)) ∧
    (∀ ts, sizeL ts ≤ fuel → declOkArgs ts = true → ∀ dflt tg2,
       decodeArgs ⟨[], dflt⟩ ts ≠ .error (.cannotDecode tg2)) := by
  intro fuel
  induction fuel with
  | zero =>
      refine ⟨?_, ?_⟩
      · intro t hf
        exact absurd hf (by have := sizeT_pos t; omega)
      · intro ts hf
        exact absurd hf (by have := sizeL_pos ts; omega)
  | succ n ih =>
      obtain ⟨ihT, ihL⟩ := ih
      refine ⟨?_, ?_⟩
      · intro t hf hok dflt tg2
        cases t with
        | leaf d => simp [decodeTerm_leaf]
        | node tag args =>
            simp only [declOk, Bool.and_eq_true] at hok
            have hsz : sizeL args ≤ n := by
              have h1 : sizeT (Term.node tag args) = 1 + sizeL args := by
                simp [sizeT]
              omega
            rw [decodeTerm_node]
            rcases hda : decodeArgs ⟨[], dflt⟩ args with err | as <;> dsimp only
            · intro heq
              injection heq with h2
              rw [h2] at hda
              exact ihL args hsz hok.2 dflt tg2 hda
            · exact applyDecoder_noCannot _ tag as hok.1 rfl tg2
      · intro ts hf hok dflt tg2
        cases ts with
        | nil => simp [decodeArgs]
        | cons t ts2 =>
            simp only [declOkArgs, Bool.and_eq_true] at hok
            have h1 : sizeL (t :: ts2) = 1 + sizeT t + sizeL ts2 := by
              simp [sizeL]
            rw [decodeArgs_cons]
            rcases hdt : decodeTerm ⟨[], dflt⟩ t with err | a <;> dsimp only
            · intro heq
              injection heq with h2
              rw [h2] at hdt
              exact ihT t (by omega) hok.1 dflt tg2 hdt
            · rcases hda : decodeArgs ⟨[], dflt⟩ ts2 with err | as <;> dsimp only
              · intro heq
                injection heq with h2
                rw [h2] at hda
                exact ihL ts2 (by omega) hok.2 dflt tg2 hda
              · simp

/-- C10 (amended to terms without boolean nodes): every term built from
the decoder-covered model tags decodes without ever reaching the
"Cannot decode" branch. -/
theorem C10_decoder_covers_model (t : Term) (hok : declOk t = true)
    (dflt : Option (Obj → Obj → Obj)) (tg2 : String) :
    decodeTerm ⟨[], dflt⟩ t ≠ .error (.cannotDecode tg2) :=
  (decode_noCannot_aux (sizeT t)).1 t le_rfl hok dflt tg2

/-- C10 witness. -/
theorem C10_witness :
    decodeTerm ⟨[], none⟩ (.node "Nil" []) ≠ .error (.cannotDecode "Nil") :=
  C10_decoder_covers_model (.node "Nil" []) (by decide) none "Nil"

/-- C10 counterexample: a boolean inside a collection coerces to a
`true` node, whose tag has no decoder entry, so the decoder's
"Cannot decode" branch is reachable on model values with booleans. -/
theorem C10_counterexample :
    decodeTerm ⟨[], none⟩ (.node "Vector" [.node ".tuple." [.node "true" []]]) =
      .error (.cannotDecode "true") := rfl


mutual

/-- The built-in-rule fragment on which encode/decode is the identity
up to Python equality: numbers, text, `None`, tuples, sets (mutable or
frozen, since `set == frozenset` compares contents) and frozendicts,
nested arbitrarily.  Lists come back as tuples and dicts as
frozendicts (`==`-unequal), and booleans inside containers hit the
`true`/`false` decoder gap, so those are outside. -/
def c2Ok : Obj → Bool
  | .pynone => true
  | .pyint _ => true
  | .pyfloat _ => true
  | .pyuni _ => true
  | .pystr s => asciiOnly s
  | .pydec s => wfFloatLit s.data
  | .pytuple xs => c2OkL xs
  | .pyset xs => c2OkL xs
  | .pyfrozenset xs => c2OkL xs
  | .pyfrozendict ps => c2OkP ps
  | _ => false

/-- `c2Ok` on every element. -/
def c2OkL : List Obj → Bool
  | [] => true
  | x :: xs => c2Ok x && c2OkL xs

/-- `c2Ok` on both components of every pair. -/
def c2OkP : List (Obj × Obj) → Bool
  | [] => true
  | (k, v) :: ps => c2Ok k && c2Ok v && c2OkP ps

end

mutual

/-- Recursion budget needed to encode an object. -/
def sizeO : Obj → Nat
  | .pytuple xs => 1 + sizeOL xs
  | .pyset xs => 1 + sizeOL xs
  | .pyfrozenset xs => 1 + sizeOL xs
  | .pyfrozendict ps => 1 + sizeOP ps
  | _ => 1

/-- Budget for an element list. -/
def sizeOL : List Obj → Nat
  | [] => 1
  | x :: xs => 1 + sizeO x + sizeOL xs

/-- Budget for a pair list. -/
def sizeOP : List (Obj × Obj) → Nat
  | [] => 1
  | (k, v) :: ps => 1 + sizeO k + sizeO v + sizeOP ps

end

/-- Ordered elementwise Python equality on pair lists. -/
def pyPairsSeqEq : List (Obj × Obj) → List (Obj × Obj) → Bool
  | [], [] => true
  | (k, v) :: ps, (k2, v2) :: qs => pyEq k k2 && pyEq v v2 && pyPairsSeqEq ps qs
  | _, _ => false

/-- The decoded pair tuples, as the map decoder receives them. -/
def tupleObjs (prs : List (Obj × Obj)) : List Obj :=
  prs.map (fun p => .pytuple [p.1, p.2])

/-- The map decoder recovers the pairs from the decoded tuples. -/
theorem toPairs_tupleObjs (prs : List (Obj × Obj)) :
    toPairs (tupleObjs prs) = some prs := by
  induction prs with
  | nil => rfl
  | cons p rest ih =>
      obtain ⟨k, v⟩ := p
      rw [show tupleObjs ((k, v) :: rest) =
        .pytuple [k, v] :: tupleObjs rest from rfl, toPairs, ih]
      rfl

/-- Membership survives extending the searched list. -/
theorem pyMem_weaken (x y : Obj) (ys : List Obj) (h : pyMem x ys = true) :
    pyMem x (y :: ys) = true := by
  rw [pyMem, h]
  simp

/-- Subset survives extending the right-hand set. -/
theorem pySubset_weaken (xs : List Obj) (y : Obj) (ys : List Obj)
    (h : pySubset xs ys = true) : pySubset xs (y :: ys) = true := by
  induction xs with
  | nil => simp [pySubset]
  | cons x xs2 ih =>
      rw [pySubset] at h ⊢
      simp only [Bool.and_eq_true] at h ⊢
      exact ⟨pyMem_weaken x y ys h.1, ih h.2⟩

/-- Pointwise equal sequences are subsets. -/
theorem pySeqEq_subset : ∀ ys xs, pySeqEq ys xs = true → pySubset ys xs = true := by
  intro ys
  induction ys with
  | nil =>
      intro xs _
      simp [pySubset]
  | cons y ys2 ih =>
      intro xs h
      cases xs with
      | nil => exact absurd h (by simp [pySeqEq])
      | cons x xs2 =>
          rw [pySeqEq] at h
          simp only [Bool.and_eq_true] at h
          rw [pySubset]
          simp only [Bool.and_eq_true]
          refine ⟨by rw [pyMem, h.1]; simp, pySubset_weaken _ _ _ (ih xs2 h.2)⟩

/-- Reverse membership survives extending the searched list. -/
theorem pyMemRev_weaken (y : Obj) (ys : List Obj) (x : Obj)
    (h : pyMemRev ys x = true) : pyMemRev (y :: ys) x = true := by
  rw [pyMemRev, h]
  simp

/-- Superset survives extending the left-hand set. -/
theorem pySupset_weaken (y : Obj) (ys xs : List Obj)
    (h : pySupset ys xs = true) : pySupset (y :: ys) xs = true := by
  induction xs with
  | nil => simp [pySupset]
  | cons x xs2 ih =>
      rw [pySupset] at h ⊢
      simp only [Bool.and_eq_true] at h ⊢
      exact ⟨pyMemRev_weaken y ys x h.1, ih h.2⟩

/-- Pointwise equal sequences are supersets. -/
theorem pySeqEq_supset : ∀ ys xs, pySeqEq ys xs = true → pySupset ys xs = true := by
  intro ys
  induction ys with
  | nil =>
      intro xs h
      cases xs with
      | nil => simp [pySupset]
      | cons x xs2 => exact absurd h (by simp [pySeqEq])
  | cons y ys2 ih =>
      intro xs h
      cases xs with
      | nil => simp [pySupset]
      | cons x xs2 =>
          rw [pySeqEq] at h
          simp only [Bool.and_eq_true] at h
          rw [pySupset]
          simp only [Bool.and_eq_true]
          refine ⟨by rw [pyMemRev, h.1]; simp, pySupset_weaken _ _ _ (ih xs2 h.2)⟩

/-- Pair membership survives extending the searched list. -/
theorem pyPairMem_weaken (p q : Obj × Obj) (qs : List (Obj × Obj))
    (h : pyPairMem p qs = true) : pyPairMem p (q :: qs) = true := by
  obtain ⟨k, v⟩ := p
  obtain ⟨k2, v2⟩ := q
  rw [pyPairMem, h]
  simp

/-- Map inclusion survives extending the right-hand map. -/
theorem pyMapSub_weaken (ps : List (Obj × Obj)) (q : Obj × Obj)
    (qs : List (Obj × Obj)) (h : pyMapSub ps qs = true) :
    pyMapSub ps (q :: qs) = true := by
  induction ps with
  | nil => simp [pyMapSub]
  | cons p ps2 ih =>
      rw [pyMapSub] at h ⊢
      simp only [Bool.and_eq_true] at h ⊢
      exact ⟨pyPairMem_weaken p q qs h.1, ih h.2⟩

/-- Pointwise equal pair lists are map-included. -/
theorem pyPairsSeqEq_sub : ∀ prs ps, pyPairsSeqEq prs ps = true →
    pyMapSub prs ps = true := by
  intro prs
  induction prs with
  | nil =>
      intro ps _
      simp [pyMapSub]
  | cons p prs2 ih =>
      intro ps h
      obtain ⟨k, v⟩ := p
      cases ps with
      | nil => exact absurd h (by simp [pyPairsSeqEq])
      | cons q ps2 =>
          obtain ⟨k2, v2⟩ := q
          rw [pyPairsSeqEq] at h
          simp only [Bool.and_eq_true] at h
          rw [pyMapSub]
          simp only [Bool.and_eq_true]
          refine ⟨?_, pyMapSub_weaken _ _ _ (ih ps2 h.2)⟩
          rw [pyPairMem]
          simp [h.1.1, h.1.2]

/-- Reverse pair membership survives extending the searched list. -/
theorem pyPairMemRev_weaken (p : Obj × Obj) (ps : List (Obj × Obj))
    (q : Obj × Obj) (h : pyPairMemRev ps q = true) :
    pyPairMemRev (p :: ps) q = true := by
  obtain ⟨k, v⟩ := p
  obtain ⟨k2, v2⟩ := q
  rw [pyPairMemRev, h]
  simp

/-- Reverse map inclusion survives extending the left-hand map. -/
theorem pyMapSup_weaken (p : Obj × Obj) (ps qs : List (Obj × Obj))
    (h : pyMapSup ps qs = true) : pyMapSup (p :: ps) qs = true := by
  induction qs with
  | nil => simp [pyMapSup]
  | cons q qs2 ih =>
      rw [pyMapSup] at h ⊢
      simp only [Bool.and_eq_true] at h ⊢
      exact ⟨pyPairMemRev_weaken p ps q h.1, ih h.2⟩

/-- Pointwise equal pair lists are reverse map-included. -/
theorem pyPairsSeqEq_sup : ∀ prs ps, pyPairsSeqEq prs ps = true →
    pyMapSup prs ps = true := by
  intro prs
  induction prs with
  | nil =>
      intro ps h
      cases ps with
      | nil => simp [pyMapSup]
      | cons q ps2 => exact absurd h (by simp [pyPairsSeqEq])
  | cons p prs2 ih =>
      intro ps h
      obtain ⟨k, v⟩ := p
      cases ps with
      | nil => simp [pyMapSup]
      | cons q ps2 =>
          obtain ⟨k2, v2⟩ := q
          rw [pyPairsSeqEq] at h
          simp only [Bool.and_eq_true] at h
          rw [pyMapSup]
          simp only [Bool.and_eq_true]
          refine ⟨?_, pyMapSup_weaken _ _ _ (ih ps2 h.2)⟩
          rw [pyPairMemRev]
          simp [h.1.1, h.1.2]


/-- Encoding budgets are positive. -/
theorem sizeO_pos (x : Obj) : 1 ≤ sizeO x := by
  cases x <;> simp [sizeO]

/-- Element budgets are positive. -/
theorem sizeOL_pos (xs : List Obj) : 1 ≤ sizeOL xs := by
  cases xs with
  | nil => simp [sizeOL]
  | cons x xs2 =>
      simp [sizeOL]
      omega

/-- Pair budgets are positive. -/
theorem sizeOP_pos (ps : List (Obj × Obj)) : 1 ≤ sizeOP ps := by
  cases ps with
  | nil => simp [sizeOP]
  | cons p ps2 =>
      obtain ⟨k, v⟩ := p
      simp [sizeOP]
      omega

/-- On the built-in fragment, decoding undoes encoding up to Python
equality, elementwise through containers. -/
theorem c2_roundtrip_aux : ∀ fuel : Nat,
    (∀ x, c2Ok x = true → sizeO x ≤ fuel → ∃ e t y,
       to_terms fuel [] none x = .ok e ∧ coerceToTerm e = some t ∧
       decodeTerm ⟨[], none⟩ t = .ok y ∧ from_terms e [] none = .ok y ∧
       pyEq y x = true) ∧
    (∀ xs, c2OkL xs = true → sizeOL xs ≤ fuel → ∃ ts ys,
       encodeElems fuel [] none xs = .ok ts ∧
       decodeArgs ⟨[], none⟩ ts = .ok ys ∧ pySeqEq ys xs = true) ∧
    (∀ ps, c2OkP ps = true → sizeOP ps ≤ fuel → ∃ ts prs,
       encodePairs fuel [] none ps = .ok ts ∧
       decodeArgs ⟨[], none⟩ ts = .ok (tupleObjs prs) ∧
       pyPairsSeqEq prs ps = true) := by
  intro fuel
  induction fuel with
  | zero =>
      refine ⟨?_, ?_, ?_⟩
      · intro x _ hf
        exact absurd hf (by have := sizeO_pos x; omega)
      · intro xs _ hf
        exact absurd hf (by have := sizeOL_pos xs; omega)
      · intro ps _ hf
        exact absurd hf (by have := sizeOP_pos ps; omega)
  | succ n ih =>
      obtain ⟨ihO, ihL, ihP⟩ := ih
      refine ⟨?_, ?_, ?_⟩
      · intro x hok hsz
        cases x with
        | pynone =>
            exact ⟨.term (.node "Nil" []), .node "Nil" [], .pynone, rfl, rfl,
              rfl, rfl, by simp [pyEq]⟩
        | pyint n1 =>
            exact ⟨.pyint n1, .leaf (.pint n1), .pyint n1, rfl, rfl, rfl, rfl,
              by simp [pyEq]⟩
        | pyfloat u =>
            exact ⟨.pyfloat u, .leaf (.pfloat u), .pyfloat u, rfl, rfl, rfl, rfl,
              by simp [pyEq]⟩
        | pyuni s1 =>
            exact ⟨.term (.node "String" [.leaf (.puni s1)]),
              .node "String" [.leaf (.puni s1)], .pyuni s1, rfl, rfl, rfl, rfl,
              by simp [pyEq]⟩
        | pystr s1 =>
            simp only [c2Ok] at hok
            have hdec : decodeTerm ⟨[], none⟩ (.node "String" [.leaf (.pstr s1)]) =
                .ok (.pyuni s1) := by
              rw [decodeTerm_node, decodeArgs_cons, decodeTerm_leaf,
                show decodeArgs ⟨[], none⟩ [] = .ok [] from rfl]
              dsimp only
              rw [show applyDecoder ⟨[], none⟩ "String" [leafObj (.pstr s1)] =
                  pyUnicodeOf (.pystr s1) from rfl,
                show pyUnicodeOf (.pystr s1) =
                  (if asciiOnly s1 then Except.ok (Obj.pyuni s1)
                   else Except.error (.badPayload "UnicodeDecodeError")) from rfl,
                if_pos hok]
            exact ⟨.term (.node "String" [.leaf (.pstr s1)]),
              .node "String" [.leaf (.pstr s1)], .pyuni s1, rfl, rfl, hdec, hdec,
              by simp [pyEq, hok]⟩
        | pydec s1 =>
            simp only [c2Ok] at hok
            have hdec : decodeTerm ⟨[], none⟩
                (.node "ExactFloat" [.leaf (.pstr s1)]) = .ok (.pydec s1) := by
              rw [decodeTerm_node, decodeArgs_cons, decodeTerm_leaf,
                show decodeArgs ⟨[], none⟩ [] = .ok [] from rfl]
              dsimp only
              rw [show applyDecoder ⟨[], none⟩ "ExactFloat" [leafObj (.pstr s1)] =
                  (if wfFloatLit s1.data then Except.ok (Obj.pydec s1)
                   else Except.error (.badPayload "Decimal")) from rfl,
                if_pos hok]
            exact ⟨.term (.node "ExactFloat" [.leaf (.pstr s1)]),
              .node "ExactFloat" [.leaf (.pstr s1)], .pydec s1, rfl, rfl, hdec,
              hdec, by simp [pyEq]⟩
        | pytuple xs =>
            simp only [c2Ok] at hok
            have hsz2 : sizeOL xs ≤ n := by
              have h1 : sizeO (Obj.pytuple xs) = 1 + sizeOL xs := by simp [sizeO]
              omega
            obtain ⟨ts, ys, henc, hdec, hseq⟩ := ihL xs hok hsz2
            have hto : to_terms (n + 1) [] none (.pytuple xs) =
                .ok (.term (.node "List" [.node ".tuple." ts])) := by
              rw [to_terms_step, if_neg (by simp [getTagName]),
                show firstWriter ([] ++ DEFAULT_WRITERS) (.pytuple xs) = none
                  from rfl]
              dsimp only
              rw [henc]
            have hdec2 : decodeTerm ⟨[], none⟩
                (.node "List" [.node ".tuple." ts]) = .ok (.pytuple ys) := by
              rw [decodeTerm_node, decodeArgs_cons, decodeTerm_node, hdec]
              dsimp only
              rw [show applyDecoder ⟨[], none⟩ ".tuple." ys = .ok (.pytuple ys)
                  from rfl,
                show decodeArgs ⟨[], none⟩ [] = .ok [] from rfl]
              rfl
            exact ⟨_, _, _, hto, rfl, hdec2, hdec2, by simp [pyEq, hseq]⟩
        | pyfrozenset xs =>
            simp only [c2Ok] at hok
            have hsz2 : sizeOL xs ≤ n := by
              have h1 : sizeO (Obj.pyfrozenset xs) = 1 + sizeOL xs := by
                simp [sizeO]
              omega
            obtain ⟨ts, ys, henc, hdec, hseq⟩ := ihL xs hok hsz2
            have hto : to_terms (n + 1) [] none (.pyfrozenset xs) =
                .ok (.term (.node "Set" [.node ".tuple." ts])) := by
              rw [to_terms_step, if_neg (by simp [getTagName]),
                show firstWriter ([] ++ DEFAULT_WRITERS) (.pyfrozenset xs) = none
                  from rfl]
              dsimp only
              rw [henc]
            have hdec2 : decodeTerm ⟨[], none⟩
                (.node "Set" [.node ".tuple." ts]) = .ok (.pyfrozenset ys) := by
              rw [decodeTerm_node, decodeArgs_cons, decodeTerm_node, hdec]
              dsimp only
              rw [show applyDecoder ⟨[], none⟩ ".tuple." ys = .ok (.pytuple ys)
                  from rfl,
                show decodeArgs ⟨[], none⟩ [] = .ok [] from rfl]
              rfl
            exact ⟨_, _, _, hto, rfl, hdec2, hdec2,
              by simp [pyEq, pySeqEq_subset ys xs hseq, pySeqEq_supset ys xs hseq]⟩
        | pyfrozendict ps =>
            simp only [c2Ok] at hok
            have hsz2 : sizeOP ps ≤ n := by
              have h1 : sizeO (Obj.pyfrozendict ps) = 1 + sizeOP ps := by
                simp [sizeO]
              omega
            obtain ⟨ts, prs, henc, hdec, hpeq⟩ := ihP ps hok hsz2
            have hto : to_terms (n + 1) [] none (.pyfrozendict ps) =
                .ok (.term (.node "Map" [.node ".tuple." ts])) := by
              rw [to_terms_step, if_neg (by simp [getTagName]),
                show firstWriter ([] ++ DEFAULT_WRITERS) (.pyfrozendict ps) = none
                  from rfl]
              dsimp only
              rw [henc]
            have hdec2 : decodeTerm ⟨[], none⟩
                (.node "Map" [.node ".tuple." ts]) = .ok (.pyfrozendict prs) := by
              rw [decodeTerm_node, decodeArgs_cons, decodeTerm_node, hdec]
              dsimp only
              rw [show applyDecoder ⟨[], none⟩ ".tuple." (tupleObjs prs) =
                  .ok (.pytuple (tupleObjs prs)) from rfl,
                show decodeArgs ⟨[], none⟩ [] = .ok [] from rfl]
              dsimp only
              rw [show applyDecoder ⟨[], none⟩ "Map" [.pytuple (tupleObjs prs)] =
                  (match toPairs (tupleObjs prs) with
                   | some prs2 => Except.ok (Obj.pyfrozendict prs2)
                   | none => Except.error (.badPayload "frozendict")) from rfl,
                toPairs_tupleObjs]
            exact ⟨_, _, _, hto, rfl, hdec2, hdec2,
              by simp [pyEq, pyPairsSeqEq_sub prs ps hpeq,
                pyPairsSeqEq_sup prs ps hpeq]⟩
        | pyset xs =>
            simp only [c2Ok] at hok
            have hsz2 : sizeOL xs ≤ n := by
              have h1 : sizeO (Obj.pyset xs) = 1 + sizeOL xs := by simp [sizeO]
              omega
            obtain ⟨ts, ys, henc, hdec, hseq⟩ := ihL xs hok hsz2
            have hto : to_terms (n + 1) [] none (.pyset xs) =
                .ok (.term (.node "Set" [.node ".tuple." ts])) := by
              rw [to_terms_step, if_neg (by simp [getTagName]),
                show firstWriter ([] ++ DEFAULT_WRITERS) (.pyset xs) = none
                  from rfl]
              dsimp only
              rw [henc]
            have hdec2 : decodeTerm ⟨[], none⟩
                (.node "Set" [.node ".tuple." ts]) = .ok (.pyfrozenset ys) := by
              rw [decodeTerm_node, decodeArgs_cons, decodeTerm_node, hdec]
              dsimp only
              rw [show applyDecoder ⟨[], none⟩ ".tuple." ys = .ok (.pytuple ys)
                  from rfl,
                show decodeArgs ⟨[], none⟩ [] = .ok [] from rfl]
              rfl
            exact ⟨_, _, _, hto, rfl, hdec2, hdec2,
              by simp [pyEq, pySeqEq_subset ys xs hseq, pySeqEq_supset ys xs hseq]⟩
        | pybool b => simp [c2Ok] at hok
        | pylong n1 => simp [c2Ok] at hok
        | pylist xs => simp [c2Ok] at hok
        | pydict ps => simp [c2Ok] at hok
        | term t => simp [c2Ok] at hok
        | pydatetime s1 => simp [c2Ok] at hok
        | pyuuid s1 => simp [c2Ok] at hok
        | custom n1 => simp [c2Ok] at hok
      · intro xs hok hsz
        cases xs with
        | nil =>
            refine ⟨[], [], by rw [encodeElems], rfl, by simp [pySeqEq]⟩
        | cons x xs2 =>
            simp only [c2OkL, Bool.and_eq_true] at hok
            have h1 : sizeOL (x :: xs2) = 1 + sizeO x + sizeOL xs2 := by
              simp [sizeOL]
            obtain ⟨e, t, y, hto, hco, hdt, _, hpe⟩ := ihO x hok.1 (by omega)
            obtain ⟨ts2, ys2, henc2, hdec2, hseq2⟩ := ihL xs2 hok.2 (by omega)
            refine ⟨t :: ts2, y :: ys2, ?_, ?_, ?_⟩
            · rw [encodeElems_step, hto]
              dsimp only
              rw [hco]
              dsimp only
              rw [henc2]
            · rw [decodeArgs_cons, hdt]
              dsimp only
              rw [hdec2]
            · rw [pySeqEq]
              simp [hpe, hseq2]
      · intro ps hok hsz
        cases ps with
        | nil =>
            refine ⟨[], [], by rw [encodePairs], rfl, by simp [pyPairsSeqEq]⟩
        | cons p ps2 =>
            obtain ⟨k, v⟩ := p
            simp only [c2OkP, Bool.and_eq_true] at hok
            have h1 : sizeOP ((k, v) :: ps2) = 1 + sizeO k + sizeO v + sizeOP ps2 := by
              simp [sizeOP]
            obtain ⟨ek, tk, yk, htok, hcok, hdtk, _, hpek⟩ := ihO k hok.1.1 (by omega)
            obtain ⟨ev, tv, yv, htov, hcov, hdtv, _, hpev⟩ := ihO v hok.1.2 (by omega)
            obtain ⟨ts2, prs2, henc2, hdec2, hpeq2⟩ := ihP ps2 hok.2 (by omega)
            refine ⟨.node ".tuple." [tk, tv] :: ts2, (yk, yv) :: prs2, ?_, ?_, ?_⟩
            · rw [encodePairs_step, htok]
              dsimp only
              rw [htov]
              dsimp only
              rw [hcok, hcov]
              dsimp only
              rw [henc2]
            · rw [decodeArgs_cons, decodeTerm_node, decodeArgs_cons, hdtk,
                decodeArgs_cons, hdtv,
                show decodeArgs ⟨[], none⟩ [] = .ok [] from rfl]
              dsimp only
              rw [show applyDecoder ⟨[], none⟩ ".tuple." [yk, yv] =
                  .ok (.pytuple [yk, yv]) from rfl]
              dsimp only
              rw [hdec2]
              rfl
            · rw [pyPairsSeqEq]
              simp [hpek, hpev, hpeq2]

/-- C2 counterexample: a Python list encodes as a Vector but decodes to
a tuple, which Python does not consider equal to the original list. -/
theorem C2_counterexample :
    to_terms 3 [] none (.pylist [.pyint 1]) =
      .ok (.term (.node "Vector" [.node ".tuple." [.leaf (.pint 1)]])) ∧
    from_terms (.term (.node "Vector" [.node ".tuple." [.leaf (.pint 1)]]))
      [] none = .ok (.pytuple [.pyint 1]) ∧
    pyEq (.pytuple [.pyint 1]) (.pylist [.pyint 1]) = false :=
  ⟨rfl, rfl, by rw [pyEq.eq_def]⟩

/-- C2 (amended to the fragment of numbers, text, `None`, tuples, sets
and frozendicts): decoding the encoding is the identity up to Python
equality (a mutable set comes back as a content-equal frozenset), for
arbitrarily deep nesting within any sufficient recursion budget. -/
theorem C2_encode_decode_identity (x : Obj) (hok : c2Ok x = true)
    (fuel : Nat) (hf : sizeO x ≤ fuel) :
    ∃ e y, to_terms fuel [] none x = .ok e ∧ from_terms e [] none = .ok y ∧
      pyEq y x = true := by
  obtain ⟨e, t, y, h1, _, _, h4, h5⟩ := (c2_roundtrip_aux fuel).1 x hok hf
  exact ⟨e, y, h1, h4, h5⟩

/-- C2 witness. -/
theorem C2_witness :
    ∃ e y, to_terms 4 [] none (.pytuple [.pyint 1]) = .ok e ∧
      from_terms e [] none = .ok y ∧ pyEq y (.pytuple [.pyint 1]) = true :=
  C2_encode_decode_identity (.pytuple [.pyint 1]) (by decide) 4 (by decide)


/-- Every value the executable model's `parse` produces unparses
successfully and reparses to the same value (strings reprint in
escaped form and reparse equal; collections reparse with their element
order intact).  Binary 64-bit float literals are outside this model:
their parsing and printing delegate to the host `float()`/`str`, whose
12-significant-digit truncation breaks the reparse identity on doubles
that need more digits. -/
theorem parse_values_reparse (s : String) (v : Obj) (h : parse s = some v) :
    ∃ out, unparse v = .ok out ∧ parse (String.mk out) = some v :=
  unparse_reparse v (parse_sound s v h)

/-- A closed instance of the reparse identity. -/
theorem parse_values_reparse_example :
    parse "1" = some (.pyint 1) ∧
    ∃ out, unparse (.pyint 1) = .ok out ∧
      parse (String.mk out) = some (.pyint 1) :=
  ⟨rfl, parse_values_reparse "1" (.pyint 1) rfl⟩

end EdnSpec
